import Mathlib

/-!
# Verification of `FreeListAllocator` (src/FreeListAllocator)

A shallow embedding of `FreeListAllocator.cpp` on its 32-bit target (the code casts
pointers to `u32`, so `sizeof(block_s) = 8`).  Addresses and sizes are naturals;
`u32` bit operations on the low bit are written as explicit arithmetic on naturals
(see `setFreeBit` / `clearFreeBit`).  The heap is modelled as a total function from
addresses to `block_s` headers: the allocator only ever reads headers at addresses
it previously wrote, and unwritten addresses hold a junk header.
-/

namespace FLA

/-- Modelled from the spec: `MemUtils_Align` (declared in `engine/memory/MemoryUtils.h`,
whose source is not part of this snapshot).  Spec §4.1: "rounds an integer up to the
nearest multiple of a power-of-two alignment", pure and total, with no overflow for the
values the allocator passes it.  For `alignment = 0` the usual bit implementation
`(v + a - 1) & ~(a - 1)` yields `0`, which this definition mirrors. -/
def MemUtils_Align (value alignment : Nat) : Nat :=
  if alignment = 0 then 0 else alignment * ((value + alignment - 1) / alignment)

def ALIGN_8 : Nat := 8

/-- `ALIGNED_HEADER_SIZE = MemUtils_Align(sizeof(block_s), ALIGN_8)`;
`sizeof(block_s) = 8` on the 32-bit target (4-byte pointer plus 4-byte `u32`). -/
def ALIGNED_HEADER_SIZE : Nat := MemUtils_Align 8 ALIGN_8

/-- `MIN_ALLOC_SIZE = ALIGNED_HEADER_SIZE + ALIGNED_HEADER_SIZE`. -/
def MIN_ALLOC_SIZE : Nat := ALIGNED_HEADER_SIZE + ALIGNED_HEADER_SIZE

/-- Block header `FreeListAllocator::block_s`: `next` is the free-list link
(`none` models `NULL`), `size` is the payload size with its low bit repurposed
as the in-use flag (0 = free, 1 = in use). -/
structure block_s where
  next : Option Nat
  size : Nat
deriving DecidableEq

/-- `x | FREE_BIT_MASK`: sets bit 0 of a `u32`, i.e. `2*(x/2) + 1`. -/
def setFreeBit (x : Nat) : Nat := 2 * (x / 2) + 1

/-- `x & ~FREE_BIT_MASK` on a `u32` value: clears bit 0, i.e. `2*(x/2)`. -/
def clearFreeBit (x : Nat) : Nat := 2 * (x / 2)

/-- `IS_BLOCK_FREE(block) = !(block->size & FREE_BIT_MASK)`. -/
def IS_BLOCK_FREE (h : block_s) : Bool := h.size % 2 == 0

/-- Allocator state.  `m_heap` is the base address handed out by `malloc`;
`mem` is the heap content viewed as the header stored at each address (junk
`⟨none, 0⟩` where nothing was written); `m_firstFree` is the free-list head.
`heapSize` records the construction parameter; the model uses it only as a fuel
bound for the list walks, which the C code instead bounds by the (finite,
acyclic) list structure that holds in every reachable state. -/
structure State where
  m_heap : Nat
  heapSize : Nat
  mem : Nat → block_s
  m_firstFree : Option Nat

/-- Store a header at an address. -/
def writeMem (mem : Nat → block_s) (a : Nat) (h : block_s) : Nat → block_s :=
  fun x => if x = a then h else mem x

/-- `a->next = n`. -/
def setNext (s : State) (a : Nat) (n : Option Nat) : State :=
  { s with mem := writeMem s.mem a { s.mem a with next := n } }

/-- `a->size = v`. -/
def setSize (s : State) (a : Nat) (v : Nat) : State :=
  { s with mem := writeMem s.mem a { s.mem a with size := v } }

/-- `FreeListAllocator::FreeListAllocator(u32 heapSize)` (lines 26–34), with the
`malloc` result modelled as the parameter `heapBase`.
`m_firstFree = Align(m_heap, ALIGN_8)`, its `next` is `NULL` and its `size` is
`heapSize - ALIGNED_HEADER_SIZE - (m_firstFree - m_heap)`. -/
def construct (heapBase heapSize : Nat) : State :=
  let firstFree := MemUtils_Align heapBase ALIGN_8
  { m_heap := heapBase
    heapSize := heapSize
    mem := writeMem (fun _ => ⟨none, 0⟩) firstFree
      ⟨none, heapSize - ALIGNED_HEADER_SIZE - (firstFree - heapBase)⟩
    m_firstFree := some firstFree }

/-- The first-fit search loop of `AllocateAligned` (lines 89–104): walk
`(prevBlock, block)` down the free list until a block with
`sizeNeeded <= block->size` is found or the list ends.  `fuel` bounds the walk;
callers pass more fuel than the list is long, so the bound is never hit in a
reachable state. -/
def findFitLoop (mem : Nat → block_s) (sizeNeeded : Nat) :
    Nat → Option Nat → Option Nat → Option Nat × Option Nat
  | 0, prevBlock, block => (prevBlock, block)
  | _ + 1, prevBlock, none => (prevBlock, none)
  | fuel + 1, prevBlock, some b =>
    if sizeNeeded ≤ (mem b).size then (prevBlock, some b)
    else findFitLoop mem sizeNeeded fuel (some b) (mem b).next

/-- `sizeNeeded` as computed by `AllocateAligned` lines 75–87: the request raised
to at least `ALIGNED_HEADER_SIZE`, rounded up to `alignment`, plus one aligned
header size. -/
def sizeNeededFor (numBytes alignment : Nat) : Nat :=
  MemUtils_Align (if numBytes < ALIGNED_HEADER_SIZE then ALIGNED_HEADER_SIZE else numBytes)
    alignment + ALIGNED_HEADER_SIZE

/-- The tail of `AllocateAligned` once the first-fit walk has produced
`(prevBlock, block)` with `block` non-null (lines 112–152). -/
def allocFinish (s : State) (sizeNeeded : Nat) (prevBlock : Option Nat) (block : Nat) :
    State × Option Nat :=
  -- lines 114–129: split the block if another allocation fits after this one
  let s :=
    if sizeNeeded + MIN_ALLOC_SIZE ≤ (s.mem block).size then
      let newBlock := block + sizeNeeded
      let s1 := setNext s newBlock (s.mem block).next
      let s2 := setSize s1 newBlock ((s1.mem block).size - sizeNeeded)
      let s3 := setNext s2 block (some newBlock)
      setSize s3 block (sizeNeeded - ALIGNED_HEADER_SIZE)
    else s
  -- lines 131–143: unlink from the free list
  let s :=
    match prevBlock with
    | some pb => setNext s pb (s.mem block).next
    | none =>
      { s with m_firstFree := match s.m_firstFree with
                              | some ff => (s.mem ff).next
                              | none => none }
  -- lines 145–150: clear next, set the in-use flag, return block + header size
  let s := setNext s block none
  let s := setSize s block (setFreeBit (s.mem block).size)
  (s, some (block + ALIGNED_HEADER_SIZE))

/-- `FreeListAllocator::AllocateAligned(u32 numBytes, const align_t alignment)`
(lines 73–153).  Returns the new state and the returned pointer (`none` = `NULL`). -/
def AllocateAligned (s : State) (numBytes alignment : Nat) : State × Option Nat :=
  let sizeNeeded := sizeNeededFor numBytes alignment
  -- lines 89–104: first-fit walk
  match findFitLoop s.mem sizeNeeded (s.heapSize + 1) none s.m_firstFree with
  | (_, none) => (s, none)  -- lines 106–110: no block large enough
  | (prevBlock, some block) => allocFinish s sizeNeeded prevBlock block

/-- `FreeListAllocator::Allocate(u32 numBytes)` (lines 57–60). -/
def Allocate (s : State) (numBytes : Nat) : State × Option Nat :=
  AllocateAligned s numBytes ALIGN_8

/-- The address-ordered reinsertion walk of `Free` (lines 198–202): advance
`(prevBlock, nextBlock)` while `nextBlock && nextBlock < block`. -/
def findInsertLoop (mem : Nat → block_s) (blockAddr : Nat) :
    Nat → Option Nat → Option Nat → Option Nat × Option Nat
  | 0, prevBlock, nextBlock => (prevBlock, nextBlock)
  | _ + 1, prevBlock, none => (prevBlock, none)
  | fuel + 1, prevBlock, some nb =>
    if nb < blockAddr then findInsertLoop mem blockAddr fuel (some nb) (mem nb).next
    else (prevBlock, some nb)

/-- The tail of `Free` once the reinsertion walk has produced
`(prevBlock, nextBlock)` (lines 204–241): link the freed block in after
`prevBlock` (or at the head), coalescing with `prevBlock` and with `nextBlock`
when physically adjacent. -/
def freeFinish (s : State) (block : Nat) (prevBlock nextBlock : Option Nat) : State :=
  -- lines 204–226
  let (s, block) :=
    match prevBlock with
    | some pb =>
      let s := setNext s pb (some block)
      let nextAddr := pb + (s.mem pb).size + ALIGNED_HEADER_SIZE
      if nextAddr = block then
        -- lines 211–218: combine prevBlock with the freed block
        let s := setSize s pb ((s.mem pb).size + (s.mem block).size + ALIGNED_HEADER_SIZE)
        let s := setNext s pb nextBlock
        (s, pb)
      else (s, block)
    | none => ({ s with m_firstFree := some block }, block)  -- lines 220–226
  -- lines 228–241
  match nextBlock with
  | some nb =>
    let s := setNext s block (some nb)
    let nextAddr := block + (s.mem block).size + ALIGNED_HEADER_SIZE
    if nextAddr = nb then
      -- lines 235–240: combine the block with nextBlock
      let s := setSize s block ((s.mem block).size + (s.mem nb).size + ALIGNED_HEADER_SIZE)
      setNext s block (s.mem nb).next
    else s
  | none => s

/-- `FreeListAllocator::Free(void* ptr)` (lines 173–242). -/
def Free (s : State) (ptr : Option Nat) : State :=
  match ptr with
  | none => s  -- lines 175–179: freeing NULL
  | some p =>
    -- line 182: recover the header
    let block := p - ALIGNED_HEADER_SIZE
    if IS_BLOCK_FREE (s.mem block) then s  -- lines 184–188: already freed
    else
      -- line 191: clear the in-use flag
      let s := setSize s block (clearFreeBit (s.mem block).size)
      -- lines 194–202: find adjacent blocks based on memory address
      match findInsertLoop s.mem block (s.heapSize + 1) none s.m_firstFree with
      | (prevBlock, nextBlock) => freeFinish s block prevBlock nextBlock

/-- `FreeListAllocator::GetBlockSize(void* ptr)` (lines 251–259):
`block->size & ~FREE_BIT_MASK` at `ptr - ALIGNED_HEADER_SIZE`. -/
def GetBlockSize (s : State) (p : Nat) : Nat :=
  clearFreeBit (s.mem (p - ALIGNED_HEADER_SIZE)).size

end FLA

namespace FLA

/-! ## Basic arithmetic lemmas -/

theorem AHS_eq : ALIGNED_HEADER_SIZE = 8 := by decide

theorem MIN_ALLOC_eq : MIN_ALLOC_SIZE = 16 := by decide

theorem le_align (value : Nat) {alignment : Nat} (ha : 0 < alignment) :
    value ≤ MemUtils_Align value alignment := by
  unfold MemUtils_Align
  rw [if_neg (by omega), Nat.mul_comm]
  have h1 := Nat.lt_div_mul_add (a := value + alignment - 1) ha
  generalize (value + alignment - 1) / alignment * alignment = X at h1 ⊢
  omega

theorem dvd_align (value alignment : Nat) : alignment ∣ MemUtils_Align value alignment := by
  unfold MemUtils_Align
  split
  · simp
  · exact Dvd.intro _ rfl

theorem align_lt (value : Nat) {alignment : Nat} (ha : 0 < alignment) :
    MemUtils_Align value alignment < value + alignment := by
  unfold MemUtils_Align
  rw [if_neg (by omega), Nat.mul_comm]
  have h1 := Nat.div_mul_le_self (value + alignment - 1) alignment
  generalize (value + alignment - 1) / alignment * alignment = X at h1 ⊢
  omega

theorem align_eq_of_dvd {value alignment : Nat} (ha : 0 < alignment) (h : alignment ∣ value) :
    MemUtils_Align value alignment = value := by
  obtain ⟨k, rfl⟩ := h
  unfold MemUtils_Align
  rw [if_neg (by omega)]
  have hk : alignment * k + alignment - 1 = alignment - 1 + alignment * k := by omega
  rw [hk, Nat.add_mul_div_left _ _ ha, Nat.div_eq_of_lt (by omega)]
  ring

theorem two_dvd_align {value alignment : Nat} (h : 2 ∣ alignment) :
    2 ∣ MemUtils_Align value alignment :=
  dvd_trans h (dvd_align value alignment)

theorem setFreeBit_of_even {x : Nat} (h : 2 ∣ x) : setFreeBit x = x + 1 := by
  obtain ⟨k, rfl⟩ := h
  simp [setFreeBit, Nat.mul_div_cancel_left]

theorem clearFreeBit_of_even {x : Nat} (h : 2 ∣ x) : clearFreeBit x = x := by
  obtain ⟨k, rfl⟩ := h
  simp [clearFreeBit, Nat.mul_div_cancel_left]

theorem clearFreeBit_succ_of_even {x : Nat} (h : 2 ∣ x) : clearFreeBit (x + 1) = x := by
  obtain ⟨k, rfl⟩ := h
  simp [clearFreeBit]
  omega

theorem IS_BLOCK_FREE_iff (h : block_s) : IS_BLOCK_FREE h = true ↔ 2 ∣ h.size := by
  simp [IS_BLOCK_FREE, Nat.dvd_iff_mod_eq_zero]

/-! ## Reading back heap writes -/

@[simp] theorem writeMem_self (mem : Nat → block_s) (a : Nat) (h : block_s) :
    writeMem mem a h a = h := by simp [writeMem]

theorem writeMem_ne (mem : Nat → block_s) {a x : Nat} (h : block_s) (hx : x ≠ a) :
    writeMem mem a h x = mem x := by simp [writeMem, hx]

@[simp] theorem setNext_m_heap (s : State) (a : Nat) (n : Option Nat) :
    (setNext s a n).m_heap = s.m_heap := rfl
@[simp] theorem setNext_heapSize (s : State) (a : Nat) (n : Option Nat) :
    (setNext s a n).heapSize = s.heapSize := rfl
@[simp] theorem setNext_m_firstFree (s : State) (a : Nat) (n : Option Nat) :
    (setNext s a n).m_firstFree = s.m_firstFree := rfl
@[simp] theorem setSize_m_heap (s : State) (a : Nat) (v : Nat) :
    (setSize s a v).m_heap = s.m_heap := rfl
@[simp] theorem setSize_heapSize (s : State) (a : Nat) (v : Nat) :
    (setSize s a v).heapSize = s.heapSize := rfl
@[simp] theorem setSize_m_firstFree (s : State) (a : Nat) (v : Nat) :
    (setSize s a v).m_firstFree = s.m_firstFree := rfl

/-- `setNext` changes no size field. -/
@[simp] theorem size_setNext (s : State) (a : Nat) (n : Option Nat) (x : Nat) :
    ((setNext s a n).mem x).size = (s.mem x).size := by
  by_cases hx : x = a <;> simp [setNext, writeMem, hx]

/-- `setSize` changes no next field. -/
@[simp] theorem next_setSize (s : State) (a : Nat) (v : Nat) (x : Nat) :
    ((setSize s a v).mem x).next = (s.mem x).next := by
  by_cases hx : x = a <;> simp [setSize, writeMem, hx]

@[simp] theorem next_setNext_self (s : State) (a : Nat) (n : Option Nat) :
    ((setNext s a n).mem a).next = n := by simp [setNext]

theorem next_setNext_ne (s : State) {a x : Nat} (n : Option Nat) (hx : x ≠ a) :
    ((setNext s a n).mem x).next = (s.mem x).next := by
  simp [setNext, writeMem, hx]

@[simp] theorem size_setSize_self (s : State) (a : Nat) (v : Nat) :
    ((setSize s a v).mem a).size = v := by simp [setSize]

theorem size_setSize_ne (s : State) {a x : Nat} (v : Nat) (hx : x ≠ a) :
    ((setSize s a v).mem x).size = (s.mem x).size := by
  simp [setSize, writeMem, hx]

end FLA

namespace FLA

/-! ## Abstract block-level view -/

/-- Spec-level view of one block: header address, payload size (in-use flag masked
off), and whether the block is free. -/
structure Blk where
  addr : Nat
  sz : Nat
  free : Bool
deriving DecidableEq

/-- One past the end of a block's footprint (header plus payload). -/
def footEnd (b : Blk) : Nat := b.addr + ALIGNED_HEADER_SIZE + b.sz

/-- The blocks `bs` tile the region `[start, stop)` contiguously and in address
order: each block sits exactly where the previous one ends. -/
def tilesFrom (start stop : Nat) : List Blk → Prop
  | [] => start = stop
  | b :: rest => b.addr = start ∧ tilesFrom (footEnd b) stop rest

theorem tilesFrom_nil {s e : Nat} : tilesFrom s e [] ↔ s = e := Iff.rfl

theorem tilesFrom_cons {s e : Nat} {b : Blk} {l : List Blk} :
    tilesFrom s e (b :: l) ↔ b.addr = s ∧ tilesFrom (footEnd b) e l := Iff.rfl

theorem tilesFrom_append {s e : Nat} {L R : List Blk} :
    tilesFrom s e (L ++ R) ↔ ∃ m, tilesFrom s m L ∧ tilesFrom m e R := by
  induction L generalizing s with
  | nil => simp [tilesFrom]
  | cons b L ih =>
    simp only [List.cons_append, tilesFrom_cons, ih]
    constructor
    · rintro ⟨rfl, m, h1, h2⟩; exact ⟨m, ⟨rfl, h1⟩, h2⟩
    · rintro ⟨m, ⟨rfl, h1⟩, h2⟩; exact ⟨rfl, m, h1, h2⟩

theorem tilesFrom_le {s e : Nat} {l : List Blk} (h : tilesFrom s e l) : s ≤ e := by
  induction l generalizing s with
  | nil => exact h.le
  | cons b l ih =>
    obtain ⟨rfl, h2⟩ := h
    have := ih h2
    simp [footEnd] at this
    omega

theorem tilesFrom_bounds {s e : Nat} {l : List Blk} (h : tilesFrom s e l) :
    ∀ b ∈ l, s ≤ b.addr ∧ footEnd b ≤ e := by
  induction l generalizing s with
  | nil => simp
  | cons c l ih =>
    obtain ⟨rfl, h2⟩ := h
    intro b hb
    rcases List.mem_cons.mp hb with rfl | hb
    · exact ⟨Nat.le_refl _, tilesFrom_le h2⟩
    · have := ih h2 b hb
      simp [footEnd] at this ⊢
      omega

theorem tilesFrom_length {s e : Nat} {l : List Blk} (h : tilesFrom s e l) :
    s + l.length ≤ e := by
  induction l generalizing s with
  | nil => simp [tilesFrom_nil.mp h]
  | cons b l ih =>
    obtain ⟨rfl, h2⟩ := h
    have := ih h2
    simp [footEnd, AHS_eq] at this ⊢
    omega

theorem tilesFrom_pairwise {s e : Nat} {l : List Blk} (h : tilesFrom s e l) :
    l.Pairwise (fun x y => footEnd x ≤ y.addr) := by
  induction l generalizing s with
  | nil => exact List.Pairwise.nil
  | cons b l ih =>
    obtain ⟨rfl, h2⟩ := h
    exact List.Pairwise.cons (fun y hy => (tilesFrom_bounds h2 y hy).1) (ih h2)

theorem addr_lt_footEnd (b : Blk) : b.addr < footEnd b := by
  simp [footEnd, AHS_eq]; omega

/-- Addresses of the free blocks, in block order. -/
def freeAddrs (bs : List Blk) : List Nat :=
  (bs.filter (fun b => b.free)).map (fun b => b.addr)

theorem freeAddrs_append (L R : List Blk) :
    freeAddrs (L ++ R) = freeAddrs L ++ freeAddrs R := by
  simp [freeAddrs, List.filter_append]

/-- `linksFrom mem o l t`: starting from the pointer `o` and following `next`
fields visits exactly the addresses in `l`, ending with the pointer `t`. -/
def linksFrom (mem : Nat → block_s) : Option Nat → List Nat → Option Nat → Prop
  | o, [], t => o = t
  | o, a :: rest, t => o = some a ∧ linksFrom mem (mem a).next rest t

theorem linksFrom_nil {mem : Nat → block_s} {o t : Option Nat} :
    linksFrom mem o [] t ↔ o = t := Iff.rfl

theorem linksFrom_cons {mem : Nat → block_s} {o t : Option Nat} {a : Nat} {l : List Nat} :
    linksFrom mem o (a :: l) t ↔ o = some a ∧ linksFrom mem (mem a).next l t := Iff.rfl

theorem linksFrom_append {mem : Nat → block_s} {o t : Option Nat} {l1 l2 : List Nat} :
    linksFrom mem o (l1 ++ l2) t ↔ ∃ m, linksFrom mem o l1 m ∧ linksFrom mem m l2 t := by
  induction l1 generalizing o with
  | nil => simp [linksFrom]
  | cons a l ih =>
    simp only [List.cons_append, linksFrom_cons, ih]
    constructor
    · rintro ⟨rfl, m, h1, h2⟩; exact ⟨m, ⟨rfl, h1⟩, h2⟩
    · rintro ⟨m, ⟨rfl, h1⟩, h2⟩; exact ⟨rfl, m, h1, h2⟩

theorem linksFrom_congr {mem1 mem2 : Nat → block_s} {o t : Option Nat} {l : List Nat}
    (h : ∀ x ∈ l, (mem1 x).next = (mem2 x).next) :
    linksFrom mem1 o l t ↔ linksFrom mem2 o l t := by
  induction l generalizing o with
  | nil => exact Iff.rfl
  | cons a l ih =>
    simp only [linksFrom_cons]
    rw [h a (by simp), ih (fun x hx => h x (List.mem_cons_of_mem _ hx))]

/-- Walk the free list, collecting the visited addresses (bounded by `fuel`). -/
def chain (mem : Nat → block_s) : Nat → Option Nat → List Nat
  | 0, _ => []
  | _ + 1, none => []
  | fuel + 1, some a => a :: chain mem fuel (mem a).next

theorem chain_eq_of_linksFrom {mem : Nat → block_s} {o : Option Nat} {l : List Nat}
    {fuel : Nat} (h : linksFrom mem o l none) (hf : l.length < fuel) :
    chain mem fuel o = l := by
  induction l generalizing o fuel with
  | nil =>
    obtain ⟨f, rfl⟩ : ∃ f, fuel = f + 1 := ⟨fuel - 1, by omega⟩
    rw [linksFrom_nil.mp h]
    rfl
  | cons a l ih =>
    obtain ⟨ha, h2⟩ := h
    obtain ⟨f, rfl⟩ : ∃ f, fuel = f + 1 := ⟨fuel - 1, by omega⟩
    subst ha
    simp only [chain]
    rw [ih h2 (by simp at hf; omega)]

/-- No two consecutive blocks are both free: the allocator's coalescing invariant. -/
def notBothFree (b1 b2 : Blk) : Prop := ¬(b1.free = true ∧ b2.free = true)

/-- The state `s` realizes the spec-level block list `bs`:
the blocks tile the managed region `[Align(m_heap, 8), m_heap + heapSize)`;
each header stores the payload size with the in-use flag in the low bit;
payload sizes are even, so the flag packing is reversible;
in-use blocks keep a `NULL` next pointer (`AllocateAligned` line 145);
the free list threads exactly the free blocks in address order;
and no two physically adjacent blocks are both free. -/
def models (s : State) (bs : List Blk) : Prop :=
  tilesFrom (MemUtils_Align s.m_heap ALIGN_8) (s.m_heap + s.heapSize) bs
  ∧ (∀ b ∈ bs, (s.mem b.addr).size = if b.free then b.sz else b.sz + 1)
  ∧ (∀ b ∈ bs, 2 ∣ b.sz)
  ∧ (∀ b ∈ bs, b.free = false → (s.mem b.addr).next = none)
  ∧ linksFrom s.mem s.m_firstFree (freeAddrs bs) none
  ∧ List.Chain' notBothFree bs

end FLA

namespace FLA

/-! ## Characterizing the two list walks -/

/-- The `prevBlock` tracker after walking past all of `l`: the last element of
`l`, or the starting value if `l` is empty. -/
def lastOr (l : List Nat) (d : Option Nat) : Option Nat := l.getLast?.or d

theorem lastOr_cons (a : Nat) (l : List Nat) (d : Option Nat) :
    lastOr (a :: l) d = lastOr l (some a) := by
  cases l with
  | nil => simp [lastOr]
  | cons b l =>
    rw [lastOr, lastOr, List.getLast?_cons_cons]
    rcases hz : (b :: l).getLast? with _ | z
    · exact absurd (List.getLast?_eq_none_iff.mp hz) (by simp)
    · simp [Option.or]

theorem findFitLoop_none_eq {mem : Nat → block_s} {need : Nat} {o : Option Nat}
    {l : List Nat} {fuel : Nat} (prev : Option Nat)
    (hl : linksFrom mem o l none) (hf : l.length < fuel)
    (hsmall : ∀ x ∈ l, (mem x).size < need) :
    findFitLoop mem need fuel prev o = (lastOr l prev, none) := by
  induction l generalizing o prev fuel with
  | nil =>
    obtain ⟨f, rfl⟩ : ∃ f, fuel = f + 1 := ⟨fuel - 1, by omega⟩
    rw [linksFrom_nil.mp hl]
    rfl
  | cons a l ih =>
    obtain ⟨rfl, h2⟩ := hl
    obtain ⟨f, rfl⟩ : ∃ f, fuel = f + 1 := ⟨fuel - 1, by omega⟩
    rw [findFitLoop, if_neg (by have := hsmall a (by simp); omega), lastOr_cons]
    exact ih _ h2 (by simp at hf; omega) (fun x hx => hsmall x (List.mem_cons_of_mem _ hx))

theorem findFitLoop_found_eq {mem : Nat → block_s} {need : Nat} {o : Option Nat}
    {l1 l2 : List Nat} {x : Nat} {fuel : Nat} (prev : Option Nat)
    (hl : linksFrom mem o (l1 ++ x :: l2) none) (hf : (l1 ++ x :: l2).length < fuel)
    (hsmall : ∀ y ∈ l1, (mem y).size < need) (hx : need ≤ (mem x).size) :
    findFitLoop mem need fuel prev o = (lastOr l1 prev, some x) := by
  induction l1 generalizing o prev fuel with
  | nil =>
    obtain ⟨rfl, _⟩ := hl
    obtain ⟨f, rfl⟩ : ∃ f, fuel = f + 1 := ⟨fuel - 1, by omega⟩
    rw [findFitLoop, if_pos hx]
    rfl
  | cons a l1 ih =>
    obtain ⟨rfl, h2⟩ := hl
    obtain ⟨f, rfl⟩ : ∃ f, fuel = f + 1 := ⟨fuel - 1, by omega⟩
    rw [findFitLoop, if_neg (by have := hsmall a (by simp); omega), lastOr_cons]
    have hf' : (l1 ++ x :: l2).length < f := by
      simp only [List.cons_append, List.length_cons] at hf
      omega
    exact ih _ h2 hf' (fun y hy => hsmall y (List.mem_cons_of_mem _ hy))

theorem findInsertLoop_none_eq {mem : Nat → block_s} {blockAddr : Nat} {o : Option Nat}
    {l : List Nat} {fuel : Nat} (prev : Option Nat)
    (hl : linksFrom mem o l none) (hf : l.length < fuel)
    (hsmall : ∀ x ∈ l, x < blockAddr) :
    findInsertLoop mem blockAddr fuel prev o = (lastOr l prev, none) := by
  induction l generalizing o prev fuel with
  | nil =>
    obtain ⟨f, rfl⟩ : ∃ f, fuel = f + 1 := ⟨fuel - 1, by omega⟩
    rw [linksFrom_nil.mp hl]
    rfl
  | cons a l ih =>
    obtain ⟨rfl, h2⟩ := hl
    obtain ⟨f, rfl⟩ : ∃ f, fuel = f + 1 := ⟨fuel - 1, by omega⟩
    rw [findInsertLoop, if_pos (hsmall a (by simp)), lastOr_cons]
    exact ih _ h2 (by simp at hf; omega) (fun x hx => hsmall x (List.mem_cons_of_mem _ hx))

theorem findInsertLoop_found_eq {mem : Nat → block_s} {blockAddr : Nat} {o : Option Nat}
    {l1 l2 : List Nat} {x : Nat} {fuel : Nat} (prev : Option Nat)
    (hl : linksFrom mem o (l1 ++ x :: l2) none) (hf : (l1 ++ x :: l2).length < fuel)
    (hsmall : ∀ y ∈ l1, y < blockAddr) (hx : ¬x < blockAddr) :
    findInsertLoop mem blockAddr fuel prev o = (lastOr l1 prev, some x) := by
  induction l1 generalizing o prev fuel with
  | nil =>
    obtain ⟨rfl, _⟩ := hl
    obtain ⟨f, rfl⟩ : ∃ f, fuel = f + 1 := ⟨fuel - 1, by omega⟩
    rw [findInsertLoop, if_neg hx]
    rfl
  | cons a l1 ih =>
    obtain ⟨rfl, h2⟩ := hl
    obtain ⟨f, rfl⟩ : ∃ f, fuel = f + 1 := ⟨fuel - 1, by omega⟩
    rw [findInsertLoop, if_pos (hsmall a (by simp)), lastOr_cons]
    have hf' : (l1 ++ x :: l2).length < f := by
      simp only [List.cons_append, List.length_cons] at hf
      omega
    exact ih _ h2 hf' (fun y hy => hsmall y (List.mem_cons_of_mem _ hy))

end FLA

namespace FLA

/-! ## The freshly constructed state -/

theorem align8_of_dvd {n : Nat} (h : 8 ∣ n) : MemUtils_Align n ALIGN_8 = n :=
  align_eq_of_dvd (by decide) h

/-- A fresh allocator (8-aligned `malloc` result, even heap size of at least one
header) realizes a single free block covering the whole heap. -/
theorem models_construct (heapBase heapSize : Nat) (hb : 8 ∣ heapBase)
    (hs : 2 ∣ heapSize) (hge : ALIGNED_HEADER_SIZE ≤ heapSize) :
    models (construct heapBase heapSize)
      [⟨heapBase, heapSize - ALIGNED_HEADER_SIZE, true⟩] := by
  have h8 : MemUtils_Align heapBase ALIGN_8 = heapBase := align8_of_dvd hb
  have hmem : (construct heapBase heapSize).mem heapBase =
      ⟨none, heapSize - ALIGNED_HEADER_SIZE⟩ := by
    simp only [construct, h8, Nat.sub_self, Nat.sub_zero]
    exact writeMem_self _ _ _
  refine ⟨?_, ?_, ?_, ?_, ?_, ?_⟩
  · simp only [construct, h8]
    refine ⟨rfl, ?_⟩
    simp only [tilesFrom, footEnd]
    rw [AHS_eq] at hge ⊢
    omega
  · intro b hb'
    rw [List.mem_singleton] at hb'
    subst hb'
    simp [hmem]
  · intro b hb'
    rw [List.mem_singleton] at hb'
    subst hb'
    show 2 ∣ heapSize - ALIGNED_HEADER_SIZE
    rw [AHS_eq]
    omega
  · intro b hb'
    rw [List.mem_singleton] at hb'
    subst hb'
    simp
  · refine ⟨by simp [construct, h8, freeAddrs], ?_⟩
    simp only [freeAddrs, List.filter_cons, List.filter_nil]
    simp [hmem, linksFrom]
  · simp

/-! ## Facts extracted from `models` -/

theorem mem_freeAddrs {bs : List Blk} {x : Nat} :
    x ∈ freeAddrs bs ↔ ∃ b ∈ bs, b.free = true ∧ b.addr = x := by
  simp only [freeAddrs, List.mem_map, List.mem_filter]
  constructor
  · rintro ⟨b, ⟨hb, hf⟩, rfl⟩; exact ⟨b, hb, hf, rfl⟩
  · rintro ⟨b, hb, hf, rfl⟩; exact ⟨b, ⟨hb, hf⟩, rfl⟩

theorem models_stored_free {s : State} {bs : List Blk} (h : models s bs)
    {b : Blk} (hb : b ∈ bs) (hf : b.free = true) : (s.mem b.addr).size = b.sz := by
  have := h.2.1 b hb
  rw [hf] at this
  simpa using this

theorem models_stored_used {s : State} {bs : List Blk} (h : models s bs)
    {b : Blk} (hb : b ∈ bs) (hf : b.free = false) :
    (s.mem b.addr).size = b.sz + 1 := by
  have := h.2.1 b hb
  rw [hf] at this
  simpa using this

theorem models_bs_length {s : State} {bs : List Blk} (h : models s bs) :
    bs.length ≤ s.heapSize := by
  have h1 := tilesFrom_length h.1
  have h2 := le_align s.m_heap (show 0 < ALIGN_8 by decide)
  omega

theorem models_freeAddrs_length {s : State} {bs : List Blk} (h : models s bs) :
    (freeAddrs bs).length < s.heapSize + 1 := by
  have h1 : (freeAddrs bs).length ≤ bs.length := by
    simpa [freeAddrs] using List.length_filter_le (fun b => b.free) bs
  have := models_bs_length h
  omega

/-- Distinct blocks of a tiled list have distinct addresses. -/
theorem models_addr_inj {s : State} {bs : List Blk} (h : models s bs) :
    bs.Pairwise (fun x y => footEnd x ≤ y.addr) := tilesFrom_pairwise h.1

end FLA

namespace FLA

/-! ## What `allocFinish` writes, case by case -/

theorem allocFinish_split_prev (s : State) (need pb a : Nat)
    (hsplit : need + MIN_ALLOC_SIZE ≤ (s.mem a).size)
    (hpos : 0 < need) (hpb : pb < a) :
    (allocFinish s need (some pb) a).2 = some (a + ALIGNED_HEADER_SIZE)
    ∧ (allocFinish s need (some pb) a).1.m_heap = s.m_heap
    ∧ (allocFinish s need (some pb) a).1.heapSize = s.heapSize
    ∧ (allocFinish s need (some pb) a).1.m_firstFree = s.m_firstFree
    ∧ ((allocFinish s need (some pb) a).1.mem a).next = none
    ∧ ((allocFinish s need (some pb) a).1.mem a).size
        = setFreeBit (need - ALIGNED_HEADER_SIZE)
    ∧ ((allocFinish s need (some pb) a).1.mem (a + need)).next = (s.mem a).next
    ∧ ((allocFinish s need (some pb) a).1.mem (a + need)).size = (s.mem a).size - need
    ∧ ((allocFinish s need (some pb) a).1.mem pb).next = some (a + need)
    ∧ ((allocFinish s need (some pb) a).1.mem pb).size = (s.mem pb).size
    ∧ ∀ x, x ≠ a → x ≠ a + need → x ≠ pb →
        (allocFinish s need (some pb) a).1.mem x = s.mem x := by
  have h1 : ¬(a = a + need) := by omega
  have h2 : ¬(a + need = a) := by omega
  have h3 : ¬(pb = a) := by omega
  have h4 : ¬(pb = a + need) := by omega
  have h5 : ¬(a = pb) := by omega
  have h6 : ¬(a + need = pb) := by omega
  refine ⟨?_, ?_, ?_, ?_, ?_, ?_, ?_, ?_, ?_, ?_, ?_⟩ <;>
    first
    | (intro x hxa hxnb hxpb
       simp only [allocFinish]
       rw [if_pos hsplit]
       simp [setNext, setSize, writeMem, hxa, hxnb, hxpb])
    | (simp only [allocFinish]
       all_goals rw [if_pos hsplit]
       all_goals simp [setNext, setSize, writeMem, h1, h2, h3, h4, h5, h6])

end FLA

namespace FLA

theorem allocFinish_split_head (s : State) (need a : Nat)
    (hsplit : need + MIN_ALLOC_SIZE ≤ (s.mem a).size)
    (hpos : 0 < need) (hff : s.m_firstFree = some a) :
    (allocFinish s need none a).2 = some (a + ALIGNED_HEADER_SIZE)
    ∧ (allocFinish s need none a).1.m_heap = s.m_heap
    ∧ (allocFinish s need none a).1.heapSize = s.heapSize
    ∧ (allocFinish s need none a).1.m_firstFree = some (a + need)
    ∧ ((allocFinish s need none a).1.mem a).next = none
    ∧ ((allocFinish s need none a).1.mem a).size = setFreeBit (need - ALIGNED_HEADER_SIZE)
    ∧ ((allocFinish s need none a).1.mem (a + need)).next = (s.mem a).next
    ∧ ((allocFinish s need none a).1.mem (a + need)).size = (s.mem a).size - need
    ∧ ∀ x, x ≠ a → x ≠ a + need → (allocFinish s need none a).1.mem x = s.mem x := by
  have h1 : ¬(a = a + need) := by omega
  have h2 : ¬(a + need = a) := by omega
  refine ⟨?_, ?_, ?_, ?_, ?_, ?_, ?_, ?_, ?_⟩ <;>
    first
    | (intro x hxa hxnb
       simp only [allocFinish]
       rw [if_pos hsplit]
       simp [setNext, setSize, writeMem, hxa, hxnb])
    | (simp only [allocFinish]
       all_goals rw [if_pos hsplit]
       all_goals simp [setNext, setSize, writeMem, hff, h1, h2])

theorem allocFinish_whole_prev (s : State) (need pb a : Nat)
    (hnosplit : ¬(need + MIN_ALLOC_SIZE ≤ (s.mem a).size)) (hpb : pb < a) :
    (allocFinish s need (some pb) a).2 = some (a + ALIGNED_HEADER_SIZE)
    ∧ (allocFinish s need (some pb) a).1.m_heap = s.m_heap
    ∧ (allocFinish s need (some pb) a).1.heapSize = s.heapSize
    ∧ (allocFinish s need (some pb) a).1.m_firstFree = s.m_firstFree
    ∧ ((allocFinish s need (some pb) a).1.mem a).next = none
    ∧ ((allocFinish s need (some pb) a).1.mem a).size = setFreeBit (s.mem a).size
    ∧ ((allocFinish s need (some pb) a).1.mem pb).next = (s.mem a).next
    ∧ ((allocFinish s need (some pb) a).1.mem pb).size = (s.mem pb).size
    ∧ ∀ x, x ≠ a → x ≠ pb → (allocFinish s need (some pb) a).1.mem x = s.mem x := by
  have h3 : ¬(pb = a) := by omega
  have h5 : ¬(a = pb) := by omega
  refine ⟨?_, ?_, ?_, ?_, ?_, ?_, ?_, ?_, ?_⟩ <;>
    first
    | (intro x hxa hxpb
       simp only [allocFinish]
       rw [if_neg hnosplit]
       simp [setNext, setSize, writeMem, hxa, hxpb])
    | (simp only [allocFinish]
       all_goals rw [if_neg hnosplit]
       all_goals simp [setNext, setSize, writeMem, h3, h5])

theorem allocFinish_whole_head (s : State) (need a : Nat)
    (hnosplit : ¬(need + MIN_ALLOC_SIZE ≤ (s.mem a).size)) (hff : s.m_firstFree = some a) :
    (allocFinish s need none a).2 = some (a + ALIGNED_HEADER_SIZE)
    ∧ (allocFinish s need none a).1.m_heap = s.m_heap
    ∧ (allocFinish s need none a).1.heapSize = s.heapSize
    ∧ (allocFinish s need none a).1.m_firstFree = (s.mem a).next
    ∧ ((allocFinish s need none a).1.mem a).next = none
    ∧ ((allocFinish s need none a).1.mem a).size = setFreeBit (s.mem a).size
    ∧ ∀ x, x ≠ a → (allocFinish s need none a).1.mem x = s.mem x := by
  refine ⟨?_, ?_, ?_, ?_, ?_, ?_, ?_⟩ <;>
    first
    | (intro x hxa
       simp only [allocFinish]
       rw [if_neg hnosplit]
       simp [setNext, setSize, writeMem, hxa])
    | (simp only [allocFinish]
       all_goals rw [if_neg hnosplit]
       all_goals simp [setNext, setSize, writeMem, hff])

end FLA

namespace FLA

/-! ## What `freeFinish` writes, case by case
(`a` is the freed block, `pb`/`nb` the walk results; `M` marks a coalescing case) -/

theorem freeFinish_prev_next (s : State) (a pb nb : Nat) (hpb : pb < a) (hnb : a < nb)
    (hL : pb + (s.mem pb).size + ALIGNED_HEADER_SIZE ≠ a)
    (hR : a + (s.mem a).size + ALIGNED_HEADER_SIZE ≠ nb) :
    (freeFinish s a (some pb) (some nb)).m_heap = s.m_heap
    ∧ (freeFinish s a (some pb) (some nb)).heapSize = s.heapSize
    ∧ (freeFinish s a (some pb) (some nb)).m_firstFree = s.m_firstFree
    ∧ ((freeFinish s a (some pb) (some nb)).mem pb).next = some a
    ∧ ((freeFinish s a (some pb) (some nb)).mem pb).size = (s.mem pb).size
    ∧ ((freeFinish s a (some pb) (some nb)).mem a).next = some nb
    ∧ ((freeFinish s a (some pb) (some nb)).mem a).size = (s.mem a).size
    ∧ ∀ x, x ≠ pb → x ≠ a → (freeFinish s a (some pb) (some nb)).mem x = s.mem x := by
  have h1 : ¬(a = pb) := by omega
  have h2 : ¬(pb = a) := by omega
  refine ⟨?_, ?_, ?_, ?_, ?_, ?_, ?_, ?_⟩ <;>
    first
    | (intro x hxpb hxa
       simp only [freeFinish]
       simp [setNext, setSize, writeMem, h1, h2, hL, hR, hxpb, hxa])
    | (simp only [freeFinish]
       simp [setNext, setSize, writeMem, h1, h2, hL, hR])

theorem freeFinish_prev_nextM (s : State) (a pb nb : Nat) (hpb : pb < a) (hnb : a < nb)
    (hL : pb + (s.mem pb).size + ALIGNED_HEADER_SIZE ≠ a)
    (hR : a + (s.mem a).size + ALIGNED_HEADER_SIZE = nb) :
    (freeFinish s a (some pb) (some nb)).m_heap = s.m_heap
    ∧ (freeFinish s a (some pb) (some nb)).heapSize = s.heapSize
    ∧ (freeFinish s a (some pb) (some nb)).m_firstFree = s.m_firstFree
    ∧ ((freeFinish s a (some pb) (some nb)).mem pb).next = some a
    ∧ ((freeFinish s a (some pb) (some nb)).mem pb).size = (s.mem pb).size
    ∧ ((freeFinish s a (some pb) (some nb)).mem a).next = (s.mem nb).next
    ∧ ((freeFinish s a (some pb) (some nb)).mem a).size
        = (s.mem a).size + (s.mem nb).size + ALIGNED_HEADER_SIZE
    ∧ ∀ x, x ≠ pb → x ≠ a → (freeFinish s a (some pb) (some nb)).mem x = s.mem x := by
  have h1 : ¬(a = pb) := by omega
  have h2 : ¬(pb = a) := by omega
  have h3 : ¬(nb = a) := by omega
  have h4 : ¬(nb = pb) := by omega
  refine ⟨?_, ?_, ?_, ?_, ?_, ?_, ?_, ?_⟩ <;>
    first
    | (intro x hxpb hxa
       simp only [freeFinish]
       simp [setNext, setSize, writeMem, h1, h2, h3, h4, hL, hR, hxpb, hxa])
    | (simp only [freeFinish]
       simp [setNext, setSize, writeMem, h1, h2, h3, h4, hL, hR])

theorem freeFinish_prev_none (s : State) (a pb : Nat) (hpb : pb < a)
    (hL : pb + (s.mem pb).size + ALIGNED_HEADER_SIZE ≠ a) :
    (freeFinish s a (some pb) none).m_heap = s.m_heap
    ∧ (freeFinish s a (some pb) none).heapSize = s.heapSize
    ∧ (freeFinish s a (some pb) none).m_firstFree = s.m_firstFree
    ∧ ((freeFinish s a (some pb) none).mem pb).next = some a
    ∧ ((freeFinish s a (some pb) none).mem pb).size = (s.mem pb).size
    ∧ ∀ x, x ≠ pb → (freeFinish s a (some pb) none).mem x = s.mem x := by
  refine ⟨?_, ?_, ?_, ?_, ?_, ?_⟩ <;>
    first
    | (intro x hxpb
       simp only [freeFinish]
       simp [setNext, setSize, writeMem, hL, hxpb])
    | (simp only [freeFinish]
       simp [setNext, setSize, writeMem, hL])

theorem freeFinish_prevM_next (s : State) (a pb nb : Nat) (hpb : pb < a) (hnb : a < nb)
    (hL : pb + (s.mem pb).size + ALIGNED_HEADER_SIZE = a)
    (hR : pb + ((s.mem pb).size + (s.mem a).size + ALIGNED_HEADER_SIZE)
            + ALIGNED_HEADER_SIZE ≠ nb) :
    (freeFinish s a (some pb) (some nb)).m_heap = s.m_heap
    ∧ (freeFinish s a (some pb) (some nb)).heapSize = s.heapSize
    ∧ (freeFinish s a (some pb) (some nb)).m_firstFree = s.m_firstFree
    ∧ ((freeFinish s a (some pb) (some nb)).mem pb).next = some nb
    ∧ ((freeFinish s a (some pb) (some nb)).mem pb).size
        = (s.mem pb).size + (s.mem a).size + ALIGNED_HEADER_SIZE
    ∧ ∀ x, x ≠ pb → (freeFinish s a (some pb) (some nb)).mem x = s.mem x := by
  have h1 : ¬(a = pb) := by omega
  have h2 : ¬(pb = a) := by omega
  have h3 : ¬(nb = pb) := by omega
  refine ⟨?_, ?_, ?_, ?_, ?_, ?_⟩ <;>
    first
    | (intro x hxpb
       simp only [freeFinish]
       simp [setNext, setSize, writeMem, h1, h2, h3, hL, hR, hxpb])
    | (simp only [freeFinish]
       simp [setNext, setSize, writeMem, h1, h2, h3, hL, hR])

theorem freeFinish_prevM_nextM (s : State) (a pb nb : Nat) (hpb : pb < a) (hnb : a < nb)
    (hL : pb + (s.mem pb).size + ALIGNED_HEADER_SIZE = a)
    (hR : pb + ((s.mem pb).size + (s.mem a).size + ALIGNED_HEADER_SIZE)
            + ALIGNED_HEADER_SIZE = nb) :
    (freeFinish s a (some pb) (some nb)).m_heap = s.m_heap
    ∧ (freeFinish s a (some pb) (some nb)).heapSize = s.heapSize
    ∧ (freeFinish s a (some pb) (some nb)).m_firstFree = s.m_firstFree
    ∧ ((freeFinish s a (some pb) (some nb)).mem pb).next = (s.mem nb).next
    ∧ ((freeFinish s a (some pb) (some nb)).mem pb).size
        = (s.mem pb).size + (s.mem a).size + ALIGNED_HEADER_SIZE
          + (s.mem nb).size + ALIGNED_HEADER_SIZE
    ∧ ∀ x, x ≠ pb → (freeFinish s a (some pb) (some nb)).mem x = s.mem x := by
  have h1 : ¬(a = pb) := by omega
  have h2 : ¬(pb = a) := by omega
  have h3 : ¬(nb = pb) := by omega
  have h4 : ¬(nb = a) := by omega
  refine ⟨?_, ?_, ?_, ?_, ?_, ?_⟩ <;>
    first
    | (intro x hxpb
       simp only [freeFinish]
       simp [setNext, setSize, writeMem, h1, h2, h3, h4, hL, hR, hxpb])
    | (simp only [freeFinish]
       simp [setNext, setSize, writeMem, h1, h2, h3, h4, hL, hR])

theorem freeFinish_head_next (s : State) (a nb : Nat) (hnb : a < nb)
    (hR : a + (s.mem a).size + ALIGNED_HEADER_SIZE ≠ nb) :
    (freeFinish s a none (some nb)).m_heap = s.m_heap
    ∧ (freeFinish s a none (some nb)).heapSize = s.heapSize
    ∧ (freeFinish s a none (some nb)).m_firstFree = some a
    ∧ ((freeFinish s a none (some nb)).mem a).next = some nb
    ∧ ((freeFinish s a none (some nb)).mem a).size = (s.mem a).size
    ∧ ∀ x, x ≠ a → (freeFinish s a none (some nb)).mem x = s.mem x := by
  refine ⟨?_, ?_, ?_, ?_, ?_, ?_⟩ <;>
    first
    | (intro x hxa
       simp only [freeFinish]
       simp [setNext, setSize, writeMem, hR, hxa])
    | (simp only [freeFinish]
       simp [setNext, setSize, writeMem, hR])

theorem freeFinish_head_nextM (s : State) (a nb : Nat) (hnb : a < nb)
    (hR : a + (s.mem a).size + ALIGNED_HEADER_SIZE = nb) :
    (freeFinish s a none (some nb)).m_heap = s.m_heap
    ∧ (freeFinish s a none (some nb)).heapSize = s.heapSize
    ∧ (freeFinish s a none (some nb)).m_firstFree = some a
    ∧ ((freeFinish s a none (some nb)).mem a).next = (s.mem nb).next
    ∧ ((freeFinish s a none (some nb)).mem a).size
        = (s.mem a).size + (s.mem nb).size + ALIGNED_HEADER_SIZE
    ∧ ∀ x, x ≠ a → (freeFinish s a none (some nb)).mem x = s.mem x := by
  have h3 : ¬(nb = a) := by omega
  refine ⟨?_, ?_, ?_, ?_, ?_, ?_⟩ <;>
    first
    | (intro x hxa
       simp only [freeFinish]
       simp [setNext, setSize, writeMem, h3, hR, hxa])
    | (simp only [freeFinish]
       simp [setNext, setSize, writeMem, h3, hR])

theorem freeFinish_head_none (s : State) (a : Nat) :
    (freeFinish s a none none).m_heap = s.m_heap
    ∧ (freeFinish s a none none).heapSize = s.heapSize
    ∧ (freeFinish s a none none).m_firstFree = some a
    ∧ ∀ x, (freeFinish s a none none).mem x = s.mem x := by
  refine ⟨rfl, rfl, rfl, fun x => rfl⟩

end FLA

namespace FLA

/-! ## Support for the simulation arguments -/

theorem freeAddrs_cons_free {b : Blk} {bs : List Blk} (hb : b.free = true) :
    freeAddrs (b :: bs) = b.addr :: freeAddrs bs := by
  simp [freeAddrs, List.filter_cons, hb]

theorem freeAddrs_cons_used {b : Blk} {bs : List Blk} (hb : b.free = false) :
    freeAddrs (b :: bs) = freeAddrs bs := by
  simp [freeAddrs, List.filter_cons, hb]

theorem freeAddrs_nil : freeAddrs [] = [] := rfl

theorem lastOr_none (l : List Nat) : lastOr l none = l.getLast? := Option.or_none

theorem tiles_decomp {s0 E : Nat} {L R : List Blk} {b : Blk}
    (h : tilesFrom s0 E (L ++ b :: R)) :
    tilesFrom s0 b.addr L ∧ tilesFrom (footEnd b) E R := by
  obtain ⟨m, h1, h2⟩ := tilesFrom_append.mp h
  obtain ⟨hb, h3⟩ := h2
  exact ⟨hb ▸ h1, h3⟩

/-- In a tiled list, distinct members have distinct addresses. -/
theorem tiles_addr_ne {s0 E : Nat} {l : List Blk} (h : tilesFrom s0 E l) :
    ∀ b ∈ l, ∀ c ∈ l, b ≠ c → b.addr ≠ c.addr := by
  have hp : l.Pairwise (fun x y => x.addr ≠ y.addr) :=
    (tilesFrom_pairwise h).imp (by
      intro x y hxy
      have := addr_lt_footEnd x
      omega)
  exact hp.forall (fun x y hxy => hxy.symm)

/-- Free-list addresses inside a region tiled up to `m` lie strictly below `m`. -/
theorem freeAddrs_lt {L : List Blk} {s0 m : Nat} (ht : tilesFrom s0 m L) :
    ∀ y ∈ freeAddrs L, y < m := by
  intro y hy
  obtain ⟨b, hb, _, rfl⟩ := mem_freeAddrs.mp hy
  have h1 := (tilesFrom_bounds ht b hb).2
  have h2 := addr_lt_footEnd b
  omega

/-- Free-list addresses of blocks tiled starting from `m` lie at or above `m`. -/
theorem freeAddrs_ge {R : List Blk} {m E : Nat} (ht : tilesFrom m E R) :
    ∀ y ∈ freeAddrs R, m ≤ y := by
  intro y hy
  obtain ⟨b, hb, _, rfl⟩ := mem_freeAddrs.mp hy
  exact (tilesFrom_bounds ht b hb).1

/-- Blocks of the split produced by a successful allocation: the found block is
either split into an in-use block plus a free remainder (when at least
`MIN_ALLOC_SIZE` is left over) or consumed whole. -/
def allocBlocks (need : Nat) (fit : Blk) : List Blk :=
  if need + MIN_ALLOC_SIZE ≤ fit.sz then
    [⟨fit.addr, need - ALIGNED_HEADER_SIZE, false⟩, ⟨fit.addr + need, fit.sz - need, true⟩]
  else [⟨fit.addr, fit.sz, false⟩]

end FLA

namespace FLA

theorem freeAddrs_pairwise {l : List Blk} {s0 E : Nat} (h : tilesFrom s0 E l) :
    (freeAddrs l).Pairwise (· < ·) := by
  have hp := (tilesFrom_pairwise h).filter (fun b => b.free)
  rw [freeAddrs]
  rw [List.pairwise_map]
  exact hp.imp (by
    intro x y hxy
    have := addr_lt_footEnd x
    omega)

/-- Simulation of a successful `AllocateAligned`: if the free list decomposes as
the free blocks of `L` (all too small) followed by the first fit `fit`, the call
returns `fit.addr + ALIGNED_HEADER_SIZE` and the new state realizes `L` followed
by the split (or consumed) blocks followed by `R`. -/
theorem AllocateAligned_sim (s : State) (L R : List Blk) (fit : Blk) (n al : Nat)
    (h : models s (L ++ fit :: R))
    (hLsmall : ∀ b ∈ L, b.free = true → b.sz < sizeNeededFor n al)
    (hfit : fit.free = true) (hsz : sizeNeededFor n al ≤ fit.sz) (hal : 2 ∣ al) :
    (AllocateAligned s n al).2 = some (fit.addr + ALIGNED_HEADER_SIZE)
    ∧ (AllocateAligned s n al).1.m_heap = s.m_heap
    ∧ (AllocateAligned s n al).1.heapSize = s.heapSize
    ∧ models (AllocateAligned s n al).1 (L ++ allocBlocks (sizeNeededFor n al) fit ++ R)
    ∧ ((AllocateAligned s n al).1.mem fit.addr).size
        = setFreeBit (if sizeNeededFor n al + MIN_ALLOC_SIZE ≤ fit.sz
            then sizeNeededFor n al - ALIGNED_HEADER_SIZE else fit.sz)
    ∧ (sizeNeededFor n al + MIN_ALLOC_SIZE ≤ fit.sz →
        ((AllocateAligned s n al).1.mem (fit.addr + sizeNeededFor n al)).next
            = (s.mem fit.addr).next
        ∧ ((AllocateAligned s n al).1.mem (fit.addr + sizeNeededFor n al)).size
            = fit.sz - sizeNeededFor n al) := by
  have hAHS := AHS_eq
  have hMAS := MIN_ALLOC_eq
  set need := sizeNeededFor n al with hneed
  have hneed8 : ALIGNED_HEADER_SIZE ≤ need := Nat.le_add_left _ _
  have hneedpos : 0 < need := by omega
  have hneedeven : 2 ∣ need := by
    rw [hneed, sizeNeededFor]
    exact dvd_add (two_dvd_align hal) (by rw [AHS_eq]; decide)
  have hfuel := models_freeAddrs_length h
  have haddrne := tiles_addr_ne h.1
  obtain ⟨htiles, hstored, heven, hinuse, hlinks, hchain⟩ := h
  obtain ⟨htL, htR⟩ := tiles_decomp htiles
  have hstoredA : (s.mem fit.addr).size = fit.sz := by
    have hx := hstored fit (by simp)
    rw [hfit] at hx
    simpa using hx
  have hfa : freeAddrs (L ++ fit :: R) = freeAddrs L ++ fit.addr :: freeAddrs R := by
    rw [freeAddrs_append, freeAddrs_cons_free hfit]
  have hLlt : ∀ y ∈ freeAddrs L, y < fit.addr := freeAddrs_lt htL
  have hRge : ∀ y ∈ freeAddrs R, footEnd fit ≤ y := freeAddrs_ge htR
  have hsmall : ∀ y ∈ freeAddrs L, (s.mem y).size < need := by
    intro y hy
    obtain ⟨b, hb, hbf, rfl⟩ := mem_freeAddrs.mp hy
    have hx := hstored b (by simp [hb])
    rw [hbf] at hx
    simp only [if_pos rfl] at hx
    rw [hx]
    exact hLsmall b hb hbf
  have hfitfits : need ≤ (s.mem fit.addr).size := by rw [hstoredA]; exact hsz
  rw [hfa] at hlinks
  have hfuel' : (freeAddrs L ++ fit.addr :: freeAddrs R).length < s.heapSize + 1 := by
    rw [← hfa]; exact hfuel
  have hloop := findFitLoop_found_eq none hlinks hfuel' hsmall hfitfits
  have hAA : AllocateAligned s n al
      = allocFinish s need (lastOr (freeAddrs L) none) fit.addr := by
    simp only [AllocateAligned, ← hneed]
    rw [hloop]
  rw [hAA, lastOr_none]
  -- facts about the L side and the R side
  have hLblk_lt : ∀ b ∈ L, b.addr < fit.addr := by
    intro b hb
    have h1 := (tilesFrom_bounds htL b hb).2
    have h2 := addr_lt_footEnd b
    omega
  have hRblk_ge : ∀ b ∈ R, footEnd fit ≤ b.addr := fun b hb => (tilesFrom_bounds htR b hb).1
  have hAneedlt : fit.addr + need < footEnd fit := by
    rw [footEnd]
    omega
  -- Chain' pieces of the original list
  have hchainL : List.Chain' notBothFree L := (List.chain'_append.mp hchain).1
  have hchainFR : List.Chain' notBothFree (fit :: R) := (List.chain'_append.mp hchain).2.1
  have hchainR : List.Chain' notBothFree R := hchainFR.tail
  have hbdryL : ∀ x ∈ L.getLast?, ¬(x.free = true ∧ fit.free = true) := by
    intro x hx
    exact (List.chain'_append.mp hchain).2.2 x hx fit (by simp)
  have hbdryR : ∀ y ∈ R.head?, ¬(y.free = true) := by
    intro y hy
    cases R with
    | nil => simp at hy
    | cons r R' =>
      simp at hy
      subst hy
      intro hyf
      exact (List.chain'_cons.mp hchainFR).1 ⟨hfit, hyf⟩
  rcases hgl : (freeAddrs L).getLast? with _ | pb
  · -- no free block before the fit: the fit is the head of the free list
    have hFLnil : freeAddrs L = [] := List.getLast?_eq_none_iff.mp hgl
    rw [hFLnil] at hlinks
    have hff : s.m_firstFree = some fit.addr := hlinks.1
    have hlinksR : linksFrom s.mem (s.mem fit.addr).next (freeAddrs R) none := hlinks.2
    by_cases hsplit : need + MIN_ALLOC_SIZE ≤ fit.sz
    · -- split, head position
      have hsplit' : need + MIN_ALLOC_SIZE ≤ (s.mem fit.addr).size := by rw [hstoredA]; exact hsplit
      obtain ⟨hr2, hmh, hhs, hmf, hnA, hsA, hnNB, hsNB, hframe⟩ :=
        allocFinish_split_head s need fit.addr hsplit' hneedpos hff
      have hblocks : allocBlocks need fit =
          [⟨fit.addr, need - ALIGNED_HEADER_SIZE, false⟩,
           ⟨fit.addr + need, fit.sz - need, true⟩] := by rw [allocBlocks, if_pos hsplit]
      refine ⟨hr2, hmh, hhs, ?_, ?_, ?_⟩
      · -- models
        rw [hblocks]
        refine ⟨?_, ?_, ?_, ?_, ?_, ?_⟩
        · -- tiling
          rw [hmh, hhs]
          refine tilesFrom_append.mpr ⟨footEnd fit, tilesFrom_append.mpr ⟨fit.addr, htL, ?_⟩, htR⟩
          refine tilesFrom_cons.mpr ⟨rfl, ?_⟩
          refine tilesFrom_cons.mpr ⟨?_, ?_⟩
          · show fit.addr + need = fit.addr + ALIGNED_HEADER_SIZE + (need - ALIGNED_HEADER_SIZE)
            omega
          · refine tilesFrom_nil.mpr ?_
            show fit.addr + need + ALIGNED_HEADER_SIZE + (fit.sz - need)
                = fit.addr + ALIGNED_HEADER_SIZE + fit.sz
            omega
        · -- stored sizes
          intro b hb
          rcases List.mem_append.mp hb with hb' | hbR
          · rcases List.mem_append.mp hb' with hbL | hbM
            · have hba : b.addr < fit.addr := hLblk_lt b hbL
              rw [hframe b.addr (by omega) (by omega)]
              have hx := hstored b (by simp [hbL])
              exact hx
            · rcases List.mem_cons.mp hbM with rfl | hbM'
              · have he2 : 2 ∣ need - ALIGNED_HEADER_SIZE :=
                  Nat.dvd_sub' hneedeven (by rw [AHS_eq]; decide)
                simp [hsA, setFreeBit_of_even he2]
              · rcases List.mem_cons.mp hbM' with rfl | h'
                · simp [hsNB, hstoredA]
                · simp at h'
          · have hba : footEnd fit ≤ b.addr := hRblk_ge b hbR
            have h2 := addr_lt_footEnd fit
            rw [hframe b.addr (by omega) (by omega)]
            exact hstored b (by simp [hbR])
        · -- evenness
          intro b hb
          rcases List.mem_append.mp hb with hb' | hbR
          · rcases List.mem_append.mp hb' with hbL | hbM
            · exact heven b (by simp [hbL])
            · rcases List.mem_cons.mp hbM with rfl | hbM'
              · exact Nat.dvd_sub' hneedeven (by rw [AHS_eq]; decide)
              · rcases List.mem_cons.mp hbM' with rfl | h'
                · exact Nat.dvd_sub' (heven fit (by simp)) hneedeven
                · simp at h'
          · exact heven b (by simp [hbR])
        · -- in-use blocks have NULL next
          intro b hb hbused
          rcases List.mem_append.mp hb with hb' | hbR
          · rcases List.mem_append.mp hb' with hbL | hbM
            · have hba : b.addr < fit.addr := hLblk_lt b hbL
              rw [hframe b.addr (by omega) (by omega)]
              exact hinuse b (by simp [hbL]) hbused
            · rcases List.mem_cons.mp hbM with rfl | hbM'
              · exact hnA
              · rcases List.mem_cons.mp hbM' with rfl | h'
                · simp at hbused
                · simp at h'
          · have hba : footEnd fit ≤ b.addr := hRblk_ge b hbR
            have h2 := addr_lt_footEnd fit
            rw [hframe b.addr (by omega) (by omega)]
            exact hinuse b (by simp [hbR]) hbused
        · -- the free list
          rw [freeAddrs_append, freeAddrs_append, hFLnil, hmf]
          rw [freeAddrs_cons_used rfl, freeAddrs_cons_free rfl, freeAddrs_nil]
          simp only [List.append_assoc, List.cons_append, List.nil_append]
          refine linksFrom_cons.mpr ⟨rfl, ?_⟩
          rw [hnNB]
          refine (linksFrom_congr ?_).mpr hlinksR
          intro x hx
          have hxge := hRge x hx
          have h2 := addr_lt_footEnd fit
          rw [hframe x (by omega) (by omega)]
        · -- no two adjacent free blocks
          refine List.chain'_append.mpr
            ⟨List.chain'_append.mpr ⟨hchainL, ?_, ?_⟩, hchainR, ?_⟩
          · simp [List.chain'_cons, notBothFree]
          · intro x hx y hy
            simp at hy
            subst hy
            simp [notBothFree]
          · intro x hx y hy
            rw [List.getLast?_append] at hx
            simp at hx
            subst hx
            intro hcon
            exact hbdryR y hy hcon.2
      · rw [if_pos hsplit]
        exact hsA
      · intro _
        exact ⟨hnNB, by rw [hsNB, hstoredA]⟩
    · -- consume whole, head position
      have hsplit' : ¬(need + MIN_ALLOC_SIZE ≤ (s.mem fit.addr).size) := by
        rw [hstoredA]; exact hsplit
      obtain ⟨hr2, hmh, hhs, hmf, hnA, hsA, hframe⟩ :=
        allocFinish_whole_head s need fit.addr hsplit' hff
      have hblocks : allocBlocks need fit = [⟨fit.addr, fit.sz, false⟩] := by
        rw [allocBlocks, if_neg hsplit]
      refine ⟨hr2, hmh, hhs, ?_, ?_, ?_⟩
      · rw [hblocks]
        refine ⟨?_, ?_, ?_, ?_, ?_, ?_⟩
        · rw [hmh, hhs]
          refine tilesFrom_append.mpr ⟨footEnd fit, tilesFrom_append.mpr ⟨fit.addr, htL, ?_⟩, htR⟩
          refine tilesFrom_cons.mpr ⟨rfl, ?_⟩
          exact tilesFrom_nil.mpr rfl
        · intro b hb
          rcases List.mem_append.mp hb with hb' | hbR
          · rcases List.mem_append.mp hb' with hbL | hbM
            · have hba : b.addr < fit.addr := hLblk_lt b hbL
              rw [hframe b.addr (by omega)]
              exact hstored b (by simp [hbL])
            · rcases List.mem_cons.mp hbM with rfl | h'
              · simp [hsA, hstoredA, setFreeBit_of_even (heven fit (by simp))]
              · simp at h'
          · have hba : footEnd fit ≤ b.addr := hRblk_ge b hbR
            have h2 := addr_lt_footEnd fit
            rw [hframe b.addr (by omega)]
            exact hstored b (by simp [hbR])
        · intro b hb
          rcases List.mem_append.mp hb with hb' | hbR
          · rcases List.mem_append.mp hb' with hbL | hbM
            · exact heven b (by simp [hbL])
            · rcases List.mem_cons.mp hbM with rfl | h'
              · exact heven fit (by simp)
              · simp at h'
          · exact heven b (by simp [hbR])
        · intro b hb hbused
          rcases List.mem_append.mp hb with hb' | hbR
          · rcases List.mem_append.mp hb' with hbL | hbM
            · have hba : b.addr < fit.addr := hLblk_lt b hbL
              rw [hframe b.addr (by omega)]
              exact hinuse b (by simp [hbL]) hbused
            · rcases List.mem_cons.mp hbM with rfl | h'
              · exact hnA
              · simp at h'
          · have hba : footEnd fit ≤ b.addr := hRblk_ge b hbR
            have h2 := addr_lt_footEnd fit
            rw [hframe b.addr (by omega)]
            exact hinuse b (by simp [hbR]) hbused
        · rw [freeAddrs_append, freeAddrs_append, hFLnil]
          rw [freeAddrs_cons_used rfl, freeAddrs_nil]
          simp only [List.append_assoc, List.cons_append, List.nil_append, List.append_nil]
          rw [hmf]
          refine (linksFrom_congr ?_).mpr hlinksR
          intro x hx
          have hxge := hRge x hx
          have h2 := addr_lt_footEnd fit
          rw [hframe x (by omega)]
        · refine List.chain'_append.mpr
            ⟨List.chain'_append.mpr ⟨hchainL, ?_, ?_⟩, hchainR, ?_⟩
          · simp
          · intro x hx y hy
            simp at hy
            subst hy
            simp [notBothFree]
          · intro x hx y hy
            rw [List.getLast?_append] at hx
            simp at hx
            subst hx
            intro hcon
            simp [notBothFree] at hcon
      · rw [if_neg hsplit]
        rw [hsA, hstoredA]
      · intro hcon
        exact absurd hcon hsplit
  · -- a free block precedes the fit in the free list
    obtain ⟨FL0, hFL0⟩ := List.getLast?_eq_some_iff.mp hgl
    have hpbA : pb < fit.addr := hLlt pb (by rw [hFL0]; simp)
    have hfaLpair : (freeAddrs L).Pairwise (· < ·) := freeAddrs_pairwise htL
    have hFL0lt : ∀ x ∈ FL0, x < pb := by
      rw [hFL0] at hfaLpair
      intro x hx
      exact (List.pairwise_append.mp hfaLpair).2.2 x hx pb (by simp)
    obtain ⟨pbB, hpbB, hpbBf, hpbBaddr⟩ := mem_freeAddrs.mp (show pb ∈ freeAddrs L by rw [hFL0]; simp)
    have hstoredpb : (s.mem pb).size = pbB.sz := by
      have hx := hstored pbB (by simp [hpbB])
      rw [hpbBf] at hx
      rw [hpbBaddr] at hx
      simpa using hx
    rw [hFL0] at hlinks
    rw [List.append_assoc] at hlinks
    obtain ⟨m1, hlFL0, hrest⟩ := linksFrom_append.mp hlinks
    obtain ⟨hm1, hrest2⟩ := hrest
    obtain ⟨hpbnext, hlinksR⟩ := hrest2
    -- hm1 : m1 = some pb ; hpbnext : (s.mem pb).next = some fit.addr (from cons)
    subst hm1
    by_cases hsplit : need + MIN_ALLOC_SIZE ≤ fit.sz
    · have hsplit' : need + MIN_ALLOC_SIZE ≤ (s.mem fit.addr).size := by rw [hstoredA]; exact hsplit
      obtain ⟨hr2, hmh, hhs, hmf, hnA, hsA, hnNB, hsNB, hnPB, hsPB, hframe⟩ :=
        allocFinish_split_prev s need pb fit.addr hsplit' hneedpos hpbA
      have hblocks : allocBlocks need fit =
          [⟨fit.addr, need - ALIGNED_HEADER_SIZE, false⟩,
           ⟨fit.addr + need, fit.sz - need, true⟩] := by rw [allocBlocks, if_pos hsplit]
      refine ⟨hr2, hmh, hhs, ?_, ?_, ?_⟩
      · rw [hblocks]
        refine ⟨?_, ?_, ?_, ?_, ?_, ?_⟩
        · rw [hmh, hhs]
          refine tilesFrom_append.mpr ⟨footEnd fit, tilesFrom_append.mpr ⟨fit.addr, htL, ?_⟩, htR⟩
          refine tilesFrom_cons.mpr ⟨rfl, ?_⟩
          refine tilesFrom_cons.mpr ⟨?_, ?_⟩
          · show fit.addr + need = fit.addr + ALIGNED_HEADER_SIZE + (need - ALIGNED_HEADER_SIZE)
            omega
          · refine tilesFrom_nil.mpr ?_
            show fit.addr + need + ALIGNED_HEADER_SIZE + (fit.sz - need)
                = fit.addr + ALIGNED_HEADER_SIZE + fit.sz
            omega
        · intro b hb
          rcases List.mem_append.mp hb with hb' | hbR
          · rcases List.mem_append.mp hb' with hbL | hbM
            · have hba : b.addr < fit.addr := hLblk_lt b hbL
              by_cases hbpb : b.addr = pb
              · have hsz' := hstored b (by simp [hbL])
                rw [← hsz']
                rw [hbpb, hsPB, ← hbpb]
              · rw [hframe b.addr (by omega) (by omega) hbpb]
                exact hstored b (by simp [hbL])
            · rcases List.mem_cons.mp hbM with rfl | hbM'
              · have he2 : 2 ∣ need - ALIGNED_HEADER_SIZE :=
                  Nat.dvd_sub' hneedeven (by rw [AHS_eq]; decide)
                simp [hsA, setFreeBit_of_even he2]
              · rcases List.mem_cons.mp hbM' with rfl | h'
                · simp [hsNB, hstoredA]
                · simp at h'
          · have hba : footEnd fit ≤ b.addr := hRblk_ge b hbR
            have h2 := addr_lt_footEnd fit
            rw [hframe b.addr (by omega) (by omega) (by omega)]
            exact hstored b (by simp [hbR])
        · intro b hb
          rcases List.mem_append.mp hb with hb' | hbR
          · rcases List.mem_append.mp hb' with hbL | hbM
            · exact heven b (by simp [hbL])
            · rcases List.mem_cons.mp hbM with rfl | hbM'
              · exact Nat.dvd_sub' hneedeven (by rw [AHS_eq]; decide)
              · rcases List.mem_cons.mp hbM' with rfl | h'
                · exact Nat.dvd_sub' (heven fit (by simp)) hneedeven
                · simp at h'
          · exact heven b (by simp [hbR])
        · intro b hb hbused
          rcases List.mem_append.mp hb with hb' | hbR
          · rcases List.mem_append.mp hb' with hbL | hbM
            · have hba : b.addr < fit.addr := hLblk_lt b hbL
              have hbpb : b.addr ≠ pb := by
                intro hcon
                have : b = pbB := by
                  by_contra hne
                  exact haddrne b (by simp [hbL]) pbB (by simp [hpbB]) hne (by rw [hcon, hpbBaddr])
                rw [this] at hbused
                rw [hpbBf] at hbused
                cases hbused
              rw [hframe b.addr (by omega) (by omega) hbpb]
              exact hinuse b (by simp [hbL]) hbused
            · rcases List.mem_cons.mp hbM with rfl | hbM'
              · exact hnA
              · rcases List.mem_cons.mp hbM' with rfl | h'
                · simp at hbused
                · simp at h'
          · have hba : footEnd fit ≤ b.addr := hRblk_ge b hbR
            have h2 := addr_lt_footEnd fit
            rw [hframe b.addr (by omega) (by omega) (by omega)]
            exact hinuse b (by simp [hbR]) hbused
        · rw [freeAddrs_append, freeAddrs_append, hFL0]
          rw [freeAddrs_cons_used rfl, freeAddrs_cons_free rfl, freeAddrs_nil]
          rw [hmf]
          simp only [List.append_assoc, List.cons_append, List.nil_append]
          refine linksFrom_append.mpr ⟨some pb, ?_, ?_⟩
          · refine (linksFrom_congr ?_).mpr hlFL0
            intro x hx
            have hx1 := hFL0lt x hx
            rw [hframe x (by omega) (by omega) (by omega)]
          · refine linksFrom_cons.mpr ⟨rfl, ?_⟩
            rw [hnPB]
            refine linksFrom_cons.mpr ⟨rfl, ?_⟩
            rw [hnNB]
            refine (linksFrom_congr ?_).mpr hlinksR
            intro x hx
            have hxge := hRge x hx
            have h2 := addr_lt_footEnd fit
            rw [hframe x (by omega) (by omega) (by omega)]
        · refine List.chain'_append.mpr
            ⟨List.chain'_append.mpr ⟨hchainL, ?_, ?_⟩, hchainR, ?_⟩
          · simp [List.chain'_cons, notBothFree]
          · intro x hx y hy
            simp at hy
            subst hy
            simp [notBothFree]
          · intro x hx y hy
            rw [List.getLast?_append] at hx
            simp at hx
            subst hx
            intro hcon
            exact hbdryR y hy hcon.2
      · rw [if_pos hsplit]
        exact hsA
      · intro _
        exact ⟨hnNB, by rw [hsNB, hstoredA]⟩
    · have hsplit' : ¬(need + MIN_ALLOC_SIZE ≤ (s.mem fit.addr).size) := by
        rw [hstoredA]; exact hsplit
      obtain ⟨hr2, hmh, hhs, hmf, hnA, hsA, hnPB, hsPB, hframe⟩ :=
        allocFinish_whole_prev s need pb fit.addr hsplit' hpbA
      have hblocks : allocBlocks need fit = [⟨fit.addr, fit.sz, false⟩] := by
        rw [allocBlocks, if_neg hsplit]
      refine ⟨hr2, hmh, hhs, ?_, ?_, ?_⟩
      · rw [hblocks]
        refine ⟨?_, ?_, ?_, ?_, ?_, ?_⟩
        · rw [hmh, hhs]
          refine tilesFrom_append.mpr ⟨footEnd fit, tilesFrom_append.mpr ⟨fit.addr, htL, ?_⟩, htR⟩
          refine tilesFrom_cons.mpr ⟨rfl, ?_⟩
          exact tilesFrom_nil.mpr rfl
        · intro b hb
          rcases List.mem_append.mp hb with hb' | hbR
          · rcases List.mem_append.mp hb' with hbL | hbM
            · have hba : b.addr < fit.addr := hLblk_lt b hbL
              by_cases hbpb : b.addr = pb
              · have hsz' := hstored b (by simp [hbL])
                rw [← hsz']
                rw [hbpb, hsPB, ← hbpb]
              · rw [hframe b.addr (by omega) hbpb]
                exact hstored b (by simp [hbL])
            · rcases List.mem_cons.mp hbM with rfl | h'
              · simp [hsA, hstoredA, setFreeBit_of_even (heven fit (by simp))]
              · simp at h'
          · have hba : footEnd fit ≤ b.addr := hRblk_ge b hbR
            have h2 := addr_lt_footEnd fit
            rw [hframe b.addr (by omega) (by omega)]
            exact hstored b (by simp [hbR])
        · intro b hb
          rcases List.mem_append.mp hb with hb' | hbR
          · rcases List.mem_append.mp hb' with hbL | hbM
            · exact heven b (by simp [hbL])
            · rcases List.mem_cons.mp hbM with rfl | h'
              · exact heven fit (by simp)
              · simp at h'
          · exact heven b (by simp [hbR])
        · intro b hb hbused
          rcases List.mem_append.mp hb with hb' | hbR
          · rcases List.mem_append.mp hb' with hbL | hbM
            · have hba : b.addr < fit.addr := hLblk_lt b hbL
              have hbpb : b.addr ≠ pb := by
                intro hcon
                have : b = pbB := by
                  by_contra hne
                  exact haddrne b (by simp [hbL]) pbB (by simp [hpbB]) hne (by rw [hcon, hpbBaddr])
                rw [this] at hbused
                rw [hpbBf] at hbused
                cases hbused
              rw [hframe b.addr (by omega) hbpb]
              exact hinuse b (by simp [hbL]) hbused
            · rcases List.mem_cons.mp hbM with rfl | h'
              · exact hnA
              · simp at h'
          · have hba : footEnd fit ≤ b.addr := hRblk_ge b hbR
            have h2 := addr_lt_footEnd fit
            rw [hframe b.addr (by omega) (by omega)]
            exact hinuse b (by simp [hbR]) hbused
        · rw [freeAddrs_append, freeAddrs_append, hFL0]
          rw [freeAddrs_cons_used rfl, freeAddrs_nil]
          rw [hmf]
          simp only [List.append_assoc, List.cons_append, List.nil_append, List.append_nil]
          refine linksFrom_append.mpr ⟨some pb, ?_, ?_⟩
          · refine (linksFrom_congr ?_).mpr hlFL0
            intro x hx
            have hx1 := hFL0lt x hx
            rw [hframe x (by omega) (by omega)]
          · refine linksFrom_cons.mpr ⟨rfl, ?_⟩
            rw [hnPB]
            refine (linksFrom_congr ?_).mpr hlinksR
            intro x hx
            have hxge := hRge x hx
            have h2 := addr_lt_footEnd fit
            rw [hframe x (by omega) (by omega)]
        · refine List.chain'_append.mpr
            ⟨List.chain'_append.mpr ⟨hchainL, ?_, ?_⟩, hchainR, ?_⟩
          · simp
          · intro x hx y hy
            simp at hy
            subst hy
            simp [notBothFree]
          · intro x hx y hy
            rw [List.getLast?_append] at hx
            simp at hx
            subst hx
            intro hcon
            simp [notBothFree] at hcon
      · rw [if_neg hsplit]
        rw [hsA, hstoredA]
      · intro hcon
        exact absurd hcon hsplit

end FLA

namespace FLA

theorem freeFinish_prevM_none (s : State) (a pb : Nat) (hpb : pb < a)
    (hL : pb + (s.mem pb).size + ALIGNED_HEADER_SIZE = a) :
    (freeFinish s a (some pb) none).m_heap = s.m_heap
    ∧ (freeFinish s a (some pb) none).heapSize = s.heapSize
    ∧ (freeFinish s a (some pb) none).m_firstFree = s.m_firstFree
    ∧ ((freeFinish s a (some pb) none).mem pb).next = none
    ∧ ((freeFinish s a (some pb) none).mem pb).size
        = (s.mem pb).size + (s.mem a).size + ALIGNED_HEADER_SIZE
    ∧ ∀ x, x ≠ pb → (freeFinish s a (some pb) none).mem x = s.mem x := by
  have h1 : ¬(a = pb) := by omega
  have h2 : ¬(pb = a) := by omega
  refine ⟨?_, ?_, ?_, ?_, ?_, ?_⟩ <;>
    first
    | (intro x hxpb
       simp only [freeFinish]
       simp [setNext, setSize, writeMem, h1, h2, hL, hxpb])
    | (simp only [freeFinish]
       simp [setNext, setSize, writeMem, h1, h2, hL])

/-- Assemble `models` for a state whose block list is `LL ++ mid :: RR` with a
free middle block, from per-piece facts. -/
theorem models_of_pieces (s' : State) (LL RR : List Blk) (mid : Blk)
    (hmidfree : mid.free = true)
    (htilesL : tilesFrom (MemUtils_Align s'.m_heap ALIGN_8) mid.addr LL)
    (htilesR : tilesFrom (footEnd mid) (s'.m_heap + s'.heapSize) RR)
    (hstL : ∀ b ∈ LL, (s'.mem b.addr).size = if b.free then b.sz else b.sz + 1)
    (hstR : ∀ b ∈ RR, (s'.mem b.addr).size = if b.free then b.sz else b.sz + 1)
    (hstM : (s'.mem mid.addr).size = mid.sz)
    (hevL : ∀ b ∈ LL, 2 ∣ b.sz) (hevR : ∀ b ∈ RR, 2 ∣ b.sz) (hevM : 2 ∣ mid.sz)
    (hinL : ∀ b ∈ LL, b.free = false → (s'.mem b.addr).next = none)
    (hinR : ∀ b ∈ RR, b.free = false → (s'.mem b.addr).next = none)
    (hlinks' : linksFrom s'.mem s'.m_firstFree
        (freeAddrs LL ++ mid.addr :: freeAddrs RR) none)
    (hchL : List.Chain' notBothFree LL) (hchR : List.Chain' notBothFree RR)
    (hbdl : ∀ x, LL.getLast? = some x → x.free = false)
    (hbdr : ∀ y, RR.head? = some y → y.free = false) :
    models s' (LL ++ mid :: RR) := by
  refine ⟨?_, ?_, ?_, ?_, ?_, ?_⟩
  · exact tilesFrom_append.mpr ⟨mid.addr, htilesL, rfl, htilesR⟩
  · intro b hb
    rcases List.mem_append.mp hb with hbL | hbM
    · exact hstL b hbL
    · rcases List.mem_cons.mp hbM with rfl | hbR
      · rw [hmidfree]
        simpa using hstM
      · exact hstR b hbR
  · intro b hb
    rcases List.mem_append.mp hb with hbL | hbM
    · exact hevL b hbL
    · rcases List.mem_cons.mp hbM with rfl | hbR
      · exact hevM
      · exact hevR b hbR
  · intro b hb hbused
    rcases List.mem_append.mp hb with hbL | hbM
    · exact hinL b hbL hbused
    · rcases List.mem_cons.mp hbM with rfl | hbR
      · rw [hmidfree] at hbused
        cases hbused
      · exact hinR b hbR hbused
  · rw [freeAddrs_append, freeAddrs_cons_free hmidfree]
    exact hlinks'
  · refine List.chain'_append.mpr ⟨hchL, ?_, ?_⟩
    · refine List.chain'_cons'.mpr ⟨?_, hchR⟩
      intro y hy
      intro hcon
      exact absurd hcon.2 (by simp [hbdr y hy])
    · intro x hx y hy
      simp at hy
      subst hy
      intro hcon
      exact absurd hcon.1 (by simp [hbdl x hx])

/-- The freed block after a possible merge with its right physical neighbor
(the head of `R`), together with the remaining right-side blocks. -/
def freeMidR (b : Blk) (R : List Blk) : Blk × List Blk :=
  match R with
  | r :: R' =>
    if r.free then ((⟨b.addr, b.sz + ALIGNED_HEADER_SIZE + r.sz, true⟩ : Blk), R')
    else ((⟨b.addr, b.sz, true⟩ : Blk), r :: R')
  | [] => ((⟨b.addr, b.sz, true⟩ : Blk), ([] : List Blk))

/-- Abstract effect of `Free` on the block list `L ++ b :: R` (with `b` in use):
mark `b` free, merge it with the right neighbor if that neighbor is free, then
with the left neighbor (the last block of `L`) if that one is free. -/
def absFreeAt (L : List Blk) (b : Blk) (R : List Blk) : List Blk :=
  match L.getLast? with
  | some pb =>
    if pb.free then
      L.dropLast ++
        (⟨pb.addr, pb.sz + ALIGNED_HEADER_SIZE + (freeMidR b R).1.sz, true⟩ : Blk)
          :: (freeMidR b R).2
    else L ++ (freeMidR b R).1 :: (freeMidR b R).2
  | none => L ++ (freeMidR b R).1 :: (freeMidR b R).2

theorem freeMidR_free {b r : Blk} {R' : List Blk} (hr : r.free = true) :
    freeMidR b (r :: R')
      = ((⟨b.addr, b.sz + ALIGNED_HEADER_SIZE + r.sz, true⟩ : Blk), R') := by
  simp [freeMidR, hr]

theorem freeMidR_no_free_head {b : Blk} {R : List Blk}
    (h : ∀ r, R.head? = some r → r.free = false) :
    freeMidR b R = ((⟨b.addr, b.sz, true⟩ : Blk), R) := by
  cases R with
  | nil => rfl
  | cons r R' => simp [freeMidR, h r rfl]

theorem absFreeAt_left {L : List Blk} {b : Blk} {R : List Blk} {pb : Blk}
    (hgl : L.getLast? = some pb) (hf : pb.free = true) :
    absFreeAt L b R
      = L.dropLast ++
          (⟨pb.addr, pb.sz + ALIGNED_HEADER_SIZE + (freeMidR b R).1.sz, true⟩ : Blk)
            :: (freeMidR b R).2 := by
  simp [absFreeAt, hgl, hf]

theorem absFreeAt_noleft {L : List Blk} {b : Blk} {R : List Blk}
    (h : ∀ pb, L.getLast? = some pb → pb.free = false) :
    absFreeAt L b R = L ++ (freeMidR b R).1 :: (freeMidR b R).2 := by
  rcases hgl : L.getLast? with _ | pb
  · simp [absFreeAt, hgl]
  · simp [absFreeAt, hgl, h pb hgl]

theorem mem_setSize_ne (s : State) {a x : Nat} (v : Nat) (hx : x ≠ a) :
    (setSize s a v).mem x = s.mem x := by
  simp [setSize, writeMem, hx]

theorem mem_setNext_ne (s : State) {a x : Nat} (n : Option Nat) (hx : x ≠ a) :
    (setNext s a n).mem x = s.mem x := by
  simp [setNext, writeMem, hx]

end FLA

namespace FLA

/-- Simulation of `Free` on an in-use block `b` between `L` and `R`: the new
state realizes `absFreeAt L b R`. -/
theorem Free_sim (s : State) (L R : List Blk) (b : Blk)
    (h : models s (L ++ b :: R)) (hbf : b.free = false) :
    (Free s (some (b.addr + ALIGNED_HEADER_SIZE))).m_heap = s.m_heap
    ∧ (Free s (some (b.addr + ALIGNED_HEADER_SIZE))).heapSize = s.heapSize
    ∧ models (Free s (some (b.addr + ALIGNED_HEADER_SIZE))) (absFreeAt L b R) := by
  have hAHS := AHS_eq
  have hfuel := models_freeAddrs_length h
  have haddrne := tiles_addr_ne h.1
  obtain ⟨htiles, hstored, heven, hinuse, hlinks, hchain⟩ := h
  obtain ⟨htL, htR⟩ := tiles_decomp htiles
  have hbsz : 2 ∣ b.sz := heven b (by simp)
  have hstored_a : (s.mem b.addr).size = b.sz + 1 := by
    have hx := hstored b (by simp)
    rw [hbf] at hx
    simpa using hx
  have hanext : (s.mem b.addr).next = none := hinuse b (by simp) hbf
  have hfree_eq : Free s (some (b.addr + ALIGNED_HEADER_SIZE)) =
      (match findInsertLoop (setSize s b.addr b.sz).mem b.addr (s.heapSize + 1) none
          s.m_firstFree with
       | (prevBlock, nextBlock) =>
         freeFinish (setSize s b.addr b.sz) b.addr prevBlock nextBlock) := by
    have hmod : (b.sz + 1) % 2 = 1 := by omega
    simp only [Free, Nat.add_sub_cancel]
    rw [if_neg (by simp [IS_BLOCK_FREE, hstored_a, hmod])]
    rw [hstored_a, clearFreeBit_succ_of_even hbsz]
    simp only [setSize_heapSize, setSize_m_firstFree]
  set s1 := setSize s b.addr b.sz with hs1def
  have hs1mh : s1.m_heap = s.m_heap := rfl
  have hs1hs : s1.heapSize = s.heapSize := rfl
  have hs1ff : s1.m_firstFree = s.m_firstFree := rfl
  have hs1a_sz : (s1.mem b.addr).size = b.sz := size_setSize_self s b.addr b.sz
  have hs1a_nx : (s1.mem b.addr).next = none := by
    rw [hs1def, next_setSize]
    exact hanext
  have hs1_frame : ∀ x, x ≠ b.addr → s1.mem x = s.mem x :=
    fun x hx => mem_setSize_ne s b.sz hx
  have hlinks1 : linksFrom s1.mem s.m_firstFree (freeAddrs L ++ freeAddrs R) none := by
    rw [freeAddrs_append, freeAddrs_cons_used hbf] at hlinks
    exact (linksFrom_congr (fun x _ => next_setSize s b.addr b.sz x)).mpr hlinks
  have hlen1 : (freeAddrs L ++ freeAddrs R).length < s.heapSize + 1 := by
    rw [freeAddrs_append, freeAddrs_cons_used hbf] at hfuel
    exact hfuel
  have hLlt : ∀ y ∈ freeAddrs L, y < b.addr := freeAddrs_lt htL
  have hRge : ∀ y ∈ freeAddrs R, footEnd b ≤ y := freeAddrs_ge htR
  have hfeb : b.addr < footEnd b := addr_lt_footEnd b
  have hLblk : ∀ x ∈ L, footEnd x ≤ b.addr := fun x hx => (tilesFrom_bounds htL x hx).2
  have hRblk : ∀ x ∈ R, footEnd b ≤ x.addr := fun x hx => (tilesFrom_bounds htR x hx).1
  have hchainL : List.Chain' notBothFree L := (List.chain'_append.mp hchain).1
  have hchainbR : List.Chain' notBothFree (b :: R) := (List.chain'_append.mp hchain).2.1
  have hchainR : List.Chain' notBothFree R := hchainbR.tail
  have hstL1 : ∀ x ∈ L, (s1.mem x.addr).size = if x.free then x.sz else x.sz + 1 := by
    intro x hx
    have h1 := hLblk x hx
    have h2 := addr_lt_footEnd x
    rw [hs1_frame x.addr (by omega)]
    exact hstored x (by simp [hx])
  have hstR1 : ∀ x ∈ R, (s1.mem x.addr).size = if x.free then x.sz else x.sz + 1 := by
    intro x hx
    have h1 := hRblk x hx
    rw [hs1_frame x.addr (by omega)]
    exact hstored x (by simp [hx])
  have hinL1 : ∀ x ∈ L, x.free = false → (s1.mem x.addr).next = none := by
    intro x hx hxf
    rw [hs1def, next_setSize]
    exact hinuse x (by simp [hx]) hxf
  have hinR1 : ∀ x ∈ R, x.free = false → (s1.mem x.addr).next = none := by
    intro x hx hxf
    rw [hs1def, next_setSize]
    exact hinuse x (by simp [hx]) hxf
  have hevL : ∀ x ∈ L, 2 ∣ x.sz := fun x hx => heven x (by simp [hx])
  have hevR : ∀ x ∈ R, 2 ∣ x.sz := fun x hx => heven x (by simp [hx])
  rcases hfaR : freeAddrs R with _ | ⟨nb, FR'⟩
  · -- no free block to the right of b: the walk ends with nextBlock = NULL
    have hnofreeR : ∀ r', R.head? = some r' → r'.free = false := by
      intro r' hr'
      by_contra hcon
      simp only [Bool.not_eq_false] at hcon
      have hmem : r' ∈ R := List.mem_of_mem_head? (by rw [hr']; rfl)
      have hin : r'.addr ∈ freeAddrs R := mem_freeAddrs.mpr ⟨r', hmem, hcon, rfl⟩
      rw [hfaR] at hin
      simp at hin
    have hmidr : freeMidR b R = (⟨b.addr, b.sz, true⟩, R) := freeMidR_no_free_head hnofreeR
    rw [hfaR, List.append_nil] at hlinks1 hlen1
    have hloopA := findInsertLoop_none_eq none hlinks1 hlen1 hLlt
    rcases hfl : (freeAddrs L).getLast? with _ | q
    · -- prevBlock = NULL as well
      have hfaLnil : freeAddrs L = [] := List.getLast?_eq_none_iff.mp hfl
      have hnofreeL : ∀ pb, L.getLast? = some pb → pb.free = false := by
        intro pb hpb
        by_contra hcon
        simp only [Bool.not_eq_false] at hcon
        have hmem : pb ∈ L := List.mem_of_mem_getLast? (by rw [hpb]; rfl)
        have hin : pb.addr ∈ freeAddrs L := mem_freeAddrs.mpr ⟨pb, hmem, hcon, rfl⟩
        rw [hfaLnil] at hin
        simp at hin
      have hfree2 : Free s (some (b.addr + ALIGNED_HEADER_SIZE))
          = freeFinish s1 b.addr none none := by
        rw [hfree_eq, hloopA, lastOr_none, hfl]
      obtain ⟨hmh2, hhs2, hff2, hframe2⟩ := freeFinish_head_none s1 b.addr
      rw [hfree2]
      refine ⟨by rw [hmh2, hs1mh], by rw [hhs2, hs1hs], ?_⟩
      rw [absFreeAt_noleft hnofreeL]
      simp only [hmidr]
      refine models_of_pieces _ L R _ rfl ?_ ?_ ?_ ?_ ?_ ?_ ?_ ?_ ?_ ?_ ?_ ?_ ?_ ?_ ?_
      · rw [hmh2, hs1mh]
        exact htL
      · rw [hmh2, hs1mh, hhs2, hs1hs]
        exact htR
      · intro x hx
        rw [hframe2]
        exact hstL1 x hx
      · intro x hx
        rw [hframe2]
        exact hstR1 x hx
      · rw [hframe2]
        exact hs1a_sz
      · exact hevL
      · exact hevR
      · exact hbsz
      · intro x hx hxf
        rw [hframe2]
        exact hinL1 x hx hxf
      · intro x hx hxf
        rw [hframe2]
        exact hinR1 x hx hxf
      · rw [hff2, hfaLnil, hfaR]
        refine linksFrom_cons.mpr ⟨rfl, ?_⟩
        rw [hframe2, hs1a_nx]
        exact linksFrom_nil.mpr rfl
      · exact hchainL
      · exact hchainR
      · exact hnofreeL
      · exact hnofreeR
    · -- prevBlock = q, the last free block before b
      obtain ⟨FL0, hFL0⟩ := List.getLast?_eq_some_iff.mp hfl
      have hqmem : q ∈ freeAddrs L := by rw [hFL0]; simp
      obtain ⟨qB, hqB, hqBf, hqBaddr⟩ := mem_freeAddrs.mp hqmem
      have hqlt : q < b.addr := hLlt q hqmem
      have hs1q_sz : (s1.mem q).size = qB.sz := by
        rw [hs1_frame q (by omega), ← hqBaddr]
        have hx := hstored qB (by simp [hqB])
        rw [hqBf] at hx
        simpa using hx
      have hFL0lt : ∀ x ∈ FL0, x < q := by
        have hp := freeAddrs_pairwise htL
        rw [hFL0] at hp
        intro x hx
        exact (List.pairwise_append.mp hp).2.2 x hx q (by simp)
      rcases hgll : L.getLast? with _ | pb
      · exfalso
        rw [List.getLast?_eq_none_iff.mp hgll] at hFL0
        simp [freeAddrs] at hFL0
      · obtain ⟨L1, hL1⟩ := List.getLast?_eq_some_iff.mp hgll
        by_cases hpbf : pb.free = true
        · -- the physically preceding block is free: coalesce left
          have hfaL : freeAddrs L = freeAddrs L1 ++ [pb.addr] := by
            rw [hL1, freeAddrs_append, freeAddrs_cons_free hpbf]
            rfl
          have h2 : FL0 ++ [q] = freeAddrs L1 ++ [pb.addr] := by rw [← hFL0, hfaL]
          obtain ⟨hFL0eq, h4⟩ := List.append_inj' h2 rfl
          have hq : q = pb.addr := by simpa using h4
          subst hq
          have hpbmem : pb ∈ L := by rw [hL1]; simp
          have hqpb : qB = pb := by
            by_contra hne
            exact haddrne qB (by simp [hqB]) pb (by simp [hpbmem]) hne (by rw [hqBaddr])
          rw [hL1] at htL
          obtain ⟨htL1, hpbend⟩ := tiles_decomp htL
          have hfe : footEnd pb = b.addr := tilesFrom_nil.mp hpbend
          have hcond : pb.addr + (s1.mem pb.addr).size + ALIGNED_HEADER_SIZE = b.addr := by
            rw [hs1q_sz, hqpb]
            rw [footEnd] at hfe
            omega
          have hfree2 : Free s (some (b.addr + ALIGNED_HEADER_SIZE))
              = freeFinish s1 b.addr (some pb.addr) none := by
            rw [hfree_eq, hloopA, lastOr_none, hfl]
          obtain ⟨hmh2, hhs2, hff2, hnq2, hsq2, hframe2⟩ :=
            freeFinish_prevM_none s1 b.addr pb.addr hqlt hcond
          rw [hfree2]
          refine ⟨by rw [hmh2, hs1mh], by rw [hhs2, hs1hs], ?_⟩
          rw [absFreeAt_left hgll hpbf]
          simp only [hmidr]
          rw [hL1, List.dropLast_concat]
          have hL1blk : ∀ x ∈ L1, footEnd x ≤ pb.addr :=
            fun x hx => (tilesFrom_bounds htL1 x hx).2
          refine models_of_pieces _ L1 R _ rfl ?_ ?_ ?_ ?_ ?_ ?_ ?_ ?_ ?_ ?_ ?_ ?_ ?_ ?_ ?_
          · rw [hmh2, hs1mh]
            exact htL1
          · rw [hmh2, hs1mh, hhs2, hs1hs]
            show tilesFrom (pb.addr + ALIGNED_HEADER_SIZE
                + (pb.sz + ALIGNED_HEADER_SIZE + b.sz)) (s.m_heap + s.heapSize) R
            have he : pb.addr + ALIGNED_HEADER_SIZE + (pb.sz + ALIGNED_HEADER_SIZE + b.sz)
                = footEnd b := by
              rw [footEnd] at hfe ⊢
              omega
            rw [he]
            exact htR
          · intro x hx
            have h1 := hL1blk x hx
            have h2 := addr_lt_footEnd x
            rw [hframe2 x.addr (by omega)]
            exact hstL1 x (by rw [hL1]; simp [hx])
          · intro x hx
            have h1 := hRblk x hx
            rw [hframe2 x.addr (by omega)]
            exact hstR1 x hx
          · show ((freeFinish s1 b.addr (some pb.addr) none).mem pb.addr).size
                = pb.sz + ALIGNED_HEADER_SIZE + b.sz
            rw [hsq2, hs1q_sz, hqpb, hs1a_sz]
            omega
          · exact fun x hx => hevL x (by rw [hL1]; simp [hx])
          · exact hevR
          · show 2 ∣ pb.sz + ALIGNED_HEADER_SIZE + b.sz
            have := hevL pb hpbmem
            rw [AHS_eq]
            omega
          · intro x hx hxf
            have h1 := hL1blk x hx
            have h2 := addr_lt_footEnd x
            rw [hframe2 x.addr (by omega)]
            exact hinL1 x (by rw [hL1]; simp [hx]) hxf
          · intro x hx hxf
            have h1 := hRblk x hx
            rw [hframe2 x.addr (by omega)]
            exact hinR1 x hx hxf
          · rw [hff2, hs1ff, hfaR]
            have hfaL1 : freeAddrs L1 = FL0 := hFL0eq.symm
            rw [hfaL1]
            rw [hFL0] at hlinks1
            obtain ⟨m1, hlf0, hl2⟩ := linksFrom_append.mp hlinks1
            obtain ⟨hm1, _⟩ := hl2
            subst hm1
            refine linksFrom_append.mpr ⟨some pb.addr, ?_, ?_⟩
            · refine (linksFrom_congr ?_).mpr hlf0
              intro x hx
              have := hFL0lt x hx
              rw [hframe2 x (by omega)]
            · exact linksFrom_cons.mpr ⟨rfl, by rw [hnq2]; exact linksFrom_nil.mpr rfl⟩
          · rw [hL1] at hchainL
            exact (List.chain'_append.mp hchainL).1
          · exact hchainR
          · intro x hx
            rw [hL1] at hchainL
            have hbd := (List.chain'_append.mp hchainL).2.2 x hx pb (by simp)
            by_contra hcon
            simp only [Bool.not_eq_false] at hcon
            exact hbd ⟨hcon, hpbf⟩
          · exact hnofreeR
        · -- the physically preceding block is in use: no left merge
          simp only [Bool.not_eq_true] at hpbf
          have hqBne : qB ≠ pb := by
            intro hcon
            rw [hcon, hpbf] at hqBf
            cases hqBf
          have hqB_in_L1 : qB ∈ L1 := by
            rw [hL1] at hqB
            rcases List.mem_append.mp hqB with h' | h'
            · exact h'
            · simp at h'
              exact absurd h' hqBne
          rw [hL1] at htL
          obtain ⟨htL1, hpbend⟩ := tiles_decomp htL
          have hfe : footEnd pb = b.addr := tilesFrom_nil.mp hpbend
          have hqfe : footEnd qB ≤ pb.addr := (tilesFrom_bounds htL1 qB hqB_in_L1).2
          have hcond : q + (s1.mem q).size + ALIGNED_HEADER_SIZE ≠ b.addr := by
            rw [hs1q_sz]
            have h1 : footEnd qB = qB.addr + ALIGNED_HEADER_SIZE + qB.sz := rfl
            have h2 := addr_lt_footEnd pb
            rw [footEnd] at hfe
            rw [hqBaddr] at h1
            omega
          have hfree2 : Free s (some (b.addr + ALIGNED_HEADER_SIZE))
              = freeFinish s1 b.addr (some q) none := by
            rw [hfree_eq, hloopA, lastOr_none, hfl]
          obtain ⟨hmh2, hhs2, hff2, hnq2, hsq2, hframe2⟩ :=
            freeFinish_prev_none s1 b.addr q hqlt hcond
          rw [hfree2]
          refine ⟨by rw [hmh2, hs1mh], by rw [hhs2, hs1hs], ?_⟩
          have hnofreeL : ∀ pb', L.getLast? = some pb' → pb'.free = false := by
            intro pb' hpb'
            rw [hgll] at hpb'
            cases hpb'
            exact hpbf
          rw [absFreeAt_noleft hnofreeL]
          simp only [hmidr]
          refine models_of_pieces _ L R _ rfl ?_ ?_ ?_ ?_ ?_ ?_ ?_ ?_ ?_ ?_ ?_ ?_ ?_ ?_ ?_
          · rw [hmh2, hs1mh, hL1]
            exact htL
          · rw [hmh2, hs1mh, hhs2, hs1hs]
            exact htR
          · intro x hx
            by_cases hxq : x.addr = q
            · have hx1 := hstL1 x hx
              rw [hxq] at hx1 ⊢
              rw [hsq2]
              exact hx1
            · rw [hframe2 x.addr hxq]
              exact hstL1 x hx
          · intro x hx
            have h1 := hRblk x hx
            rw [hframe2 x.addr (by omega)]
            exact hstR1 x hx
          · rw [hframe2 b.addr (by omega)]
            exact hs1a_sz
          · exact hevL
          · exact hevR
          · exact hbsz
          · intro x hx hxf
            have hxq : x.addr ≠ q := by
              intro hcon
              have hxqB : x = qB := by
                by_contra hne
                exact haddrne x (by simp [hx]) qB (by simp [hqB]) hne
                  (by rw [hcon, hqBaddr])
              rw [hxqB, hqBf] at hxf
              cases hxf
            rw [hframe2 x.addr hxq]
            exact hinL1 x hx hxf
          · intro x hx hxf
            have h1 := hRblk x hx
            rw [hframe2 x.addr (by omega)]
            exact hinR1 x hx hxf
          · rw [hff2, hs1ff, hfaR, hFL0]
            rw [hFL0] at hlinks1
            obtain ⟨m1, hlf0, hl2⟩ := linksFrom_append.mp hlinks1
            obtain ⟨hm1, _⟩ := hl2
            subst hm1
            have hassoc : (FL0 ++ [q]) ++ b.addr :: ([] : List Nat)
                = FL0 ++ (q :: b.addr :: []) := by simp
            rw [hassoc]
            refine linksFrom_append.mpr ⟨some q, ?_, ?_⟩
            · refine (linksFrom_congr ?_).mpr hlf0
              intro x hx
              have := hFL0lt x hx
              rw [hframe2 x (by omega)]
            · refine linksFrom_cons.mpr ⟨rfl, ?_⟩
              rw [hnq2]
              refine linksFrom_cons.mpr ⟨rfl, ?_⟩
              rw [hframe2 b.addr (by omega), hs1a_nx]
              exact linksFrom_nil.mpr rfl
          · exact hchainL
          · exact hchainR
          · intro x hx
            rw [hgll] at hx
            cases hx
            exact hpbf
          · exact hnofreeR
  · -- there is a free block at nb ≥ footEnd b: nextBlock = some nb
    rcases R with _ | ⟨r, R'⟩
    · exfalso
      simp [freeAddrs] at hfaR
    · have hrfe : r.addr = footEnd b := (tilesFrom_cons.mp htR).1
      have htR' : tilesFrom (footEnd r) (s.m_heap + s.heapSize) R' :=
        (tilesFrom_cons.mp htR).2
      have hfer : footEnd b < footEnd r := by
        rw [footEnd, footEnd, hrfe, footEnd]
        omega
      by_cases hrf : r.free = true
      · -- the right physical neighbor is free: coalesce right
        have hfaR2 : freeAddrs (r :: R') = r.addr :: freeAddrs R' := freeAddrs_cons_free hrf
        rw [hfaR2] at hfaR
        simp only [List.cons.injEq] at hfaR
        obtain ⟨hnb1, hfr1⟩ := hfaR
        subst hnb1
        subst hfr1
        rw [hfaR2] at hlinks1 hlen1
        have hnotlt : ¬(r.addr < b.addr) := by rw [hrfe]; omega
        have hloopB := findInsertLoop_found_eq none hlinks1 hlen1 hLlt hnotlt
        have hrne : r.addr ≠ b.addr := by rw [hrfe]; omega
        have hs1r_sz : (s1.mem r.addr).size = r.sz := by
          rw [hs1_frame r.addr hrne]
          have hx := hstored r (by simp)
          rw [hrf] at hx
          simpa using hx
        have hcondR : b.addr + (s1.mem b.addr).size + ALIGNED_HEADER_SIZE = r.addr := by
          rw [hs1a_sz, hrfe, footEnd]
          omega
        have hnofreeRp : ∀ y, R'.head? = some y → y.free = false := by
          intro y hy
          by_contra hcon
          simp only [Bool.not_eq_false] at hcon
          exact ((List.chain'_cons'.mp hchainR).1 y (by rw [hy]; rfl)) ⟨hrf, hcon⟩
        have hmidr : freeMidR b (r :: R')
            = (⟨b.addr, b.sz + ALIGNED_HEADER_SIZE + r.sz, true⟩, R') := freeMidR_free hrf
        have hevM2 : 2 ∣ b.sz + ALIGNED_HEADER_SIZE + r.sz := by
          have h1 := hevR r (by simp)
          rw [AHS_eq]
          omega
        have hRpblk : ∀ x ∈ R', footEnd r ≤ x.addr :=
          fun x hx => (tilesFrom_bounds htR' x hx).1
        have hRpge : ∀ y ∈ freeAddrs R', footEnd r ≤ y := freeAddrs_ge htR'
        rcases hfl : (freeAddrs L).getLast? with _ | q
        · -- head position, right merge
          have hfaLnil : freeAddrs L = [] := List.getLast?_eq_none_iff.mp hfl
          have hnofreeL : ∀ pb, L.getLast? = some pb → pb.free = false := by
            intro pb hpb
            by_contra hcon
            simp only [Bool.not_eq_false] at hcon
            have hmem : pb ∈ L := List.mem_of_mem_getLast? (by rw [hpb]; rfl)
            have hin : pb.addr ∈ freeAddrs L := mem_freeAddrs.mpr ⟨pb, hmem, hcon, rfl⟩
            rw [hfaLnil] at hin
            simp at hin
          have hfree2 : Free s (some (b.addr + ALIGNED_HEADER_SIZE))
              = freeFinish s1 b.addr none (some r.addr) := by
            rw [hfree_eq, hloopB, lastOr_none, hfl]
          obtain ⟨hmh2, hhs2, hff2, hnA2, hsA2, hframe2⟩ :=
            freeFinish_head_nextM s1 b.addr r.addr (by rw [hrfe]; omega) hcondR
          rw [hfree2]
          refine ⟨by rw [hmh2, hs1mh], by rw [hhs2, hs1hs], ?_⟩
          rw [absFreeAt_noleft hnofreeL]
          simp only [hmidr]
          rw [hfaLnil] at hlinks1
          have hffr : s.m_firstFree = some r.addr := hlinks1.1
          have hlinksRp : linksFrom s1.mem (s1.mem r.addr).next (freeAddrs R') none :=
            hlinks1.2
          refine models_of_pieces _ L R' _ rfl ?_ ?_ ?_ ?_ ?_ ?_ ?_ ?_ ?_ ?_ ?_ ?_ ?_ ?_ ?_
          · rw [hmh2, hs1mh]
            exact htL
          · rw [hmh2, hs1mh, hhs2, hs1hs]
            show tilesFrom (b.addr + ALIGNED_HEADER_SIZE
                + (b.sz + ALIGNED_HEADER_SIZE + r.sz)) (s.m_heap + s.heapSize) R'
            have he : b.addr + ALIGNED_HEADER_SIZE + (b.sz + ALIGNED_HEADER_SIZE + r.sz)
                = footEnd r := by
              rw [footEnd, hrfe, footEnd]
              omega
            rw [he]
            exact htR'
          · intro x hx
            have h1 := hLblk x hx
            have h2 := addr_lt_footEnd x
            rw [hframe2 x.addr (by omega)]
            exact hstL1 x hx
          · intro x hx
            have h1 := hRpblk x hx
            rw [hframe2 x.addr (by omega)]
            exact hstR1 x (by simp [hx])
          · show ((freeFinish s1 b.addr none (some r.addr)).mem b.addr).size
                = b.sz + ALIGNED_HEADER_SIZE + r.sz
            rw [hsA2, hs1a_sz, hs1r_sz]
            omega
          · exact hevL
          · exact fun x hx => hevR x (by simp [hx])
          · exact hevM2
          · intro x hx hxf
            have h1 := hLblk x hx
            have h2 := addr_lt_footEnd x
            rw [hframe2 x.addr (by omega)]
            exact hinL1 x hx hxf
          · intro x hx hxf
            have h1 := hRpblk x hx
            rw [hframe2 x.addr (by omega)]
            exact hinR1 x (by simp [hx]) hxf
          · rw [hfaLnil, hff2]
            refine linksFrom_cons.mpr ⟨rfl, ?_⟩
            show linksFrom _ ((freeFinish s1 b.addr none (some r.addr)).mem b.addr).next _ _
            rw [hnA2]
            refine (linksFrom_congr ?_).mpr hlinksRp
            intro x hx
            have := hRpge x hx
            rw [hframe2 x (by omega)]
          · exact hchainL
          · exact hchainR.tail
          · exact hnofreeL
          · exact hnofreeRp
        · -- prevBlock = some q, right merge
          obtain ⟨FL0, hFL0⟩ := List.getLast?_eq_some_iff.mp hfl
          have hqmem : q ∈ freeAddrs L := by rw [hFL0]; simp
          obtain ⟨qB, hqB, hqBf, hqBaddr⟩ := mem_freeAddrs.mp hqmem
          have hqlt : q < b.addr := hLlt q hqmem
          have hs1q_sz : (s1.mem q).size = qB.sz := by
            rw [hs1_frame q (by omega), ← hqBaddr]
            have hx := hstored qB (by simp [hqB])
            rw [hqBf] at hx
            simpa using hx
          have hFL0lt : ∀ x ∈ FL0, x < q := by
            have hp := freeAddrs_pairwise htL
            rw [hFL0] at hp
            intro x hx
            exact (List.pairwise_append.mp hp).2.2 x hx q (by simp)
          rcases hgll : L.getLast? with _ | pb
          · exfalso
            rw [List.getLast?_eq_none_iff.mp hgll] at hFL0
            simp [freeAddrs] at hFL0
          · obtain ⟨L1, hL1⟩ := List.getLast?_eq_some_iff.mp hgll
            by_cases hpbf : pb.free = true
            · -- three-way merge: left and right neighbors both free
              have hfaL : freeAddrs L = freeAddrs L1 ++ [pb.addr] := by
                rw [hL1, freeAddrs_append, freeAddrs_cons_free hpbf]
                rfl
              have h2 : FL0 ++ [q] = freeAddrs L1 ++ [pb.addr] := by rw [← hFL0, hfaL]
              obtain ⟨hFL0eq, h4⟩ := List.append_inj' h2 rfl
              have hq : q = pb.addr := by simpa using h4
              subst hq
              have hpbmem : pb ∈ L := by rw [hL1]; simp
              have hqpb : qB = pb := by
                by_contra hne
                exact haddrne qB (by simp [hqB]) pb (by simp [hpbmem]) hne (by rw [hqBaddr])
              rw [hL1] at htL
              obtain ⟨htL1, hpbend⟩ := tiles_decomp htL
              have hfe : footEnd pb = b.addr := tilesFrom_nil.mp hpbend
              have hcondL : pb.addr + (s1.mem pb.addr).size + ALIGNED_HEADER_SIZE
                  = b.addr := by
                rw [hs1q_sz, hqpb]
                rw [footEnd] at hfe
                omega
              have hcondR2 : pb.addr + ((s1.mem pb.addr).size + (s1.mem b.addr).size
                  + ALIGNED_HEADER_SIZE) + ALIGNED_HEADER_SIZE = r.addr := by
                rw [hs1q_sz, hqpb, hs1a_sz, hrfe, footEnd]
                rw [footEnd] at hfe
                omega
              have hfree2 : Free s (some (b.addr + ALIGNED_HEADER_SIZE))
                  = freeFinish s1 b.addr (some pb.addr) (some r.addr) := by
                rw [hfree_eq, hloopB, lastOr_none, hfl]
              obtain ⟨hmh2, hhs2, hff2, hnq2, hsq2, hframe2⟩ :=
                freeFinish_prevM_nextM s1 b.addr pb.addr r.addr hqlt
                  (by rw [hrfe]; omega) hcondL hcondR2
              rw [hfree2]
              refine ⟨by rw [hmh2, hs1mh], by rw [hhs2, hs1hs], ?_⟩
              rw [absFreeAt_left hgll hpbf]
              simp only [hmidr]
              rw [hL1, List.dropLast_concat]
              have hL1blk : ∀ x ∈ L1, footEnd x ≤ pb.addr :=
                fun x hx => (tilesFrom_bounds htL1 x hx).2
              refine models_of_pieces _ L1 R' _ rfl ?_ ?_ ?_ ?_ ?_ ?_ ?_ ?_ ?_ ?_ ?_ ?_ ?_ ?_ ?_
              · rw [hmh2, hs1mh]
                exact htL1
              · rw [hmh2, hs1mh, hhs2, hs1hs]
                show tilesFrom (pb.addr + ALIGNED_HEADER_SIZE
                    + (pb.sz + ALIGNED_HEADER_SIZE
                      + (b.sz + ALIGNED_HEADER_SIZE + r.sz)))
                  (s.m_heap + s.heapSize) R'
                have he : pb.addr + ALIGNED_HEADER_SIZE + (pb.sz + ALIGNED_HEADER_SIZE
                    + (b.sz + ALIGNED_HEADER_SIZE + r.sz)) = footEnd r := by
                  rw [footEnd, hrfe, footEnd]
                  rw [footEnd] at hfe
                  omega
                rw [he]
                exact htR'
              · intro x hx
                have h1 := hL1blk x hx
                have h2 := addr_lt_footEnd x
                rw [hframe2 x.addr (by omega)]
                exact hstL1 x (by rw [hL1]; simp [hx])
              · intro x hx
                have h1 := hRpblk x hx
                rw [hframe2 x.addr (by omega)]
                exact hstR1 x (by simp [hx])
              · show ((freeFinish s1 b.addr (some pb.addr) (some r.addr)).mem pb.addr).size
                    = pb.sz + ALIGNED_HEADER_SIZE + (b.sz + ALIGNED_HEADER_SIZE + r.sz)
                rw [hsq2, hs1q_sz, hqpb, hs1a_sz, hs1r_sz]
                omega
              · exact fun x hx => hevL x (by rw [hL1]; simp [hx])
              · exact fun x hx => hevR x (by simp [hx])
              · show 2 ∣ pb.sz + ALIGNED_HEADER_SIZE + (b.sz + ALIGNED_HEADER_SIZE + r.sz)
                have h1 := hevL pb hpbmem
                have h2 := hevR r (by simp)
                rw [AHS_eq]
                omega
              · intro x hx hxf
                have h1 := hL1blk x hx
                have h2 := addr_lt_footEnd x
                rw [hframe2 x.addr (by omega)]
                exact hinL1 x (by rw [hL1]; simp [hx]) hxf
              · intro x hx hxf
                have h1 := hRpblk x hx
                rw [hframe2 x.addr (by omega)]
                exact hinR1 x (by simp [hx]) hxf
              · rw [hff2, hs1ff]
                have hfaL1 : freeAddrs L1 = FL0 := hFL0eq.symm
                rw [hfaL1]
                rw [hFL0] at hlinks1
                rw [List.append_assoc] at hlinks1
                obtain ⟨m1, hlf0, hl2⟩ := linksFrom_append.mp hlinks1
                obtain ⟨hm1, hl3⟩ := hl2
                subst hm1
                obtain ⟨_, hl4⟩ := hl3
                refine linksFrom_append.mpr ⟨some pb.addr, ?_, ?_⟩
                · refine (linksFrom_congr ?_).mpr hlf0
                  intro x hx
                  have := hFL0lt x hx
                  rw [hframe2 x (by omega)]
                · refine linksFrom_cons.mpr ⟨rfl, ?_⟩
                  show linksFrom _
                    ((freeFinish s1 b.addr (some pb.addr) (some r.addr)).mem pb.addr).next
                    (freeAddrs R') none
                  rw [hnq2]
                  refine (linksFrom_congr ?_).mpr hl4
                  intro x hx
                  have := hRpge x hx
                  rw [hframe2 x (by omega)]
              · rw [hL1] at hchainL
                exact (List.chain'_append.mp hchainL).1
              · exact hchainR.tail
              · intro x hx
                rw [hL1] at hchainL
                have hbd := (List.chain'_append.mp hchainL).2.2 x hx pb (by simp)
                by_contra hcon
                simp only [Bool.not_eq_false] at hcon
                exact hbd ⟨hcon, hpbf⟩
              · exact hnofreeRp
            · -- right merge only
              simp only [Bool.not_eq_true] at hpbf
              have hqBne : qB ≠ pb := by
                intro hcon
                rw [hcon, hpbf] at hqBf
                cases hqBf
              have hqB_in_L1 : qB ∈ L1 := by
                rw [hL1] at hqB
                rcases List.mem_append.mp hqB with h' | h'
                · exact h'
                · simp at h'
                  exact absurd h' hqBne
              rw [hL1] at htL
              obtain ⟨htL1, hpbend⟩ := tiles_decomp htL
              have hfe : footEnd pb = b.addr := tilesFrom_nil.mp hpbend
              have hqfe : footEnd qB ≤ pb.addr := (tilesFrom_bounds htL1 qB hqB_in_L1).2
              have hcondL : q + (s1.mem q).size + ALIGNED_HEADER_SIZE ≠ b.addr := by
                rw [hs1q_sz]
                have h1 : footEnd qB = qB.addr + ALIGNED_HEADER_SIZE + qB.sz := rfl
                have h2 := addr_lt_footEnd pb
                rw [footEnd] at hfe
                rw [hqBaddr] at h1
                omega
              have hfree2 : Free s (some (b.addr + ALIGNED_HEADER_SIZE))
                  = freeFinish s1 b.addr (some q) (some r.addr) := by
                rw [hfree_eq, hloopB, lastOr_none, hfl]
              obtain ⟨hmh2, hhs2, hff2, hnq2, hsq2, hnA2, hsA2, hframe2⟩ :=
                freeFinish_prev_nextM s1 b.addr q r.addr hqlt (by rw [hrfe]; omega)
                  hcondL hcondR
              rw [hfree2]
              refine ⟨by rw [hmh2, hs1mh], by rw [hhs2, hs1hs], ?_⟩
              have hnofreeL : ∀ pb', L.getLast? = some pb' → pb'.free = false := by
                intro pb' hpb'
                rw [hgll] at hpb'
                cases hpb'
                exact hpbf
              rw [absFreeAt_noleft hnofreeL]
              simp only [hmidr]
              refine models_of_pieces _ L R' _ rfl ?_ ?_ ?_ ?_ ?_ ?_ ?_ ?_ ?_ ?_ ?_ ?_ ?_ ?_ ?_
              · rw [hmh2, hs1mh, hL1]
                exact htL
              · rw [hmh2, hs1mh, hhs2, hs1hs]
                show tilesFrom (b.addr + ALIGNED_HEADER_SIZE
                    + (b.sz + ALIGNED_HEADER_SIZE + r.sz)) (s.m_heap + s.heapSize) R'
                have he : b.addr + ALIGNED_HEADER_SIZE + (b.sz + ALIGNED_HEADER_SIZE + r.sz)
                    = footEnd r := by
                  rw [footEnd, hrfe, footEnd]
                  omega
                rw [he]
                exact htR'
              · intro x hx
                by_cases hxq : x.addr = q
                · have hx1 := hstL1 x hx
                  rw [hxq] at hx1 ⊢
                  rw [hsq2]
                  exact hx1
                · have h1 := hLblk x hx
                  have h2 := addr_lt_footEnd x
                  rw [hframe2 x.addr hxq (by omega)]
                  exact hstL1 x hx
              · intro x hx
                have h1 := hRpblk x hx
                rw [hframe2 x.addr (by omega) (by omega)]
                exact hstR1 x (by simp [hx])
              · show ((freeFinish s1 b.addr (some q) (some r.addr)).mem b.addr).size
                    = b.sz + ALIGNED_HEADER_SIZE + r.sz
                rw [hsA2, hs1a_sz, hs1r_sz]
                omega
              · exact hevL
              · exact fun x hx => hevR x (by simp [hx])
              · exact hevM2
              · intro x hx hxf
                have hxq : x.addr ≠ q := by
                  intro hcon
                  have hxqB : x = qB := by
                    by_contra hne
                    exact haddrne x (by simp [hx]) qB (by simp [hqB]) hne
                      (by rw [hcon, hqBaddr])
                  rw [hxqB, hqBf] at hxf
                  cases hxf
                have h1 := hLblk x hx
                have h2 := addr_lt_footEnd x
                rw [hframe2 x.addr hxq (by omega)]
                exact hinL1 x hx hxf
              · intro x hx hxf
                have h1 := hRpblk x hx
                rw [hframe2 x.addr (by omega) (by omega)]
                exact hinR1 x (by simp [hx]) hxf
              · rw [hff2, hs1ff, hFL0]
                rw [hFL0] at hlinks1
                rw [List.append_assoc] at hlinks1
                obtain ⟨m1, hlf0, hl2⟩ := linksFrom_append.mp hlinks1
                obtain ⟨hm1, hl3⟩ := hl2
                subst hm1
                obtain ⟨_, hl4⟩ := hl3
                have hassoc : (FL0 ++ [q]) ++ b.addr :: freeAddrs R'
                    = FL0 ++ (q :: b.addr :: freeAddrs R') := by simp
                rw [hassoc]
                refine linksFrom_append.mpr ⟨some q, ?_, ?_⟩
                · refine (linksFrom_congr ?_).mpr hlf0
                  intro x hx
                  have := hFL0lt x hx
                  rw [hframe2 x (by omega) (by omega)]
                · refine linksFrom_cons.mpr ⟨rfl, ?_⟩
                  rw [hnq2]
                  refine linksFrom_cons.mpr ⟨rfl, ?_⟩
                  show linksFrom _
                    ((freeFinish s1 b.addr (some q) (some r.addr)).mem b.addr).next
                    (freeAddrs R') none
                  rw [hnA2]
                  refine (linksFrom_congr ?_).mpr hl4
                  intro x hx
                  have := hRpge x hx
                  rw [hframe2 x (by omega) (by omega)]
              · exact hchainL
              · exact hchainR.tail
              · intro x hx
                rw [hgll] at hx
                cases hx
                exact hpbf
              · exact hnofreeRp
      · -- right neighbor in use: nb is deeper, no right merge
        have hrf' : r.free = false := by simpa using hrf
        have hfaR2 : freeAddrs (r :: R') = freeAddrs R' := freeAddrs_cons_used hrf'
        rw [hfaR2] at hlinks1 hlen1 hfaR
        rw [hfaR] at hlinks1 hlen1
        have hnbmem : nb ∈ freeAddrs R' := by rw [hfaR]; simp
        have hnbge : footEnd r ≤ nb := freeAddrs_ge htR' nb hnbmem
        have hnbgt : footEnd b < nb := by omega
        have hnotlt : ¬(nb < b.addr) := by omega
        have hloopC := findInsertLoop_found_eq none hlinks1 hlen1 hLlt hnotlt
        have hcondR : b.addr + (s1.mem b.addr).size + ALIGNED_HEADER_SIZE ≠ nb := by
          rw [hs1a_sz]
          rw [footEnd] at hnbgt
          omega
        have hnofreeR2 : ∀ y, (r :: R').head? = some y → y.free = false := by
          intro y hy
          cases hy
          exact hrf'
        have hmidr : freeMidR b (r :: R') = (⟨b.addr, b.sz, true⟩, r :: R') :=
          freeMidR_no_free_head hnofreeR2
        obtain ⟨m1', hl4⟩ : ∃ m1', linksFrom s1.mem m1' (nb :: FR') none ∧ True := by
          obtain ⟨m1', _, h2⟩ := linksFrom_append.mp hlinks1
          exact ⟨m1', h2, trivial⟩
        obtain ⟨hlnb, _⟩ := hl4
        have hlFRp : linksFrom s1.mem (s1.mem nb).next FR' none := hlnb.2
        rcases hfl : (freeAddrs L).getLast? with _ | q
        · -- head position, no merge either side
          have hfaLnil : freeAddrs L = [] := List.getLast?_eq_none_iff.mp hfl
          have hnofreeL : ∀ pb, L.getLast? = some pb → pb.free = false := by
            intro pb hpb
            by_contra hcon
            simp only [Bool.not_eq_false] at hcon
            have hmem : pb ∈ L := List.mem_of_mem_getLast? (by rw [hpb]; rfl)
            have hin : pb.addr ∈ freeAddrs L := mem_freeAddrs.mpr ⟨pb, hmem, hcon, rfl⟩
            rw [hfaLnil] at hin
            simp at hin
          have hfree2 : Free s (some (b.addr + ALIGNED_HEADER_SIZE))
              = freeFinish s1 b.addr none (some nb) := by
            rw [hfree_eq, hloopC, lastOr_none, hfl]
          obtain ⟨hmh2, hhs2, hff2, hnA2, hsA2, hframe2⟩ :=
            freeFinish_head_next s1 b.addr nb (by omega) hcondR
          rw [hfree2]
          refine ⟨by rw [hmh2, hs1mh], by rw [hhs2, hs1hs], ?_⟩
          rw [absFreeAt_noleft hnofreeL]
          simp only [hmidr]
          refine models_of_pieces _ L (r :: R') _ rfl ?_ ?_ ?_ ?_ ?_ ?_ ?_ ?_ ?_ ?_ ?_ ?_ ?_ ?_ ?_
          · rw [hmh2, hs1mh]
            exact htL
          · rw [hmh2, hs1mh, hhs2, hs1hs]
            exact htR
          · intro x hx
            have h1 := hLblk x hx
            have h2 := addr_lt_footEnd x
            rw [hframe2 x.addr (by omega)]
            exact hstL1 x hx
          · intro x hx
            have h1 := hRblk x hx
            rw [hframe2 x.addr (by omega)]
            exact hstR1 x hx
          · show ((freeFinish s1 b.addr none (some nb)).mem b.addr).size = b.sz
            rw [hsA2]
            exact hs1a_sz
          · exact hevL
          · exact hevR
          · exact hbsz
          · intro x hx hxf
            have h1 := hLblk x hx
            have h2 := addr_lt_footEnd x
            rw [hframe2 x.addr (by omega)]
            exact hinL1 x hx hxf
          · intro x hx hxf
            have h1 := hRblk x hx
            rw [hframe2 x.addr (by omega)]
            exact hinR1 x hx hxf
          · rw [hff2, hfaLnil, hfaR2, hfaR]
            refine linksFrom_cons.mpr ⟨rfl, ?_⟩
            show linksFrom _ ((freeFinish s1 b.addr none (some nb)).mem b.addr).next _ _
            rw [hnA2]
            refine linksFrom_cons.mpr ⟨rfl, ?_⟩
            have hnbne : nb ≠ b.addr := by omega
            rw [hframe2 nb hnbne]
            refine (linksFrom_congr ?_).mpr hlFRp
            intro x hx
            have hxmem : x ∈ freeAddrs R' := by rw [hfaR]; simp [hx]
            have := freeAddrs_ge htR' x hxmem
            rw [hframe2 x (by omega)]
          · exact hchainL
          · exact hchainR
          · exact hnofreeL
          · exact hnofreeR2
        · -- prevBlock = some q, no merge on either side
          obtain ⟨FL0, hFL0⟩ := List.getLast?_eq_some_iff.mp hfl
          have hqmem : q ∈ freeAddrs L := by rw [hFL0]; simp
          obtain ⟨qB, hqB, hqBf, hqBaddr⟩ := mem_freeAddrs.mp hqmem
          have hqlt : q < b.addr := hLlt q hqmem
          have hs1q_sz : (s1.mem q).size = qB.sz := by
            rw [hs1_frame q (by omega), ← hqBaddr]
            have hx := hstored qB (by simp [hqB])
            rw [hqBf] at hx
            simpa using hx
          have hFL0lt : ∀ x ∈ FL0, x < q := by
            have hp := freeAddrs_pairwise htL
            rw [hFL0] at hp
            intro x hx
            exact (List.pairwise_append.mp hp).2.2 x hx q (by simp)
          rcases hgll : L.getLast? with _ | pb
          · exfalso
            rw [List.getLast?_eq_none_iff.mp hgll] at hFL0
            simp [freeAddrs] at hFL0
          · obtain ⟨L1, hL1⟩ := List.getLast?_eq_some_iff.mp hgll
            by_cases hpbf : pb.free = true
            · -- left merge only
              have hfaL : freeAddrs L = freeAddrs L1 ++ [pb.addr] := by
                rw [hL1, freeAddrs_append, freeAddrs_cons_free hpbf]
                rfl
              have h2 : FL0 ++ [q] = freeAddrs L1 ++ [pb.addr] := by rw [← hFL0, hfaL]
              obtain ⟨hFL0eq, h4⟩ := List.append_inj' h2 rfl
              have hq : q = pb.addr := by simpa using h4
              subst hq
              have hpbmem : pb ∈ L := by rw [hL1]; simp
              have hqpb : qB = pb := by
                by_contra hne
                exact haddrne qB (by simp [hqB]) pb (by simp [hpbmem]) hne (by rw [hqBaddr])
              rw [hL1] at htL
              obtain ⟨htL1, hpbend⟩ := tiles_decomp htL
              have hfe : footEnd pb = b.addr := tilesFrom_nil.mp hpbend
              have hcondL : pb.addr + (s1.mem pb.addr).size + ALIGNED_HEADER_SIZE
                  = b.addr := by
                rw [hs1q_sz, hqpb]
                rw [footEnd] at hfe
                omega
              have hcondR2 : pb.addr + ((s1.mem pb.addr).size + (s1.mem b.addr).size
                  + ALIGNED_HEADER_SIZE) + ALIGNED_HEADER_SIZE ≠ nb := by
                rw [hs1q_sz, hqpb, hs1a_sz]
                rw [footEnd] at hfe hnbgt
                omega
              have hfree2 : Free s (some (b.addr + ALIGNED_HEADER_SIZE))
                  = freeFinish s1 b.addr (some pb.addr) (some nb) := by
                rw [hfree_eq, hloopC, lastOr_none, hfl]
              obtain ⟨hmh2, hhs2, hff2, hnq2, hsq2, hframe2⟩ :=
                freeFinish_prevM_next s1 b.addr pb.addr nb hqlt (by omega) hcondL hcondR2
              rw [hfree2]
              refine ⟨by rw [hmh2, hs1mh], by rw [hhs2, hs1hs], ?_⟩
              rw [absFreeAt_left hgll hpbf]
              simp only [hmidr]
              rw [hL1, List.dropLast_concat]
              have hL1blk : ∀ x ∈ L1, footEnd x ≤ pb.addr :=
                fun x hx => (tilesFrom_bounds htL1 x hx).2
              refine models_of_pieces _ L1 (r :: R') _ rfl ?_ ?_ ?_ ?_ ?_ ?_ ?_ ?_ ?_ ?_ ?_ ?_ ?_ ?_ ?_
              · rw [hmh2, hs1mh]
                exact htL1
              · rw [hmh2, hs1mh, hhs2, hs1hs]
                show tilesFrom (pb.addr + ALIGNED_HEADER_SIZE
                    + (pb.sz + ALIGNED_HEADER_SIZE + b.sz)) (s.m_heap + s.heapSize) (r :: R')
                have he : pb.addr + ALIGNED_HEADER_SIZE
                    + (pb.sz + ALIGNED_HEADER_SIZE + b.sz) = footEnd b := by
                  rw [footEnd]
                  rw [footEnd] at hfe
                  omega
                rw [he]
                exact htR
              · intro x hx
                have h1 := hL1blk x hx
                have h2 := addr_lt_footEnd x
                rw [hframe2 x.addr (by omega)]
                exact hstL1 x (by rw [hL1]; simp [hx])
              · intro x hx
                have h1 := hRblk x hx
                rw [hframe2 x.addr (by omega)]
                exact hstR1 x hx
              · show ((freeFinish s1 b.addr (some pb.addr) (some nb)).mem pb.addr).size
                    = pb.sz + ALIGNED_HEADER_SIZE + b.sz
                rw [hsq2, hs1q_sz, hqpb, hs1a_sz]
                omega
              · exact fun x hx => hevL x (by rw [hL1]; simp [hx])
              · exact hevR
              · show 2 ∣ pb.sz + ALIGNED_HEADER_SIZE + b.sz
                have h1 := hevL pb hpbmem
                rw [AHS_eq]
                omega
              · intro x hx hxf
                have h1 := hL1blk x hx
                have h2 := addr_lt_footEnd x
                rw [hframe2 x.addr (by omega)]
                exact hinL1 x (by rw [hL1]; simp [hx]) hxf
              · intro x hx hxf
                have h1 := hRblk x hx
                rw [hframe2 x.addr (by omega)]
                exact hinR1 x hx hxf
              · rw [hff2, hs1ff]
                have hfaL1 : freeAddrs L1 = FL0 := hFL0eq.symm
                rw [hfaL1, hfaR2, hfaR]
                rw [hFL0] at hlinks1
                rw [List.append_assoc] at hlinks1
                obtain ⟨m1, hlf0, hl2⟩ := linksFrom_append.mp hlinks1
                obtain ⟨hm1, hl3⟩ := hl2
                subst hm1
                refine linksFrom_append.mpr ⟨some pb.addr, ?_, ?_⟩
                · refine (linksFrom_congr ?_).mpr hlf0
                  intro x hx
                  have := hFL0lt x hx
                  rw [hframe2 x (by omega)]
                · refine linksFrom_cons.mpr ⟨rfl, ?_⟩
                  show linksFrom _
                    ((freeFinish s1 b.addr (some pb.addr) (some nb)).mem pb.addr).next
                    (nb :: FR') none
                  rw [hnq2]
                  refine linksFrom_cons.mpr ⟨rfl, ?_⟩
                  have hnbne : nb ≠ pb.addr := by omega
                  rw [hframe2 nb hnbne]
                  refine (linksFrom_congr ?_).mpr hlFRp
                  intro x hx
                  have hxmem : x ∈ freeAddrs R' := by rw [hfaR]; simp [hx]
                  have := freeAddrs_ge htR' x hxmem
                  rw [hframe2 x (by omega)]
              · rw [hL1] at hchainL
                exact (List.chain'_append.mp hchainL).1
              · exact hchainR
              · intro x hx
                rw [hL1] at hchainL
                have hbd := (List.chain'_append.mp hchainL).2.2 x hx pb (by simp)
                by_contra hcon
                simp only [Bool.not_eq_false] at hcon
                exact hbd ⟨hcon, hpbf⟩
              · exact hnofreeR2
            · -- no merge on either side, q precedes
              simp only [Bool.not_eq_true] at hpbf
              have hqBne : qB ≠ pb := by
                intro hcon
                rw [hcon, hpbf] at hqBf
                cases hqBf
              have hqB_in_L1 : qB ∈ L1 := by
                rw [hL1] at hqB
                rcases List.mem_append.mp hqB with h' | h'
                · exact h'
                · simp at h'
                  exact absurd h' hqBne
              rw [hL1] at htL
              obtain ⟨htL1, hpbend⟩ := tiles_decomp htL
              have hfe : footEnd pb = b.addr := tilesFrom_nil.mp hpbend
              have hqfe : footEnd qB ≤ pb.addr := (tilesFrom_bounds htL1 qB hqB_in_L1).2
              have hcondL : q + (s1.mem q).size + ALIGNED_HEADER_SIZE ≠ b.addr := by
                rw [hs1q_sz]
                have h1 : footEnd qB = qB.addr + ALIGNED_HEADER_SIZE + qB.sz := rfl
                have h2 := addr_lt_footEnd pb
                rw [footEnd] at hfe
                rw [hqBaddr] at h1
                omega
              have hfree2 : Free s (some (b.addr + ALIGNED_HEADER_SIZE))
                  = freeFinish s1 b.addr (some q) (some nb) := by
                rw [hfree_eq, hloopC, lastOr_none, hfl]
              obtain ⟨hmh2, hhs2, hff2, hnq2, hsq2, hnA2, hsA2, hframe2⟩ :=
                freeFinish_prev_next s1 b.addr q nb hqlt (by omega) hcondL hcondR
              rw [hfree2]
              refine ⟨by rw [hmh2, hs1mh], by rw [hhs2, hs1hs], ?_⟩
              have hnofreeL : ∀ pb', L.getLast? = some pb' → pb'.free = false := by
                intro pb' hpb'
                rw [hgll] at hpb'
                cases hpb'
                exact hpbf
              rw [absFreeAt_noleft hnofreeL]
              simp only [hmidr]
              refine models_of_pieces _ L (r :: R') _ rfl ?_ ?_ ?_ ?_ ?_ ?_ ?_ ?_ ?_ ?_ ?_ ?_ ?_ ?_ ?_
              · rw [hmh2, hs1mh, hL1]
                exact htL
              · rw [hmh2, hs1mh, hhs2, hs1hs]
                exact htR
              · intro x hx
                by_cases hxq : x.addr = q
                · have hx1 := hstL1 x hx
                  rw [hxq] at hx1 ⊢
                  rw [hsq2]
                  exact hx1
                · have h1 := hLblk x hx
                  have h2 := addr_lt_footEnd x
                  rw [hframe2 x.addr hxq (by omega)]
                  exact hstL1 x hx
              · intro x hx
                have h1 := hRblk x hx
                rw [hframe2 x.addr (by omega) (by omega)]
                exact hstR1 x hx
              · show ((freeFinish s1 b.addr (some q) (some nb)).mem b.addr).size = b.sz
                rw [hsA2]
                exact hs1a_sz
              · exact hevL
              · exact hevR
              · exact hbsz
              · intro x hx hxf
                have hxq : x.addr ≠ q := by
                  intro hcon
                  have hxqB : x = qB := by
                    by_contra hne
                    exact haddrne x (by simp [hx]) qB (by simp [hqB]) hne
                      (by rw [hcon, hqBaddr])
                  rw [hxqB, hqBf] at hxf
                  cases hxf
                have h1 := hLblk x hx
                have h2 := addr_lt_footEnd x
                rw [hframe2 x.addr hxq (by omega)]
                exact hinL1 x hx hxf
              · intro x hx hxf
                have h1 := hRblk x hx
                rw [hframe2 x.addr (by omega) (by omega)]
                exact hinR1 x hx hxf
              · rw [hff2, hs1ff, hFL0, hfaR2, hfaR]
                rw [hFL0] at hlinks1
                rw [List.append_assoc] at hlinks1
                obtain ⟨m1, hlf0, hl2⟩ := linksFrom_append.mp hlinks1
                obtain ⟨hm1, hl3⟩ := hl2
                subst hm1
                have hassoc : (FL0 ++ [q]) ++ b.addr :: nb :: FR'
                    = FL0 ++ (q :: b.addr :: nb :: FR') := by simp
                rw [hassoc]
                refine linksFrom_append.mpr ⟨some q, ?_, ?_⟩
                · refine (linksFrom_congr ?_).mpr hlf0
                  intro x hx
                  have := hFL0lt x hx
                  rw [hframe2 x (by omega) (by omega)]
                · refine linksFrom_cons.mpr ⟨rfl, ?_⟩
                  rw [hnq2]
                  refine linksFrom_cons.mpr ⟨rfl, ?_⟩
                  show linksFrom _
                    ((freeFinish s1 b.addr (some q) (some nb)).mem b.addr).next
                    (nb :: FR') none
                  rw [hnA2]
                  refine linksFrom_cons.mpr ⟨rfl, ?_⟩
                  have hnbne : nb ≠ q := by omega
                  rw [hframe2 nb hnbne (by omega)]
                  refine (linksFrom_congr ?_).mpr hlFRp
                  intro x hx
                  have hxmem : x ∈ freeAddrs R' := by rw [hfaR]; simp [hx]
                  have := freeAddrs_ge htR' x hxmem
                  rw [hframe2 x (by omega) (by omega)]
              · exact hchainL
              · exact hchainR
              · intro x hx
                rw [hgll] at hx
                cases hx
                exact hpbf
              · exact hnofreeR2

end FLA

namespace FLA

/-- A request no free block can satisfy returns `NULL` and leaves the state
untouched (lines 106–110). -/
theorem AllocateAligned_none (s : State) (bs : List Blk) (n al : Nat)
    (h : models s bs)
    (hsmall : ∀ b ∈ bs, b.free = true → b.sz < sizeNeededFor n al) :
    AllocateAligned s n al = (s, none) := by
  have hneedsmall : ∀ y ∈ freeAddrs bs, (s.mem y).size < sizeNeededFor n al := by
    intro y hy
    obtain ⟨b, hb, hbf, rfl⟩ := mem_freeAddrs.mp hy
    have hx := h.2.1 b hb
    rw [hbf] at hx
    simp only [if_pos rfl] at hx
    rw [hx]
    exact hsmall b hb hbf
  have hloop := findFitLoop_none_eq none
    h.2.2.2.2.1 (models_freeAddrs_length h) hneedsmall
  simp only [AllocateAligned]
  rw [hloop]

/-- A first fit exists as soon as any free block is large enough. -/
theorem exists_first_fit {bs : List Blk} {need : Nat}
    (h : ∃ b ∈ bs, b.free = true ∧ need ≤ b.sz) :
    ∃ L fit R, bs = L ++ fit :: R ∧ (∀ b ∈ L, b.free = true → b.sz < need)
      ∧ fit.free = true ∧ need ≤ fit.sz := by
  induction bs with
  | nil => simp at h
  | cons c bs ih =>
    by_cases hc : c.free = true ∧ need ≤ c.sz
    · exact ⟨[], c, bs, rfl, by simp, hc.1, hc.2⟩
    · obtain ⟨b, hb, hbp⟩ := h
      rcases List.mem_cons.mp hb with rfl | hb'
      · exact absurd hbp hc
      · obtain ⟨L, fit, R, hbs, hL, hfit, hsz⟩ := ih ⟨b, hb', hbp⟩
        refine ⟨c :: L, fit, R, by rw [hbs]; rfl, ?_, hfit, hsz⟩
        intro x hx hxf
        rcases List.mem_cons.mp hx with rfl | hx'
        · by_contra hlt
          exact hc ⟨hxf, by omega⟩
        · exact hL x hx' hxf

/-- An in-use block survives `absFreeAt` exactly when it was one of the
side blocks. -/
theorem absFreeAt_used_mem (L R : List Blk) (b : Blk) :
    ∀ c : Blk, c.free = false → (c ∈ absFreeAt L b R ↔ c ∈ L ∨ c ∈ R) := by
  intro c hcf
  have hcmid : ∀ sz, c ≠ (⟨b.addr, sz, true⟩ : Blk) := by
    intro sz hcon
    rw [hcon] at hcf
    cases hcf
  have hmidR : ((freeMidR b R).1.free = true) ∧ (c ∈ (freeMidR b R).2 ↔ c ∈ R) := by
    cases R with
    | nil => exact ⟨rfl, by rfl⟩
    | cons r R' =>
      by_cases hrf : r.free = true
      · rw [freeMidR_free hrf]
        constructor
        · rfl
        · simp only [List.mem_cons]
          constructor
          · intro hx
            exact Or.inr hx
          · rintro (rfl | hx)
            · rw [hrf] at hcf
              cases hcf
            · exact hx
      · rw [freeMidR_no_free_head (by intro y hy; cases hy; simpa using hrf)]
        exact ⟨rfl, Iff.rfl⟩
  have hcne1 : c ≠ (freeMidR b R).1 := by
    intro hcon
    rw [hcon] at hcf
    rw [hmidR.1] at hcf
    cases hcf
  rcases hgl : L.getLast? with _ | pb
  case none =>
    rw [absFreeAt_noleft (by intro pb h; rw [hgl] at h; cases h)]
    constructor
    · intro hx
      rcases List.mem_append.mp hx with hx' | hx'
      · exact Or.inl hx'
      · rcases List.mem_cons.mp hx' with rfl | hx''
        · exact absurd rfl hcne1
        · exact Or.inr (hmidR.2.mp hx'')
    · rintro (hx | hx)
      · exact List.mem_append.mpr (Or.inl hx)
      · exact List.mem_append.mpr (Or.inr (List.mem_cons.mpr
          (Or.inr (hmidR.2.mpr hx))))
  case some =>
    obtain ⟨L1, hL1⟩ := List.getLast?_eq_some_iff.mp hgl
    by_cases hpbf : pb.free = true
    · rw [absFreeAt_left hgl hpbf]
      have hcpb : c ≠ pb := by
        intro hcon
        rw [hcon, hpbf] at hcf
        cases hcf
      have hcm : c ≠ (⟨pb.addr, pb.sz + ALIGNED_HEADER_SIZE + (freeMidR b R).1.sz,
          true⟩ : Blk) := by
        intro hcon
        rw [hcon] at hcf
        cases hcf
      constructor
      · intro hx
        rcases List.mem_append.mp hx with hx' | hx'
        · exact Or.inl (List.dropLast_sublist L |>.mem hx')
        · rcases List.mem_cons.mp hx' with rfl | hx''
          · exact absurd rfl hcm
          · exact Or.inr (hmidR.2.mp hx'')
      · rintro (hx | hx)
        · rw [hL1] at hx ⊢
          rcases List.mem_append.mp hx with hx' | hx'
          · rw [List.dropLast_concat]
            exact List.mem_append.mpr (Or.inl hx')
          · simp at hx'
            exact absurd hx' hcpb
        · exact List.mem_append.mpr (Or.inr (List.mem_cons.mpr
            (Or.inr (hmidR.2.mpr hx))))
    · rw [absFreeAt_noleft (by intro q hq; rw [hgl] at hq; cases hq; simpa using hpbf)]
      constructor
      · intro hx
        rcases List.mem_append.mp hx with hx' | hx'
        · exact Or.inl hx'
        · rcases List.mem_cons.mp hx' with rfl | hx''
          · exact absurd rfl hcne1
          · exact Or.inr (hmidR.2.mp hx'')
      · rintro (hx | hx)
        · exact List.mem_append.mpr (Or.inl hx)
        · exact List.mem_append.mpr (Or.inr (List.mem_cons.mpr
            (Or.inr (hmidR.2.mpr hx))))

/-- All free blocks of `absFreeAt` are free, and the in-use stored facts carry over;
only needed fact: the blocks of a modelled list are pairwise distinct. -/
theorem models_nodup {s : State} {bs : List Blk} (h : models s bs) : bs.Nodup := by
  refine List.Pairwise.imp ?_ (tilesFrom_pairwise h.1)
  intro x y hxy
  intro hcon
  subst hcon
  have := addr_lt_footEnd x
  omega

end FLA

namespace FLA

/-! ## Sequences of allocator calls -/

/-- One external call to the allocator: an aligned allocation, a `Free` of the
`i`-th currently live pointer, or a `Free(nullptr)`. -/
inductive Op where
  | alloc : Nat → Nat → Op
  | freeIdx : Nat → Op
  | freeNull : Op
deriving DecidableEq

/-- The allocator state together with the pointers currently handed out. -/
structure Sys where
  st : State
  live : List Nat

/-- Execute one call: allocations push the returned pointer on success, and
`freeIdx i` frees the `i`-th live pointer. -/
def stepOp (sys : Sys) (op : Op) : Sys :=
  match op with
  | .alloc n al =>
    match AllocateAligned sys.st n al with
    | (s1, some p) => ⟨s1, p :: sys.live⟩
    | (s1, none) => ⟨s1, sys.live⟩
  | .freeIdx i =>
    match sys.live[i]? with
    | some p => ⟨Free sys.st (some p), sys.live.eraseIdx i⟩
    | none => sys
  | .freeNull => ⟨Free sys.st none, sys.live⟩

def runOps (sys : Sys) (ops : List Op) : Sys := ops.foldl stepOp sys

/-- A freshly constructed allocator with no pointers handed out. -/
def initSys (heapBase heapSize : Nat) : Sys := ⟨construct heapBase heapSize, []⟩

/-- Every allocation in the sequence requests an even alignment. -/
def evenAlignments (ops : List Op) : Prop := ∀ n al, Op.alloc n al ∈ ops → 2 ∣ al

/-- System invariant: some spec-level block list is realized, and the live
pointers are exactly the payload addresses of the in-use blocks. -/
def SysInv (sys : Sys) : Prop :=
  ∃ bs, models sys.st bs ∧ sys.live.Nodup
    ∧ ∀ p, p ∈ sys.live ↔ ∃ c ∈ bs, c.free = false ∧ p = c.addr + ALIGNED_HEADER_SIZE

/-- Erasing the element at a valid index of a duplicate-free list removes
exactly that element. -/
theorem nodup_mem_eraseIdx {l : List Nat} {i p : Nat} (hnd : l.Nodup)
    (hgi : l[i]? = some p) :
    ∀ q, q ∈ l.eraseIdx i ↔ q ∈ l ∧ q ≠ p := by
  induction l generalizing i with
  | nil => simp at hgi
  | cons a t ih =>
    cases i with
    | zero =>
      simp only [List.getElem?_cons_zero, Option.some.injEq] at hgi
      subst hgi
      intro q
      simp only [List.eraseIdx_cons_zero, List.mem_cons]
      constructor
      · intro hq
        refine ⟨Or.inr hq, ?_⟩
        intro hcon
        subst hcon
        exact (List.nodup_cons.mp hnd).1 hq
      · rintro ⟨hq | hq, hne⟩
        · exact absurd hq hne
        · exact hq
    | succ i =>
      simp only [List.getElem?_cons_succ] at hgi
      have hat : a ≠ p := by
        intro hcon
        subst hcon
        exact (List.nodup_cons.mp hnd).1 (List.getElem?_mem hgi)
      intro q
      simp only [List.eraseIdx_cons_succ, List.mem_cons,
        ih (List.nodup_cons.mp hnd).2 hgi q]
      constructor
      · rintro (rfl | ⟨hq, hne⟩)
        · exact ⟨Or.inl rfl, hat⟩
        · exact ⟨Or.inr hq, hne⟩
      · rintro ⟨rfl | hq, hne⟩
        · exact Or.inl rfl
        · exact Or.inr ⟨hq, hne⟩

/-- The in-use blocks produced by a successful allocation: exactly one, at the
fit's address. -/
theorem allocBlocks_used_iff (need : Nat) (fit : Blk) (c : Blk) :
    (c ∈ allocBlocks need fit ∧ c.free = false) ↔
      c = (⟨fit.addr, (if need + MIN_ALLOC_SIZE ≤ fit.sz
              then need - ALIGNED_HEADER_SIZE else fit.sz), false⟩ : Blk) := by
  rw [allocBlocks]
  by_cases hs : need + MIN_ALLOC_SIZE ≤ fit.sz
  · simp only [if_pos hs, List.mem_cons, List.not_mem_nil, or_false]
    constructor
    · rintro ⟨rfl | rfl, hf⟩
      · rfl
      · cases hf
    · rintro rfl
      exact ⟨Or.inl rfl, rfl⟩
  · simp only [if_neg hs, List.mem_singleton]
    constructor
    · rintro ⟨rfl, _⟩
      rfl
    · rintro rfl
      exact ⟨rfl, rfl⟩

end FLA

namespace FLA

/-- Two modelled blocks with the same address are the same block. -/
theorem models_addr_eq {s : State} {bs : List Blk} (h : models s bs) {c d : Blk}
    (hc : c ∈ bs) (hd : d ∈ bs) (heq : c.addr = d.addr) : c = d := by
  by_contra hne
  have hp : bs.Pairwise (fun x y => footEnd x ≤ y.addr ∨ footEnd y ≤ x.addr) :=
    (models_addr_inj h).imp Or.inl
  have hsymm : Symmetric (fun x y : Blk => footEnd x ≤ y.addr ∨ footEnd y ≤ x.addr) := by
    intro x y hxy
    exact hxy.symm
  have := hp.forall hsymm hc hd hne
  have h1 := addr_lt_footEnd c
  have h2 := addr_lt_footEnd d
  rcases this with h3 | h3 <;> omega

/-- The middle block of a modelled decomposition occurs on neither side. -/
theorem models_mid_not_mem {s : State} {L R : List Blk} {c : Blk}
    (h : models s (L ++ c :: R)) : c ∉ L ∧ c ∉ R := by
  have hnd := models_nodup h
  rw [List.nodup_append] at hnd
  exact ⟨fun hc => hnd.2.2 hc (List.mem_cons_self c R),
    (List.nodup_cons.mp hnd.2.1).1⟩

/-- One allocator call preserves the system invariant, provided any allocation
requests an even alignment. -/
theorem stepOp_SysInv (sys : Sys) (op : Op) (h : SysInv sys)
    (hal : ∀ n al, op = Op.alloc n al → 2 ∣ al) : SysInv (stepOp sys op) := by
  obtain ⟨bs, hm, hnd, hlive⟩ := h
  cases op with
  | freeNull => exact ⟨bs, hm, hnd, hlive⟩
  | alloc n al =>
    have hal' : 2 ∣ al := hal n al rfl
    by_cases hfit : ∃ b ∈ bs, b.free = true ∧ sizeNeededFor n al ≤ b.sz
    · obtain ⟨L, fit, R, hbs, hL, hfree, hsz⟩ := exists_first_fit hfit
      subst hbs
      obtain ⟨hret, hheap, hhs, hm', hstored, hsplit⟩ :=
        AllocateAligned_sim sys.st L R fit n al hm hL hfree hsz hal'
      rcases hA : AllocateAligned sys.st n al with ⟨s1, r⟩
      rw [hA] at hret hm'
      simp only at hret hm'
      subst hret
      simp only [stepOp, hA]
      refine ⟨L ++ allocBlocks (sizeNeededFor n al) fit ++ R, hm', ?_, ?_⟩
      · rw [List.nodup_cons]
        refine ⟨?_, hnd⟩
        intro hmem
        obtain ⟨c, hc, hcf, hceq⟩ := (hlive _).mp hmem
        have hceq' : c.addr = fit.addr := by omega
        have : c = fit := models_addr_eq hm hc (by simp) hceq'
        subst this
        rw [hfree] at hcf
        cases hcf
      · intro p
        simp only [List.mem_cons, hlive p]
        constructor
        · rintro (rfl | hp)
          · refine ⟨⟨fit.addr, (if sizeNeededFor n al + MIN_ALLOC_SIZE ≤ fit.sz
                then sizeNeededFor n al - ALIGNED_HEADER_SIZE else fit.sz), false⟩,
              ?_, rfl, rfl⟩
            refine List.mem_append.mpr (Or.inl (List.mem_append.mpr (Or.inr ?_)))
            exact ((allocBlocks_used_iff _ fit _).mpr rfl).1
          · obtain ⟨c, hc, hcf, rfl⟩ := hp
            have hcLR : c ∈ L ∨ c ∈ R := by
              rcases List.mem_append.mp hc with h1 | h1
              · exact Or.inl h1
              · rcases List.mem_cons.mp h1 with rfl | h1
                · rw [hfree] at hcf
                  cases hcf
                · exact Or.inr h1
            refine ⟨c, ?_, hcf, rfl⟩
            rcases hcLR with h1 | h1
            · exact List.mem_append.mpr (Or.inl (List.mem_append.mpr (Or.inl h1)))
            · exact List.mem_append.mpr (Or.inr h1)
        · rintro ⟨c, hc, hcf, rfl⟩
          rcases List.mem_append.mp hc with h1 | h1
          · rcases List.mem_append.mp h1 with h2 | h2
            · exact Or.inr ⟨c, List.mem_append.mpr (Or.inl h2), hcf, rfl⟩
            · have := (allocBlocks_used_iff (sizeNeededFor n al) fit c).mp ⟨h2, hcf⟩
              subst this
              exact Or.inl rfl
          · exact Or.inr ⟨c, List.mem_append.mpr
              (Or.inr (List.mem_cons.mpr (Or.inr h1))), hcf, rfl⟩
    · push_neg at hfit
      have hnone := AllocateAligned_none sys.st bs n al hm
        (fun b hb hbf => by have := hfit b hb hbf; omega)
      simp only [stepOp, hnone]
      exact ⟨bs, hm, hnd, hlive⟩
  | freeIdx i =>
    rcases hgi : sys.live[i]? with _ | p
    · simp only [stepOp, hgi]
      exact ⟨bs, hm, hnd, hlive⟩
    · have hpl : p ∈ sys.live := List.getElem?_mem hgi
      obtain ⟨c, hc, hcf, hpeq⟩ := (hlive p).mp hpl
      obtain ⟨L, R, hbs⟩ := List.append_of_mem hc
      subst hbs
      subst hpeq
      obtain ⟨hmidL, hmidR⟩ := models_mid_not_mem hm
      obtain ⟨hheap, hhs, hm'⟩ := Free_sim sys.st L R c hm hcf
      simp only [stepOp, hgi]
      refine ⟨absFreeAt L c R, hm', (List.eraseIdx_sublist _ _).nodup hnd, ?_⟩
      intro q
      rw [nodup_mem_eraseIdx hnd hgi q]
      constructor
      · rintro ⟨hq, hne⟩
        obtain ⟨c1, hc1, hcf1, rfl⟩ := (hlive _).mp hq
        have hcne : c1 ≠ c := fun hcon => hne (by rw [hcon])
        have hc1LR : c1 ∈ L ∨ c1 ∈ R := by
          rcases List.mem_append.mp hc1 with h1 | h1
          · exact Or.inl h1
          · rcases List.mem_cons.mp h1 with rfl | h1
            · exact absurd rfl hcne
            · exact Or.inr h1
        exact ⟨c1, (absFreeAt_used_mem L R c c1 hcf1).mpr hc1LR, hcf1, rfl⟩
      · rintro ⟨c1, hc1, hcf1, rfl⟩
        have hc1LR := (absFreeAt_used_mem L R c c1 hcf1).mp hc1
        have hc1bs : c1 ∈ L ++ c :: R := by
          rcases hc1LR with h1 | h1
          · exact List.mem_append.mpr (Or.inl h1)
          · exact List.mem_append.mpr (Or.inr (List.mem_cons.mpr (Or.inr h1)))
        refine ⟨(hlive _).mpr ⟨c1, hc1bs, hcf1, rfl⟩, ?_⟩
        intro hcon
        have haddr : c1.addr = c.addr := by omega
        have : c1 = c := models_addr_eq hm hc1bs hc haddr
        subst this
        rcases hc1LR with h1 | h1
        · exact hmidL h1
        · exact hmidR h1

/-- Running a sequence of calls preserves the system invariant. -/
theorem runOps_SysInv (ops : List Op) (sys : Sys) (h : SysInv sys)
    (hal : evenAlignments ops) : SysInv (runOps sys ops) := by
  induction ops generalizing sys with
  | nil => exact h
  | cons op ops ih =>
    refine ih (stepOp sys op) (stepOp_SysInv sys op h ?_) ?_
    · intro n al hop
      exact hal n al (by rw [hop]; exact List.mem_cons_self _ _)
    · intro n al hop
      exact hal n al (List.mem_cons_of_mem _ hop)

/-- The fresh allocator satisfies the system invariant. -/
theorem initSys_SysInv (heapBase heapSize : Nat) (hb : 8 ∣ heapBase)
    (hs : 2 ∣ heapSize) (hge : ALIGNED_HEADER_SIZE ≤ heapSize) :
    SysInv (initSys heapBase heapSize) := by
  refine ⟨[⟨heapBase, heapSize - ALIGNED_HEADER_SIZE, true⟩],
    models_construct heapBase heapSize hb hs hge, List.nodup_nil, ?_⟩
  intro p
  simp [initSys]

end FLA

namespace FLA

/-! ## Preservation of the heap bounds, and states with no in-use block -/

theorem allocFinish_heap_const (s : State) (need : Nat) (pb : Option Nat) (a : Nat) :
    (allocFinish s need pb a).1.m_heap = s.m_heap
    ∧ (allocFinish s need pb a).1.heapSize = s.heapSize := by
  cases pb <;> simp only [allocFinish] <;> split <;> simp

theorem AllocateAligned_heap_const (s : State) (n al : Nat) :
    (AllocateAligned s n al).1.m_heap = s.m_heap
    ∧ (AllocateAligned s n al).1.heapSize = s.heapSize := by
  rw [AllocateAligned]
  rcases hA : findFitLoop s.mem (sizeNeededFor n al) (s.heapSize + 1) none s.m_firstFree
    with ⟨pb, r⟩
  cases r with
  | none => exact ⟨rfl, rfl⟩
  | some b => exact allocFinish_heap_const s (sizeNeededFor n al) pb b

theorem freeFinish_heap_const (s : State) (block : Nat) (pb nb : Option Nat) :
    (freeFinish s block pb nb).m_heap = s.m_heap
    ∧ (freeFinish s block pb nb).heapSize = s.heapSize := by
  cases pb <;> cases nb <;> simp only [freeFinish] <;>
    constructor <;> (try split) <;> (try split) <;> simp

theorem Free_heap_const (s : State) (p : Option Nat) :
    (Free s p).m_heap = s.m_heap ∧ (Free s p).heapSize = s.heapSize := by
  cases p with
  | none => exact ⟨rfl, rfl⟩
  | some q =>
    simp only [Free]
    split
    · exact ⟨rfl, rfl⟩
    · set s1 := setSize s (q - ALIGNED_HEADER_SIZE)
        (clearFreeBit (s.mem (q - ALIGNED_HEADER_SIZE)).size) with hs1
      rcases hA : findInsertLoop s1.mem (q - ALIGNED_HEADER_SIZE) (s1.heapSize + 1)
        none s1.m_firstFree with ⟨pb, nb⟩
      have h := freeFinish_heap_const s1 (q - ALIGNED_HEADER_SIZE) pb nb
      have hm : s1.m_heap = s.m_heap := rfl
      have hh : s1.heapSize = s.heapSize := rfl
      rw [hm, hh] at h
      exact h

theorem stepOp_heap_const (sys : Sys) (op : Op) :
    (stepOp sys op).st.m_heap = sys.st.m_heap
    ∧ (stepOp sys op).st.heapSize = sys.st.heapSize := by
  cases op with
  | alloc n al =>
    have h := AllocateAligned_heap_const sys.st n al
    rw [stepOp]
    rcases hA : AllocateAligned sys.st n al with ⟨s1, r⟩
    rw [hA] at h
    cases r
    · exact h
    · exact h
  | freeIdx i =>
    rw [stepOp]
    rcases hgi : sys.live[i]? with _ | p
    · exact ⟨rfl, rfl⟩
    · exact Free_heap_const sys.st (some p)
  | freeNull => exact Free_heap_const sys.st none

theorem runOps_heap_const (ops : List Op) (sys : Sys) :
    (runOps sys ops).st.m_heap = sys.st.m_heap
    ∧ (runOps sys ops).st.heapSize = sys.st.heapSize := by
  induction ops generalizing sys with
  | nil => exact ⟨rfl, rfl⟩
  | cons op ops ih =>
    have h1 := stepOp_heap_const sys op
    have h2 := ih (stepOp sys op)
    exact ⟨h2.1.trans h1.1, h2.2.trans h1.2⟩

end FLA

namespace FLA

/-- The observable free list of a modelled state is exactly the free blocks'
addresses in order. -/
theorem models_chain {s : State} {bs : List Blk} (h : models s bs) :
    chain s.mem (s.heapSize + 1) s.m_firstFree = freeAddrs bs :=
  chain_eq_of_linksFrom h.2.2.2.2.1 (models_freeAddrs_length h)

/-- If every block of a modelled nonempty region is free, there is exactly one
block, spanning the whole region (coalescing leaves no fragmentation). -/
theorem models_all_free {s : State} {bs : List Blk} (h : models s bs)
    (hf : ∀ b ∈ bs, b.free = true)
    (hlt : MemUtils_Align s.m_heap ALIGN_8 < s.m_heap + s.heapSize) :
    bs = [⟨MemUtils_Align s.m_heap ALIGN_8,
      s.m_heap + s.heapSize - ALIGNED_HEADER_SIZE - MemUtils_Align s.m_heap ALIGN_8,
      true⟩] := by
  have htiles := h.1
  have hchain := h.2.2.2.2.2
  cases bs with
  | nil =>
    rw [tilesFrom_nil] at htiles
    omega
  | cons b rest =>
    cases rest with
    | nil =>
      obtain ⟨haddr, hfoot⟩ := htiles
      rw [tilesFrom_nil] at hfoot
      have hbf := hf b (by simp)
      have : b = ⟨b.addr, b.sz, b.free⟩ := rfl
      rw [List.cons.injEq]
      refine ⟨?_, rfl⟩
      have hsz : b.sz = s.m_heap + s.heapSize - ALIGNED_HEADER_SIZE
          - MemUtils_Align s.m_heap ALIGN_8 := by
        rw [footEnd] at hfoot
        omega
      cases b
      simp_all
    | cons c rest' =>
      exfalso
      have hnb := List.chain'_cons'.mp hchain  -- shape check
      exact (List.chain'_cons.mp hchain).1 ⟨hf b (by simp), hf c (by simp)⟩

/-- Tiling with even payload sizes forces region endpoints of equal parity. -/
theorem tilesFrom_parity {st e : Nat} {bs : List Blk} (h : tilesFrom st e bs)
    (hev : ∀ b ∈ bs, 2 ∣ b.sz) : st % 2 = e % 2 := by
  induction bs generalizing st with
  | nil => rw [tilesFrom_nil.mp h]
  | cons b rest ih =>
    obtain ⟨haddr, h2⟩ := h
    have h3 := ih h2 (fun x hx => hev x (List.mem_cons_of_mem _ hx))
    have h4 := hev b (by simp)
    rw [footEnd, AHS_eq] at h3
    omega

end FLA

namespace FLA

/-! ## Claim-level helper lemmas -/

/-- Whatever the split decision and previous block, a found block yields the
payload pointer `block + ALIGNED_HEADER_SIZE` (line 152). -/
theorem allocFinish_ret (s : State) (need : Nat) (pb : Option Nat) (a : Nat) :
    (allocFinish s need pb a).2 = some (a + ALIGNED_HEADER_SIZE) := by
  cases pb with
  | none => simp only [allocFinish]
  | some q => simp only [allocFinish]

theorem sizeNeededFor_max (n al : Nat) :
    sizeNeededFor n al
      = MemUtils_Align (max n ALIGNED_HEADER_SIZE) al + ALIGNED_HEADER_SIZE := by
  rw [sizeNeededFor]
  congr 2
  split <;> omega

theorem freeAddrs_concat_free {L1 : List Blk} {pb : Blk} (hf : pb.free = true) :
    freeAddrs (L1 ++ [pb]) = freeAddrs L1 ++ [pb.addr] := by
  rw [freeAddrs_append, freeAddrs_cons_free hf, freeAddrs_nil]

end FLA

namespace FLA

/-! ## The claims -/

/-- C3: `AllocateAligned(numBytes, alignment)` computes
`sizeNeeded = Align(max(numBytes, ALIGNED_HEADER_SIZE), alignment)
+ ALIGNED_HEADER_SIZE` and walks the free list from its head in address order,
returning the payload pointer of the first free block whose stored size is at
least `sizeNeeded` (first-fit: every free block before `fit` is too small). -/
theorem C3_sizeNeeded_and_first_fit (s : State) (L R : List Blk) (fit : Blk)
    (n al : Nat) (h : models s (L ++ fit :: R))
    (hLsmall : ∀ b ∈ L, b.free = true → b.sz < sizeNeededFor n al)
    (hfit : fit.free = true) (hsz : sizeNeededFor n al ≤ fit.sz) :
    sizeNeededFor n al
      = MemUtils_Align (max n ALIGNED_HEADER_SIZE) al + ALIGNED_HEADER_SIZE
    ∧ (AllocateAligned s n al).2 = some (fit.addr + ALIGNED_HEADER_SIZE) := by
  refine ⟨sizeNeededFor_max n al, ?_⟩
  have hfuel := models_freeAddrs_length h
  obtain ⟨htL, htR⟩ := tiles_decomp h.1
  have hstoredA : (s.mem fit.addr).size = fit.sz :=
    models_stored_free h (by simp) hfit
  have hfa : freeAddrs (L ++ fit :: R) = freeAddrs L ++ fit.addr :: freeAddrs R := by
    rw [freeAddrs_append, freeAddrs_cons_free hfit]
  have hsmall : ∀ y ∈ freeAddrs L, (s.mem y).size < sizeNeededFor n al := by
    intro y hy
    obtain ⟨b, hb, hbf, rfl⟩ := mem_freeAddrs.mp hy
    rw [models_stored_free h (by simp [hb]) hbf]
    exact hLsmall b hb hbf
  have hlinks := h.2.2.2.2.1
  rw [hfa] at hlinks hfuel
  have hloop := findFitLoop_found_eq none hlinks hfuel hsmall
    (by rw [hstoredA]; exact hsz)
  simp only [AllocateAligned]
  rw [hloop]
  exact allocFinish_ret s (sizeNeededFor n al) (lastOr (freeAddrs L) none) fit.addr

theorem C3_witness :
    sizeNeededFor 100 8
      = MemUtils_Align (max 100 ALIGNED_HEADER_SIZE) 8 + ALIGNED_HEADER_SIZE
    ∧ (AllocateAligned (construct 0 1024) 100 8).2 = some (0 + ALIGNED_HEADER_SIZE) :=
  C3_sizeNeeded_and_first_fit (construct 0 1024) [] []
    ⟨0, 1024 - ALIGNED_HEADER_SIZE, true⟩ 100 8
    (models_construct 0 1024 (by decide) (by decide) (by decide))
    (by intro b hb; cases hb) rfl (by decide)

end FLA

namespace FLA

/-- C6: when no free block's stored size reaches `sizeNeeded`, `AllocateAligned`
returns `NULL` and the state — every header, the whole byte image, and the
free-list head — is literally the input state. -/
theorem C6_oom_identity (s : State) (bs : List Blk) (n al : Nat)
    (h : models s bs)
    (hsmall : ∀ b ∈ bs, b.free = true → b.sz < sizeNeededFor n al) :
    AllocateAligned s n al = (s, none) :=
  AllocateAligned_none s bs n al h hsmall

theorem C6_witness :
    AllocateAligned (construct 0 24) 100 8 = (construct 0 24, none) :=
  C6_oom_identity (construct 0 24) [⟨0, 24 - ALIGNED_HEADER_SIZE, true⟩] 100 8
    (models_construct 0 24 (by decide) (by decide) (by decide))
    (by
      intro b hb hbf
      rw [List.mem_singleton] at hb
      subst hb
      decide)

/-- C1: the spec's alignment invariant says every successful
`AllocateAligned(n, a)` with `a` a power of two returns an address with
`address % a = 0`.  The code violates it: on a fresh 1024-byte heap at base 0,
`AllocateAligned(16, 16)` succeeds and returns address 8, and `8 % 16 = 8 ≠ 0`
(the code alignment-rounds `sizeNeeded` but never adjusts the payload address,
which always sits one header past an 8-aligned block start). -/
theorem C1_alignment_bug :
    (16 = 2 ^ 4 ∧ (AllocateAligned (construct 0 1024) 16 16).2 = some 8)
    ∧ 8 % 16 = 8 := by
  exact ⟨⟨by decide, by decide⟩, by decide⟩

end FLA

namespace FLA

/-- C9 (amended): the claim as stated fails for odd heap sizes (see the
counterexample); under the environment guarantees actually needed — an 8-aligned
heap base, an even heap size, and even alignments — every node of the free list,
in every state reachable by a sequence of calls, stores a size with low bit
zero, so the in-use-flag packing is reversible. -/
theorem C9_free_sizes_low_bit_zero (heapBase heapSize : Nat) (ops : List Op)
    (hb : 8 ∣ heapBase) (hs : 2 ∣ heapSize) (hge : ALIGNED_HEADER_SIZE ≤ heapSize)
    (hal : evenAlignments ops) :
    ∀ a ∈ chain (runOps (initSys heapBase heapSize) ops).st.mem
        ((runOps (initSys heapBase heapSize) ops).st.heapSize + 1)
        (runOps (initSys heapBase heapSize) ops).st.m_firstFree,
      ((runOps (initSys heapBase heapSize) ops).st.mem a).size % 2 = 0 := by
  obtain ⟨bs, hm, _, _⟩ :=
    runOps_SysInv ops _ (initSys_SysInv heapBase heapSize hb hs hge) hal
  rw [models_chain hm]
  intro a ha
  obtain ⟨b, hbm, hbf, rfl⟩ := mem_freeAddrs.mp ha
  rw [models_stored_free hm hbm hbf]
  obtain ⟨k, hk⟩ := hm.2.2.1 b hbm
  omega

theorem C9_witness :
    ((runOps (initSys 0 32) []).st.mem 0).size % 2 = 0 :=
  C9_free_sizes_low_bit_zero 0 32 [] (by decide) (by decide) (by decide)
    (by intro n al hmem; cases hmem) 0 (by decide)

/-- C9 counterexample: the claim quantifies over every `heapSize`, but with
`heapSize = 17` the freshly constructed allocator's sole free block — the head
of the free list — stores size `17 - 8 = 9`, whose low bit is 1, so sizes are
not kept to an 8-byte (or even 2-byte) granularity for odd heap sizes. -/
theorem C9_counterexample :
    (construct 0 17).m_firstFree = some 0
    ∧ ((construct 0 17).mem 0).size = 9
    ∧ 9 % 2 = 1 := by
  exact ⟨by decide, by decide, by decide⟩

end FLA

namespace FLA

/-- C4: once the first fit is found, if its stored size is at least
`sizeNeeded + MIN_ALLOC_SIZE` (= `sizeNeeded + 2 × ALIGNED_HEADER_SIZE`) the
block is split — the remainder block at `fit.addr + sizeNeeded` receives the
leftover size and the found block's old `next`, while the found block's size
becomes `sizeNeeded − ALIGNED_HEADER_SIZE` (plus the in-use flag bit);
otherwise the block is consumed whole and only the in-use flag is added to its
stored size. -/
theorem C4_split_or_consume (s : State) (L R : List Blk) (fit : Blk) (n al : Nat)
    (h : models s (L ++ fit :: R))
    (hLsmall : ∀ b ∈ L, b.free = true → b.sz < sizeNeededFor n al)
    (hfit : fit.free = true) (hsz : sizeNeededFor n al ≤ fit.sz) :
    if sizeNeededFor n al + MIN_ALLOC_SIZE ≤ fit.sz then
      ((AllocateAligned s n al).1.mem fit.addr).size
          = setFreeBit (sizeNeededFor n al - ALIGNED_HEADER_SIZE)
      ∧ ((AllocateAligned s n al).1.mem (fit.addr + sizeNeededFor n al)).size
          = fit.sz - sizeNeededFor n al
      ∧ ((AllocateAligned s n al).1.mem (fit.addr + sizeNeededFor n al)).next
          = (s.mem fit.addr).next
    else
      ((AllocateAligned s n al).1.mem fit.addr).size = setFreeBit fit.sz := by
  have hAHS := AHS_eq
  set need := sizeNeededFor n al with hneed
  have hpos : 0 < need := by
    rw [hneed, sizeNeededFor]
    omega
  have hfuel := models_freeAddrs_length h
  obtain ⟨htL, htR⟩ := tiles_decomp h.1
  have hstoredA : (s.mem fit.addr).size = fit.sz :=
    models_stored_free h (by simp) hfit
  have hfa : freeAddrs (L ++ fit :: R) = freeAddrs L ++ fit.addr :: freeAddrs R := by
    rw [freeAddrs_append, freeAddrs_cons_free hfit]
  have hsmall : ∀ y ∈ freeAddrs L, (s.mem y).size < need := by
    intro y hy
    obtain ⟨b, hb, hbf, rfl⟩ := mem_freeAddrs.mp hy
    rw [models_stored_free h (by simp [hb]) hbf]
    exact hLsmall b hb hbf
  have hlinks := h.2.2.2.2.1
  rw [hfa] at hlinks hfuel
  have hloop := findFitLoop_found_eq none hlinks hfuel hsmall
    (by rw [hstoredA]; exact hsz)
  have hAA : AllocateAligned s n al
      = allocFinish s need (lastOr (freeAddrs L) none) fit.addr := by
    simp only [AllocateAligned]
    rw [← hneed, hloop]
  rcases hlo : lastOr (freeAddrs L) none with _ | pb
  · rw [hlo] at hAA
    rw [lastOr_none] at hlo
    have hLnil : freeAddrs L = [] := List.getLast?_eq_none_iff.mp hlo
    rw [hLnil, List.nil_append] at hlinks
    have hff : s.m_firstFree = some fit.addr := (linksFrom_cons.mp hlinks).1
    split
    · rename_i hc
      have hsplit : need + MIN_ALLOC_SIZE ≤ (s.mem fit.addr).size := by
        rw [hstoredA]; exact hc
      obtain ⟨_, _, _, _, _, h6, h7, h8, _⟩ :=
        allocFinish_split_head s need fit.addr hsplit hpos hff
      rw [hAA]
      exact ⟨h6, by rw [h8, hstoredA], h7⟩
    · rename_i hc
      have hnosplit : ¬(need + MIN_ALLOC_SIZE ≤ (s.mem fit.addr).size) := by
        rw [hstoredA]; exact hc
      obtain ⟨_, _, _, _, _, h6, _⟩ :=
        allocFinish_whole_head s need fit.addr hnosplit hff
      rw [hAA, h6, hstoredA]
  · rw [hlo] at hAA
    rw [lastOr_none] at hlo
    have hpbmem : pb ∈ freeAddrs L := by
      obtain ⟨L1, hL1⟩ := List.getLast?_eq_some_iff.mp hlo
      rw [hL1]
      simp
    have hpb : pb < fit.addr := freeAddrs_lt htL pb hpbmem
    split
    · rename_i hc
      have hsplit : need + MIN_ALLOC_SIZE ≤ (s.mem fit.addr).size := by
        rw [hstoredA]; exact hc
      obtain ⟨_, _, _, _, _, h6, h7, h8, _⟩ :=
        allocFinish_split_prev s need pb fit.addr hsplit hpos hpb
      rw [hAA]
      exact ⟨h6, by rw [h8, hstoredA], h7⟩
    · rename_i hc
      have hnosplit : ¬(need + MIN_ALLOC_SIZE ≤ (s.mem fit.addr).size) := by
        rw [hstoredA]; exact hc
      obtain ⟨_, _, _, _, _, h6, _⟩ :=
        allocFinish_whole_prev s need pb fit.addr hnosplit hpb
      rw [hAA, h6, hstoredA]

theorem C4_witness :
    ((AllocateAligned (construct 0 1024) 8 8).1.mem 0).size
        = setFreeBit (sizeNeededFor 8 8 - ALIGNED_HEADER_SIZE)
    ∧ ((AllocateAligned (construct 0 1024) 8 8).1.mem (0 + sizeNeededFor 8 8)).size
        = (1024 - ALIGNED_HEADER_SIZE) - sizeNeededFor 8 8
    ∧ ((AllocateAligned (construct 0 1024) 8 8).1.mem (0 + sizeNeededFor 8 8)).next
        = ((construct 0 1024).mem 0).next := by
  have h := C4_split_or_consume (construct 0 1024) [] []
    ⟨0, 1024 - ALIGNED_HEADER_SIZE, true⟩ 8 8
    (models_construct 0 1024 (by decide) (by decide) (by decide))
    (by intro b hb; cases hb) rfl (by decide)
  rw [if_pos (by decide)] at h
  exact h

end FLA

namespace FLA

/-- C10 (amended): the claim's split-case equality fails for the odd (but
power-of-two) alignment 1 (see the counterexample); for even alignments the
per-allocation waste is bounded as claimed: `GetBlockSize` of the returned
pointer equals `Align(max(n, ALIGNED_HEADER_SIZE), al)` exactly in the split
case, and in every case is less than that value plus `3 × ALIGNED_HEADER_SIZE`. -/
theorem C10_waste_bound (s : State) (L R : List Blk) (fit : Blk) (n al : Nat)
    (h : models s (L ++ fit :: R))
    (hLsmall : ∀ b ∈ L, b.free = true → b.sz < sizeNeededFor n al)
    (hfit : fit.free = true) (hsz : sizeNeededFor n al ≤ fit.sz) (hal : 2 ∣ al) :
    GetBlockSize (AllocateAligned s n al).1 (fit.addr + ALIGNED_HEADER_SIZE)
      = (if sizeNeededFor n al + MIN_ALLOC_SIZE ≤ fit.sz
          then MemUtils_Align (max n ALIGNED_HEADER_SIZE) al else fit.sz)
    ∧ GetBlockSize (AllocateAligned s n al).1 (fit.addr + ALIGNED_HEADER_SIZE)
        < MemUtils_Align (max n ALIGNED_HEADER_SIZE) al + 3 * ALIGNED_HEADER_SIZE := by
  have hAHS := AHS_eq
  have hMAS := MIN_ALLOC_eq
  obtain ⟨hret, hmh, hhs, hm', hstored, hsplitfacts⟩ :=
    AllocateAligned_sim s L R fit n al h hLsmall hfit hsz hal
  have hneedmax := sizeNeededFor_max n al
  have heven_need : 2 ∣ sizeNeededFor n al := by
    rw [sizeNeededFor]
    exact dvd_add (two_dvd_align hal) (by rw [AHS_eq]; decide)
  have heven_fit : 2 ∣ fit.sz := h.2.2.1 fit (by simp)
  have hGB : GetBlockSize (AllocateAligned s n al).1 (fit.addr + ALIGNED_HEADER_SIZE)
      = clearFreeBit ((AllocateAligned s n al).1.mem fit.addr).size := by
    rw [GetBlockSize, Nat.add_sub_cancel]
  rw [hGB, hstored]
  by_cases hc : sizeNeededFor n al + MIN_ALLOC_SIZE ≤ fit.sz
  · rw [if_pos hc, if_pos hc]
    have he : 2 ∣ sizeNeededFor n al - ALIGNED_HEADER_SIZE := by
      rw [AHS_eq] at *
      omega
    rw [setFreeBit_of_even he, clearFreeBit_succ_of_even he]
    constructor
    · omega
    · omega
  · rw [if_neg hc, if_neg hc]
    rw [setFreeBit_of_even heven_fit, clearFreeBit_succ_of_even heven_fit]
    exact ⟨rfl, by omega⟩

theorem C10_witness :
    GetBlockSize (AllocateAligned (construct 0 1024) 8 8).1 (0 + ALIGNED_HEADER_SIZE)
      = MemUtils_Align (max 8 ALIGNED_HEADER_SIZE) 8
    ∧ GetBlockSize (AllocateAligned (construct 0 1024) 8 8).1 (0 + ALIGNED_HEADER_SIZE)
        < MemUtils_Align (max 8 ALIGNED_HEADER_SIZE) 8 + 3 * ALIGNED_HEADER_SIZE := by
  have h := C10_waste_bound (construct 0 1024) [] []
    ⟨0, 1024 - ALIGNED_HEADER_SIZE, true⟩ 8 8
    (models_construct 0 1024 (by decide) (by decide) (by decide))
    (by intro b hb; cases hb) rfl (by decide) (by decide)
  rw [if_pos (by decide)] at h
  exact h

/-- C10 counterexample: with the spec-legal power-of-two alignment 1 and
`numBytes = 9` on a fresh 64-byte heap the allocation splits
(`sizeNeeded = 17`, found size 56), yet `GetBlockSize` reports
`clearFreeBit(setFreeBit(17 − 8)) = 8`, not `Align(max(9, 8), 1) = 9`: the odd
payload size loses its low bit to the in-use flag, so the claimed split-case
equality fails. -/
theorem C10_counterexample :
    (AllocateAligned (construct 0 64) 9 1).2 = some 8
    ∧ sizeNeededFor 9 1 + MIN_ALLOC_SIZE ≤ 64 - ALIGNED_HEADER_SIZE
    ∧ GetBlockSize (AllocateAligned (construct 0 64) 9 1).1 8 = 8
    ∧ MemUtils_Align (max 9 ALIGNED_HEADER_SIZE) 1 = 9
    ∧ GetBlockSize (AllocateAligned (construct 0 64) 9 1).1 8
        ≠ MemUtils_Align (max 9 ALIGNED_HEADER_SIZE) 1 := by
  exact ⟨by decide, by decide, by decide, by decide, by decide⟩

end FLA

namespace FLA

/-- C2 (amended): the claim as stated fails for heap sizes that are not a
multiple of the 2-byte flag granularity (see the counterexample, heap size 33);
under the environment guarantees actually needed — an 8-aligned heap base, an
even heap size of at least one header, and even alignments — after any sequence
of calls the state realizes a block list that tiles the whole managed region
`[heapBase, heapBase + heapSize)` contiguously, and distinct blocks (live or
free) occupy disjoint `[addr, addr + header + size)` footprints. -/
theorem C2_tiling_no_overlap (heapBase heapSize : Nat) (ops : List Op)
    (hb : 8 ∣ heapBase) (hs : 2 ∣ heapSize) (hge : ALIGNED_HEADER_SIZE ≤ heapSize)
    (hal : evenAlignments ops) :
    ∃ bs, models (runOps (initSys heapBase heapSize) ops).st bs
      ∧ tilesFrom heapBase (heapBase + heapSize) bs
      ∧ bs.Pairwise (fun x y => footEnd x ≤ y.addr) := by
  obtain ⟨bs, hm, _, _⟩ :=
    runOps_SysInv ops _ (initSys_SysInv heapBase heapSize hb hs hge) hal
  refine ⟨bs, hm, ?_, tilesFrom_pairwise hm.1⟩
  have h1 := hm.1
  obtain ⟨hmh, hhs⟩ := runOps_heap_const ops (initSys heapBase heapSize)
  have hmh' : (runOps (initSys heapBase heapSize) ops).st.m_heap = heapBase := hmh
  have hhs' : (runOps (initSys heapBase heapSize) ops).st.heapSize = heapSize := hhs
  rw [hmh', hhs', align8_of_dvd hb] at h1
  exact h1

theorem C2_witness :
    ∃ bs, models (runOps (initSys 0 32) [Op.alloc 8 8, Op.freeIdx 0]).st bs
      ∧ tilesFrom 0 (0 + 32) bs
      ∧ bs.Pairwise (fun x y => footEnd x ≤ y.addr) :=
  C2_tiling_no_overlap 0 32 [Op.alloc 8 8, Op.freeIdx 0] (by decide) (by decide)
    (by decide)
    (by
      intro n al hmem
      rcases List.mem_cons.mp hmem with heq | hmem'
      · cases heq
        decide
      · rcases List.mem_cons.mp hmem' with heq | hmem''
        · cases heq
        · cases hmem'')

/-- C2 counterexample: construct with the spec-legal heap size 33, allocate 8
bytes (8-aligned) and free the pointer.  The resulting reachable state stores
size 24 in the header at address 0, and no block list whatsoever can both tile
the managed region `[0, 33)` and agree with the stored header sizes: the byte
at offset 32 belongs to no block, so the claimed contiguous tiling fails. -/
theorem C2_counterexample :
    (runOps (initSys 0 33) [Op.alloc 8 8, Op.freeIdx 0]).live = []
    ∧ ((runOps (initSys 0 33) [Op.alloc 8 8, Op.freeIdx 0]).st.mem 0).size = 24
    ∧ ¬ ∃ bs, tilesFrom 0 33 bs
        ∧ ∀ b ∈ bs, ((runOps (initSys 0 33) [Op.alloc 8 8, Op.freeIdx 0]).st.mem b.addr).size
            = if b.free then b.sz else b.sz + 1 := by
  refine ⟨by decide, by decide, ?_⟩
  rintro ⟨bs, ht, hsz⟩
  have hAHS := AHS_eq
  have hm0 : ((runOps (initSys 0 33) [Op.alloc 8 8, Op.freeIdx 0]).st.mem 0).size
      = 24 := by decide
  have hm31 : ((runOps (initSys 0 33) [Op.alloc 8 8, Op.freeIdx 0]).st.mem 31).size
      = 0 := by decide
  have hm32 : ((runOps (initSys 0 33) [Op.alloc 8 8, Op.freeIdx 0]).st.mem 32).size
      = 0 := by decide
  cases bs with
  | nil => exact absurd (tilesFrom_nil.mp ht) (by omega)
  | cons b rest =>
    obtain ⟨haddr, ht2⟩ := ht
    have hb := hsz b (by simp)
    rw [haddr, hm0] at hb
    have hfoot : footEnd b = 32 ∨ footEnd b = 31 := by
      rw [footEnd, haddr, AHS_eq]
      cases hbf : b.free <;> rw [hbf] at hb <;> simp at hb <;> omega
    cases rest with
    | nil =>
      rw [tilesFrom_nil] at ht2
      omega
    | cons c rest2 =>
      obtain ⟨haddr2, ht3⟩ := ht2
      have hc := hsz c (by simp)
      have hcsize : ((runOps (initSys 0 33) [Op.alloc 8 8, Op.freeIdx 0]).st.mem c.addr).size
          = 0 := by
        rcases hfoot with hf | hf <;> rw [haddr2, hf]
        · exact hm32
        · exact hm31
      rw [hcsize] at hc
      have hcsz : c.free = true ∧ c.sz = 0 := by
        cases hcf : c.free <;> rw [hcf] at hc <;> simp at hc
        exact ⟨rfl, by omega⟩
      have hle := tilesFrom_le ht3
      rw [footEnd, haddr2, hcsz.2, AHS_eq] at hle
      omega

end FLA

namespace FLA

/-- C5 (amended): the claim as stated fails once odd (power-of-two) alignments
are used (see the counterexample); under the environment guarantees actually
needed — 8-aligned base, even heap size of at least one header, even
alignments — whenever a sequence of calls ends with no live pointer (every
allocation freed, in whatever order the indices were chosen), the free list is
exactly one block spanning the whole heap, with size
`heapSize − ALIGNED_HEADER_SIZE`. -/
theorem C5_full_coalescing (heapBase heapSize : Nat) (ops : List Op)
    (hb : 8 ∣ heapBase) (hs : 2 ∣ heapSize) (hge : ALIGNED_HEADER_SIZE ≤ heapSize)
    (hal : evenAlignments ops)
    (hempty : (runOps (initSys heapBase heapSize) ops).live = []) :
    chain (runOps (initSys heapBase heapSize) ops).st.mem
        ((runOps (initSys heapBase heapSize) ops).st.heapSize + 1)
        (runOps (initSys heapBase heapSize) ops).st.m_firstFree = [heapBase]
    ∧ ((runOps (initSys heapBase heapSize) ops).st.mem heapBase).size
        = heapSize - ALIGNED_HEADER_SIZE
    ∧ ((runOps (initSys heapBase heapSize) ops).st.mem heapBase).next = none := by
  have hAHS := AHS_eq
  obtain ⟨bs, hm, hnd, hlive⟩ :=
    runOps_SysInv ops _ (initSys_SysInv heapBase heapSize hb hs hge) hal
  obtain ⟨hmh, hhs⟩ := runOps_heap_const ops (initSys heapBase heapSize)
  have hmh' : (runOps (initSys heapBase heapSize) ops).st.m_heap = heapBase := hmh
  have hhs' : (runOps (initSys heapBase heapSize) ops).st.heapSize = heapSize := hhs
  have hfree : ∀ b ∈ bs, b.free = true := by
    intro b hbm
    cases hbf : b.free with
    | true => rfl
    | false =>
      exfalso
      have := (hlive (b.addr + ALIGNED_HEADER_SIZE)).mpr ⟨b, hbm, hbf, rfl⟩
      rw [hempty] at this
      cases this
  have hbs := models_all_free hm hfree (by
    rw [hmh', hhs', align8_of_dvd hb]
    omega)
  rw [hmh', hhs', align8_of_dvd hb] at hbs
  have hsz : heapBase + heapSize - ALIGNED_HEADER_SIZE - heapBase
      = heapSize - ALIGNED_HEADER_SIZE := by omega
  rw [hsz] at hbs
  subst hbs
  have hfa : freeAddrs [(⟨heapBase, heapSize - ALIGNED_HEADER_SIZE, true⟩ : Blk)]
      = [heapBase] := rfl
  refine ⟨?_, ?_, ?_⟩
  · rw [models_chain hm, hfa]
  · exact models_stored_free hm
      (b := ⟨heapBase, heapSize - ALIGNED_HEADER_SIZE, true⟩) (by simp) rfl
  · have hlinks := hm.2.2.2.2.1
    rw [hfa] at hlinks
    exact (linksFrom_cons.mp hlinks).2
theorem C5_witness :
    chain (runOps (initSys 0 32) [Op.alloc 8 8, Op.freeIdx 0]).st.mem
        ((runOps (initSys 0 32) [Op.alloc 8 8, Op.freeIdx 0]).st.heapSize + 1)
        (runOps (initSys 0 32) [Op.alloc 8 8, Op.freeIdx 0]).st.m_firstFree = [0]
    ∧ ((runOps (initSys 0 32) [Op.alloc 8 8, Op.freeIdx 0]).st.mem 0).size
        = 32 - ALIGNED_HEADER_SIZE
    ∧ ((runOps (initSys 0 32) [Op.alloc 8 8, Op.freeIdx 0]).st.mem 0).next = none :=
  C5_full_coalescing 0 32 [Op.alloc 8 8, Op.freeIdx 0] (by decide) (by decide)
    (by decide)
    (by
      intro n al hmem
      rcases List.mem_cons.mp hmem with heq | hmem'
      · cases heq
        decide
      · rcases List.mem_cons.mp hmem' with heq | hmem''
        · cases heq
        · cases hmem'')
    (by decide)

/-- C5 counterexample: on a fresh 48-byte heap, `AllocateAligned(9, 1)` and
`AllocateAligned(15, 1)` (alignment 1 is a power of two, hence spec-legal)
exactly tile the heap — after them the free list is empty and both pointers
(8 and 25) are live.  Freeing both (in either order; here 25 then 8) leaves TWO
free blocks, at 0 and 17, because the first block's odd payload size 9 was
silently truncated to 8 by the flag mask, so the adjacency test
`0 + 8 + 8 = 16 ≠ 17` never merges them: fragmentation persists after all
blocks are freed. -/
theorem C5_counterexample :
    (runOps (initSys 0 48) [Op.alloc 9 1, Op.alloc 15 1]).st.m_firstFree = none
    ∧ (runOps (initSys 0 48) [Op.alloc 9 1, Op.alloc 15 1]).live = [25, 8]
    ∧ (runOps (initSys 0 48)
        [Op.alloc 9 1, Op.alloc 15 1, Op.freeIdx 0, Op.freeIdx 0]).live = []
    ∧ chain (runOps (initSys 0 48)
          [Op.alloc 9 1, Op.alloc 15 1, Op.freeIdx 0, Op.freeIdx 0]).st.mem
        ((runOps (initSys 0 48)
          [Op.alloc 9 1, Op.alloc 15 1, Op.freeIdx 0, Op.freeIdx 0]).st.heapSize + 1)
        (runOps (initSys 0 48)
          [Op.alloc 9 1, Op.alloc 15 1, Op.freeIdx 0, Op.freeIdx 0]).st.m_firstFree
      = [0, 17] := by
  exact ⟨by decide, by decide, by decide, by decide⟩

end FLA

namespace FLA

/-- C7: `Free` is a no-op exactly in the two claimed cases: freeing `NULL`
returns the state unchanged, freeing any pointer whose recovered header already
has the in-use flag clear (double free) returns the state unchanged, and
freeing a genuinely in-use block of a well-formed state is never a no-op. -/
theorem C7_noop_exactly_null_or_double_free (s : State) (bs : List Blk) (b : Blk)
    (h : models s bs) (hbm : b ∈ bs) (hbf : b.free = false) :
    Free s none = s
    ∧ (∀ p, IS_BLOCK_FREE (s.mem (p - ALIGNED_HEADER_SIZE)) = true → Free s (some p) = s)
    ∧ Free s (some (b.addr + ALIGNED_HEADER_SIZE)) ≠ s := by
  refine ⟨rfl, ?_, ?_⟩
  · intro p hp
    simp only [Free]
    rw [if_pos hp]
  · obtain ⟨L, R, hbs⟩ := List.append_of_mem hbm
    subst hbs
    obtain ⟨_, _, hm'⟩ := Free_sim s L R b h hbf
    intro heq
    rw [heq] at hm'
    have hbsz : 2 ∣ b.sz := h.2.2.1 b hbm
    have hstored_b : (s.mem b.addr).size = b.sz + 1 := models_stored_used h hbm hbf
    rcases hgl : L.getLast? with _ | pb
    · have hnl : ∀ pb, L.getLast? = some pb → pb.free = false := by
        intro pb hpb
        rw [hgl] at hpb
        cases hpb
      rw [absFreeAt_noleft hnl] at hm'
      have hmid_mem : (freeMidR b R).1 ∈ L ++ (freeMidR b R).1 :: (freeMidR b R).2 := by
        simp
      have hmid_addr : (freeMidR b R).1.addr = b.addr := by
        cases R with
        | nil => rfl
        | cons r R' =>
          by_cases hrf : r.free = true
          · rw [freeMidR_free hrf]
          · rw [freeMidR_no_free_head (by intro y hy; cases hy; simpa using hrf)]
      have hmid_free : (freeMidR b R).1.free = true := by
        cases R with
        | nil => rfl
        | cons r R' =>
          by_cases hrf : r.free = true
          · rw [freeMidR_free hrf]
          · rw [freeMidR_no_free_head (by intro y hy; cases hy; simpa using hrf)]
      have h1 := models_stored_free hm' hmid_mem hmid_free
      have h2 : 2 ∣ (freeMidR b R).1.sz := hm'.2.2.1 _ hmid_mem
      rw [hmid_addr, hstored_b] at h1
      omega
    · by_cases hpbf : pb.free = true
      · rw [absFreeAt_left hgl hpbf] at hm'
        have hpbL : pb ∈ L := by
          obtain ⟨L1, hL1⟩ := List.getLast?_eq_some_iff.mp hgl
          rw [hL1]
          simp
        have hstored_pb : (s.mem pb.addr).size = pb.sz :=
          models_stored_free h (List.mem_append.mpr (Or.inl hpbL)) hpbf
        have hmb_mem : (⟨pb.addr, pb.sz + ALIGNED_HEADER_SIZE + (freeMidR b R).1.sz,
            true⟩ : Blk) ∈ L.dropLast ++ (⟨pb.addr,
              pb.sz + ALIGNED_HEADER_SIZE + (freeMidR b R).1.sz, true⟩ : Blk)
                :: (freeMidR b R).2 := by simp
        have h1 := models_stored_free hm' hmb_mem rfl
        rw [hstored_pb] at h1
        have hA := AHS_eq
        simp at h1
        omega
      · have hnl : ∀ q, L.getLast? = some q → q.free = false := by
          intro q hq
          rw [hgl] at hq
          cases hq
          simpa using hpbf
        rw [absFreeAt_noleft hnl] at hm'
        have hmid_mem : (freeMidR b R).1 ∈ L ++ (freeMidR b R).1 :: (freeMidR b R).2 := by
          simp
        have hmid_addr : (freeMidR b R).1.addr = b.addr := by
          cases R with
          | nil => rfl
          | cons r R' =>
            by_cases hrf : r.free = true
            · rw [freeMidR_free hrf]
            · rw [freeMidR_no_free_head (by intro y hy; cases hy; simpa using hrf)]
        have hmid_free : (freeMidR b R).1.free = true := by
          cases R with
          | nil => rfl
          | cons r R' =>
            by_cases hrf : r.free = true
            · rw [freeMidR_free hrf]
            · rw [freeMidR_no_free_head (by intro y hy; cases hy; simpa using hrf)]
        have h1 := models_stored_free hm' hmid_mem hmid_free
        have h2 : 2 ∣ (freeMidR b R).1.sz := hm'.2.2.1 _ hmid_mem
        rw [hmid_addr, hstored_b] at h1
        omega

end FLA

namespace FLA

theorem C7_witness :
    Free (AllocateAligned (construct 0 1024) 8 8).1 none
        = (AllocateAligned (construct 0 1024) 8 8).1
    ∧ Free (AllocateAligned (construct 0 1024) 8 8).1 (some (16 + ALIGNED_HEADER_SIZE))
        = (AllocateAligned (construct 0 1024) 8 8).1
    ∧ Free (AllocateAligned (construct 0 1024) 8 8).1 (some (0 + ALIGNED_HEADER_SIZE))
        ≠ (AllocateAligned (construct 0 1024) 8 8).1 := by
  have hm' := (AllocateAligned_sim (construct 0 1024) [] []
      ⟨0, 1024 - ALIGNED_HEADER_SIZE, true⟩ 8 8
      (models_construct 0 1024 (by decide) (by decide) (by decide))
      (by intro b hb; cases hb) rfl (by decide) (by decide)).2.2.2.1
  have h := C7_noop_exactly_null_or_double_free
      (AllocateAligned (construct 0 1024) 8 8).1
      ([] ++ allocBlocks (sizeNeededFor 8 8) ⟨0, 1024 - ALIGNED_HEADER_SIZE, true⟩ ++ [])
      ⟨0, 8, false⟩ hm' (by decide) rfl
  exact ⟨h.1, h.2.1 (16 + ALIGNED_HEADER_SIZE) (by decide), h.2.2⟩

end FLA

namespace FLA

theorem freeMidR_fst_addr (b : Blk) (R : List Blk) : (freeMidR b R).1.addr = b.addr := by
  cases R with
  | nil => rfl
  | cons r R' =>
    by_cases hrf : r.free = true
    · rw [freeMidR_free hrf]
    · rw [freeMidR_no_free_head (by intro y hy; cases hy; simpa using hrf)]

theorem freeMidR_fst_free (b : Blk) (R : List Blk) : (freeMidR b R).1.free = true := by
  cases R with
  | nil => rfl
  | cons r R' =>
    by_cases hrf : r.free = true
    · rw [freeMidR_free hrf]
    · rw [freeMidR_no_free_head (by intro y hy; cases hy; simpa using hrf)]

theorem mem_freeMidR_snd {b : Blk} {R : List Blk} : ∀ x ∈ (freeMidR b R).2, x ∈ R := by
  intro x hx
  cases R with
  | nil => exact hx
  | cons r R' =>
    by_cases hrf : r.free = true
    · rw [freeMidR_free hrf] at hx
      exact List.mem_cons_of_mem _ hx
    · rw [freeMidR_no_free_head (by intro y hy; cases hy; simpa using hrf)] at hx
      exact hx

/-- After a left merge, the freed block's own address is no longer a free-list
node. -/
theorem absFreeAt_addr_not_mem {lo hi : Nat} {L R : List Blk} {b pb : Blk}
    (htL : tilesFrom lo b.addr L) (htR : tilesFrom (footEnd b) hi R)
    (hgl : L.getLast? = some pb) (hpbf : pb.free = true) :
    b.addr ∉ freeAddrs (absFreeAt L b R) := by
  rw [absFreeAt_left hgl hpbf]
  intro hmem
  obtain ⟨c, hc, hcf, hcad⟩ := mem_freeAddrs.mp hmem
  have hblt := addr_lt_footEnd b
  rcases List.mem_append.mp hc with hc1 | hc1
  · have hcL : c ∈ L := (List.dropLast_sublist L).mem hc1
    have h1 := (tilesFrom_bounds htL c hcL).2
    have h2 := addr_lt_footEnd c
    omega
  · rcases List.mem_cons.mp hc1 with rfl | hc2
    · have hpbL : pb ∈ L := by
        obtain ⟨L1, hL1⟩ := List.getLast?_eq_some_iff.mp hgl
        rw [hL1]; simp
      have h1 := (tilesFrom_bounds htL pb hpbL).2
      have h2 := addr_lt_footEnd pb
      simp at hcad
      omega
    · have hcR : c ∈ R := mem_freeMidR_snd c hc2
      have h1 := (tilesFrom_bounds htR c hcR).1
      omega

/-- Without a free left neighbor, the freed block's address joins the free
list. -/
theorem absFreeAt_addr_mem {L R : List Blk} {b : Blk}
    (h : ∀ pb, L.getLast? = some pb → pb.free = false) :
    b.addr ∈ freeAddrs (absFreeAt L b R) := by
  rw [absFreeAt_noleft h]
  exact mem_freeAddrs.mpr ⟨(freeMidR b R).1, by simp, freeMidR_fst_free b R,
    freeMidR_fst_addr b R⟩

end FLA

namespace FLA

/-- C8: freeing a valid in-use pointer reinserts the block at its
address-ordered position in the free list (the resulting state again realizes a
well-formed block list, and the observable free list is sorted by strictly
ascending address); the block is merged into its left free-list predecessor
exactly when that predecessor's end address `addr + size + headerSize` equals
the freed block's address, and the number of free-list nodes afterwards is the
old number plus one minus one per adjacent free neighbor (left and right), so
at most two merges occur. -/
theorem C8_free_reinsertion (s : State) (L R : List Blk) (b : Blk)
    (h : models s (L ++ b :: R)) (hbf : b.free = false) :
    models (Free s (some (b.addr + ALIGNED_HEADER_SIZE))) (absFreeAt L b R)
    ∧ List.Chain' (· < ·)
        (chain (Free s (some (b.addr + ALIGNED_HEADER_SIZE))).mem
          ((Free s (some (b.addr + ALIGNED_HEADER_SIZE))).heapSize + 1)
          (Free s (some (b.addr + ALIGNED_HEADER_SIZE))).m_firstFree)
    ∧ ((∃ pb, L.getLast? = some pb ∧ pb.free = true
          ∧ pb.addr + pb.sz + ALIGNED_HEADER_SIZE = b.addr)
        ↔ b.addr ∉ freeAddrs (absFreeAt L b R))
    ∧ (freeAddrs (absFreeAt L b R)).length
        = (freeAddrs (L ++ b :: R)).length + 1
          - (L.getLast?.elim 0 fun pb => if pb.free then 1 else 0)
          - (R.head?.elim 0 fun r => if r.free then 1 else 0) := by
  have hAHS := AHS_eq
  obtain ⟨htL, htR⟩ := tiles_decomp h.1
  obtain ⟨_, _, hm'⟩ := Free_sim s L R b h hbf
  refine ⟨hm', ?_, ?_, ?_⟩
  · rw [models_chain hm']
    exact (freeAddrs_pairwise hm'.1).chain'
  · rcases hgl : L.getLast? with _ | pb
    · constructor
      · rintro ⟨q, hq, _, _⟩
        exact Option.noConfusion hq
      · intro hnot
        exact absurd (absFreeAt_addr_mem
          (by intro q hq; rw [hgl] at hq; exact Option.noConfusion hq)) hnot
    · by_cases hpbf : pb.free = true
      · constructor
        · intro _
          exact absFreeAt_addr_not_mem htL htR hgl hpbf
        · intro _
          refine ⟨pb, rfl, hpbf, ?_⟩
          obtain ⟨L1, hL1⟩ := List.getLast?_eq_some_iff.mp hgl
          subst hL1
          have h2 := (tiles_decomp (R := ([] : List Blk)) htL).2
          rw [tilesFrom_nil] at h2
          rw [footEnd] at h2
          omega
      · constructor
        · rintro ⟨q, hq, hqf, _⟩
          injection hq with hq2
          subst hq2
          exact absurd hqf hpbf
        · intro hnot
          exact absurd (absFreeAt_addr_mem
            (by intro q hq; rw [hgl] at hq; cases hq; simpa using hpbf)) hnot
  · rcases hgl : L.getLast? with _ | pb
    · have hLnil : L = [] := List.getLast?_eq_none_iff.mp hgl
      subst hLnil
      rw [absFreeAt_noleft (by intro q hq; cases hq)]
      cases R with
      | nil =>
        simp [freeMidR, freeAddrs, hbf, Option.elim]
      | cons r R' =>
        by_cases hrf : r.free = true
        · rw [freeMidR_free hrf]
          simp [freeAddrs, List.filter_cons, hbf, hrf, Option.elim]
        · rw [freeMidR_no_free_head (by intro y hy; cases hy; simpa using hrf)]
          simp [freeAddrs, List.filter_cons, hbf, hrf, Option.elim]
    · by_cases hpbf : pb.free = true
      · obtain ⟨L1, hL1⟩ := List.getLast?_eq_some_iff.mp hgl
        rw [absFreeAt_left hgl hpbf]
        subst hL1
        rw [List.dropLast_concat]
        cases R with
        | nil =>
          simp [freeMidR, freeAddrs, List.filter_append, List.filter_cons,
            hbf, hpbf, Option.elim]
        | cons r R' =>
          by_cases hrf : r.free = true
          · rw [freeMidR_free hrf]
            simp [freeAddrs, List.filter_append, List.filter_cons, hbf, hpbf,
              hrf, Option.elim]
          · rw [freeMidR_no_free_head (by intro y hy; cases hy; simpa using hrf)]
            simp [freeAddrs, List.filter_append, List.filter_cons, hbf, hpbf,
              hrf, Option.elim]
      · rw [absFreeAt_noleft (by intro q hq; rw [hgl] at hq; cases hq; simpa using hpbf)]
        cases R with
        | nil =>
          simp [freeMidR, freeAddrs, List.filter_append, List.filter_cons,
            hbf, hpbf, Option.elim]
        | cons r R' =>
          by_cases hrf : r.free = true
          · rw [freeMidR_free hrf]
            simp [freeAddrs, List.filter_append, List.filter_cons, hbf, hpbf,
              hrf, Option.elim]
          · rw [freeMidR_no_free_head (by intro y hy; cases hy; simpa using hrf)]
            simp [freeAddrs, List.filter_append, List.filter_cons, hbf, hpbf,
              hrf, Option.elim]
            omega

end FLA

namespace FLA

theorem C8_witness :
    models (Free (AllocateAligned (construct 0 1024) 8 8).1
        (some ((⟨0, 8, false⟩ : Blk).addr + ALIGNED_HEADER_SIZE)))
      (absFreeAt [] ⟨0, 8, false⟩ [⟨16, 1000, true⟩])
    ∧ List.Chain' (· < ·)
        (chain (Free (AllocateAligned (construct 0 1024) 8 8).1
            (some ((⟨0, 8, false⟩ : Blk).addr + ALIGNED_HEADER_SIZE))).mem
          ((Free (AllocateAligned (construct 0 1024) 8 8).1
            (some ((⟨0, 8, false⟩ : Blk).addr + ALIGNED_HEADER_SIZE))).heapSize + 1)
          (Free (AllocateAligned (construct 0 1024) 8 8).1
            (some ((⟨0, 8, false⟩ : Blk).addr + ALIGNED_HEADER_SIZE))).m_firstFree)
    ∧ ((∃ pb, ([] : List Blk).getLast? = some pb ∧ pb.free = true
          ∧ pb.addr + pb.sz + ALIGNED_HEADER_SIZE = (⟨0, 8, false⟩ : Blk).addr)
        ↔ (⟨0, 8, false⟩ : Blk).addr
            ∉ freeAddrs (absFreeAt [] ⟨0, 8, false⟩ [⟨16, 1000, true⟩]))
    ∧ (freeAddrs (absFreeAt [] ⟨0, 8, false⟩ [⟨16, 1000, true⟩])).length
        = (freeAddrs ([] ++ (⟨0, 8, false⟩ : Blk) :: [⟨16, 1000, true⟩])).length + 1
          - (([] : List Blk).getLast?.elim 0 fun pb => if pb.free then 1 else 0)
          - (([⟨16, 1000, true⟩] : List Blk).head?.elim 0
              fun r => if r.free then 1 else 0) := by
  have hm' := (AllocateAligned_sim (construct 0 1024) [] []
      ⟨0, 1024 - ALIGNED_HEADER_SIZE, true⟩ 8 8
      (models_construct 0 1024 (by decide) (by decide) (by decide))
      (by intro b hb; cases hb) rfl (by decide) (by decide)).2.2.2.1
  exact C8_free_reinsertion (AllocateAligned (construct 0 1024) 8 8).1 []
    [⟨16, 1000, true⟩] ⟨0, 8, false⟩ hm' rfl

end FLA
